import Mathlib

/-!
Verification development for the Doris pipeline row-expansion operator
(`be/src/pipeline/exec/table_function_operator.cpp`,
`TableFunctionLocalState` / `TableFunctionOperatorX`).

The operator expands each input (child) row against an ordered list of
N table-valued-function (TVF) instances, producing the Cartesian product
of their per-row value sets, replicating pass-through columns, with
"outer" null-padding semantics and fixed-capacity resumable output
batches.

The shallow embedding below translates the operator's pure control logic
into Lean: columns become lists of values, machine ints become `Nat`
(with `Int` only where the source returns `-1` sentinels), and the two
`while` loops of `get_expanded_block` become a fuel-indexed recursion
returning `Option` (fuel exhaustion gives `none`; theorems about a
completed call hypothesise a `some` result).
-/

set_option maxHeartbeats 1000000

namespace TableFunctionOp

/-- A cell value in a column.  `null` doubles as the default value that
`insert_many_defaults` appends (the operator's useless pass-through
columns are nullable-padded); concrete payloads are integers. -/
inductive Val where
  | null : Val
  | int : Int → Val
deriving DecidableEq, Repr

instance : Inhabited Val := ⟨Val.null⟩

/-- Modelled from the spec: a TVF Instance (`vectorized::TableFunction`,
whose class is outside this repository slice; only its caller is in
`src/`).  `outer` is the static outer flag; `rowVals r` is the value set
the function produces for child row `r` (§4.2: `bind(row)` recomputes
`empty`; `emit` produces consecutive values from the current position;
`forward` advances the position; `reset` returns to the first value;
`eos` means no more values for the current row). -/
structure TF where
  outer : Bool
  rowVals : Nat → List Val

instance : Inhabited TF := ⟨⟨false, fun _ => []⟩⟩

/-- Modelled from the spec: the value sequence a TVF instance actually
walks for row `r`.  A non-empty value set is walked as-is; an empty set
with the outer flag contributes exactly one null value (§4.1 outer-empty
semantics); an empty set without the outer flag contributes nothing. -/
def TF.effVals (f : TF) (r : Nat) : List Val :=
  let vs := f.rowVals r
  if vs.isEmpty && f.outer then [Val.null] else vs

/-- Number of values instance `f` walks for row `r`. -/
def TF.effN (f : TF) (r : Nat) : Nat := (f.effVals r).length

/-- Static operator configuration (`TableFunctionOperatorX` fields):
the TVF list (`_fns`, `_fn_num = fns.length`), the number of
pass-through child slots (`_child_slots.size()`), the child-slot indices
still referenced downstream (`_output_slot_indexs`) and the unreferenced
ones (`_useless_slot_indexs`). -/
structure Config where
  fns : List TF
  childSlotCount : Nat
  outputSlotIndexs : List Nat
  uselessSlotIndexs : List Nat

/-- `_fn_num`. -/
def Config.fnNum (cfg : Config) : Nat := cfg.fns.length

/-- Mutable local state (`TableFunctionLocalState` fields):
`curChildOffset` models `_cur_child_offset` with `none` for `-1`;
`pos` holds each TVF instance's current offset into its effective value
sequence; `currentRowInsertTimes` is `_current_row_insert_times`;
`childBlock` is the buffered child block's rows (each row a list of
child-slot values); `childEos` is `_child_eos`. -/
structure LState where
  curChildOffset : Option Nat
  pos : List Nat
  currentRowInsertTimes : Nat
  childBlock : List (List Val)
  childEos : Bool
deriving DecidableEq, Repr

/-- Output columns of one fill call: `childSlotCount + fnNum` columns,
column `childSlotCount + i` belonging to TVF `i`. -/
abbrev Cols := List (List Val)

/-- Observable events of the fill loop, used to state call-sequence
claims: `roll k ok` is a `_roll_table_functions(k)` call returning `ok`;
`emit r t mc` is a `get_value` call on the last instance while row `r`
is bound, with `max_count` argument `mc`, returning `t`;
`nextRow` / `close i` come from `process_next_child_row` (`close i` is
`process_close` on instance `i`). -/
inductive Event where
  | roll : Int → Bool → Event
  | emit : Nat → Nat → Nat → Event
  | nextRow : Event
  | close : Nat → Event
deriving DecidableEq, Repr

/-! ### `_find_last_fn_eos_idx` -/

/-- Length of the maximal `true` prefix of a list of flags. -/
def leadingTrue : List Bool → Nat
  | [] => 0
  | b :: rest => if b then leadingTrue rest + 1 else 0

/-- `TableFunctionLocalState::_find_last_fn_eos_idx`, as a function of
the per-instance `eos` flags in index order.  The source scans `i` from
`N-1` down to `0` and at the first `i` with `!eos[i]` returns `-1` if
`i = N-1` and `i+1` otherwise, falling through to `0` when every
instance is eos.  With `t` the number of trailing eos flags, the first
non-eos index from the back is `N-1-t`, so the scan returns `-1` when
`t = 0`, `0` when `t = N`, and `N - t` otherwise. -/
def findLastFnEosIdx (eos : List Bool) : Int :=
  let t := leadingTrue eos.reverse
  if t = 0 then -1
  else if t = eos.length then 0
  else (eos.length : Int) - t

theorem leadingTrue_le (l : List Bool) : leadingTrue l ≤ l.length := by
  induction l with
  | nil => simp [leadingTrue]
  | cons b rest ih =>
    simp only [leadingTrue, List.length_cons]
    split <;> omega

theorem leadingTrue_spec (l : List Bool) :
    (∀ j, j < leadingTrue l → l.getD j false = true) ∧
      (leadingTrue l < l.length → l.getD (leadingTrue l) false = false) := by
  induction l with
  | nil => simp [leadingTrue]
  | cons b rest ih =>
    simp only [leadingTrue]
    by_cases hb : b = true
    · simp only [hb, if_true]
      constructor
      · intro j hj
        cases j with
        | zero => simp
        | succ j' => simpa using ih.1 j' (by omega)
      · intro hlt
        simpa using ih.2 (by simpa using hlt)
    · simp only [hb]
      simp only [Bool.false_eq_true, if_false]
      constructor
      · intro j hj; omega
      · intro _
        have hbf : b = false := eq_false_of_ne_true hb
        simp [hbf]

/-- Index `j` of `l` counted from the back:
`l.getD (l.length - 1 - j)`.  The trailing-true count of `l` is the
leading-true count of `l.reverse`. -/
theorem reverse_getD (l : List Bool) (j : Nat) (hj : j < l.length) :
    l.reverse.getD j false = l.getD (l.length - 1 - j) false := by
  rw [List.getD_eq_getElem?_getD, List.getD_eq_getElem?_getD,
    List.getElem?_reverse (by simpa using hj)]

/-- Characterization of the backward scan (matches the source's own
comment): with `t = leadingTrue eos.reverse` (the count of trailing eos
flags) and `N = eos.length ≥ 1`,
the result is `-1` iff the last flag is `false`; `0` iff every flag is
`true`; and `k` with `0 < k < N` iff flags `k..N-1` are `true` and flag
`k-1` is `false`. -/
theorem findLastFnEosIdx_eq_neg_one (eos : List Bool) (hN : 0 < eos.length) :
    findLastFnEosIdx eos = -1 ↔ eos.getD (eos.length - 1) false = false := by
  unfold findLastFnEosIdx
  have hrl : eos.reverse.length = eos.length := by simp
  constructor
  · intro h
    by_cases ht : leadingTrue eos.reverse = 0
    · have := (leadingTrue_spec eos.reverse).2 (by omega)
      rw [ht] at this
      rw [reverse_getD eos 0 hN] at this
      simpa using this
    · exfalso
      simp only [ht, if_false] at h
      by_cases hte : leadingTrue eos.reverse = eos.length
      · simp [hte] at h
      · simp only [hte, if_false] at h
        have hle := leadingTrue_le eos.reverse
        rw [hrl] at hle
        omega
  · intro h
    have ht : leadingTrue eos.reverse = 0 := by
      by_contra hne
      have := (leadingTrue_spec eos.reverse).1 0 (by omega)
      rw [reverse_getD eos 0 hN] at this
      simp only [Nat.sub_zero] at this
      rw [h] at this
      exact Bool.false_ne_true this
    simp [ht]

theorem findLastFnEosIdx_eq_zero (eos : List Bool) (hN : 0 < eos.length) :
    findLastFnEosIdx eos = 0 ↔ ∀ j, j < eos.length → eos.getD j false = true := by
  unfold findLastFnEosIdx
  have hrl : eos.reverse.length = eos.length := by simp
  constructor
  · intro h
    by_cases ht : leadingTrue eos.reverse = 0
    · simp [ht] at h
    · by_cases hte : leadingTrue eos.reverse = eos.length
      · intro j hj
        have := (leadingTrue_spec eos.reverse).1 (eos.length - 1 - j) (by omega)
        rw [reverse_getD eos _ (by omega)] at this
        have hjj : eos.length - 1 - (eos.length - 1 - j) = j := by omega
        rwa [hjj] at this
      · exfalso
        simp only [ht, hte, if_false] at h
        have hle := leadingTrue_le eos.reverse
        rw [hrl] at hle
        omega
  · intro h
    have ht : leadingTrue eos.reverse = eos.length := by
      by_contra hne
      have hle := leadingTrue_le eos.reverse
      rw [hrl] at hle
      have := (leadingTrue_spec eos.reverse).2 (by omega)
      rw [reverse_getD eos _ (by omega)] at this
      rw [h _ (by omega)] at this
      simp at this
    rw [ht]
    have hne : eos.length ≠ 0 := by omega
    simp [hne]

theorem findLastFnEosIdx_eq_pos (eos : List Bool) (k : Nat)
    (hk : 0 < k) (hkN : k < eos.length) :
    findLastFnEosIdx eos = (k : Int) ↔
      ((∀ j, k ≤ j → j < eos.length → eos.getD j false = true) ∧
        eos.getD (k - 1) false = false) := by
  unfold findLastFnEosIdx
  have hrl : eos.reverse.length = eos.length := by simp
  have hle := leadingTrue_le eos.reverse
  rw [hrl] at hle
  constructor
  · intro h
    by_cases ht : leadingTrue eos.reverse = 0
    · exfalso; simp only [ht, if_true] at h; omega
    · by_cases hte : leadingTrue eos.reverse = eos.length
      · exfalso; simp only [ht, hte, if_true, if_false] at h; omega
      · simp only [ht, hte, if_false] at h
        have hkt : leadingTrue eos.reverse = eos.length - k := by omega
        constructor
        · intro j hjk hjN
          have := (leadingTrue_spec eos.reverse).1 (eos.length - 1 - j) (by omega)
          rw [reverse_getD eos _ (by omega)] at this
          have hjj : eos.length - 1 - (eos.length - 1 - j) = j := by omega
          rwa [hjj] at this
        · have := (leadingTrue_spec eos.reverse).2 (by omega)
          rw [reverse_getD eos _ (by omega)] at this
          have hjj : eos.length - 1 - leadingTrue eos.reverse = k - 1 := by omega
          rwa [hjj] at this
  · rintro ⟨hall, hlast⟩
    have ht : leadingTrue eos.reverse = eos.length - k := by
      rcases Nat.lt_trichotomy (leadingTrue eos.reverse) (eos.length - k) with hlt | heq | hgt
      · exfalso
        have := (leadingTrue_spec eos.reverse).2 (by omega)
        rw [reverse_getD eos _ (by omega)] at this
        rw [hall _ (by omega) (by omega)] at this
        simp at this
      · exact heq
      · exfalso
        have := (leadingTrue_spec eos.reverse).1 (eos.length - k) (by omega)
        rw [reverse_getD eos _ (by omega)] at this
        have hjj : eos.length - 1 - (eos.length - k) = k - 1 := by omega
        rw [hjj, hlast] at this
        exact Bool.false_ne_true this
    rw [ht]
    have h1 : ¬(eos.length - k = 0) := by omega
    have h2 : ¬(eos.length - k = eos.length) := by omega
    simp only [h1, h2, if_false]
    omega

/-! ### `_roll_table_functions` -/

/-- `forward()` on instance `i` (modelled from the spec: advance the
instance's offset by one; `eos` afterwards iff the offset reaches the
size of its value sequence). -/
def forwardAt (pos : List Nat) (i : Nat) : List Nat := pos.set i (pos.getD i 0 + 1)

/-- The backward cascade inside `_roll_table_functions`: the first
argument counts the indexes still to visit, so `rollLoop n (i+1) pos`
visits index `i` next (the source starts at `last_eos_idx - 1` and steps
`--i`), forwarding each visited instance and breaking at the first one
that is not eos after forwarding (`pos[i]+1 < n[i]`); `none` models the
scan running past index `-1`.  `n` is the per-instance value-sequence
size for the currently bound row. -/
def rollLoop (n : List Nat) : Nat → List Nat → Option Nat × List Nat
  | 0, pos => (none, pos)
  | i + 1, pos =>
    let pos' := forwardAt pos i
    if pos'.getD i 0 < n.getD i 0 then (some i, pos')
    else rollLoop n i pos'

/-- `reset()` of every instance with index `> i` (return to the first
value: offset `0`). -/
def resetAbove (pos : List Nat) (i : Nat) : List Nat :=
  pos.mapIdx (fun j p => if i < j then 0 else p)

/-- `TableFunctionLocalState::_roll_table_functions(last_eos_idx)`: run
the backward cascade from `last_eos_idx - 1`; on break at `i`, reset
every instance above `i` and return `true`; if the cascade passes `-1`,
return `false` with no resets. -/
def rollTableFunctions (n : List Nat) (pos : List Nat) (idx : Nat) : Bool × List Nat :=
  match rollLoop n idx pos with
  | (none, pos') => (false, pos')
  | (some i, pos') => (true, resetAbove pos' i)

theorem getD_set_self (l : List Nat) (i : Nat) (v : Nat) (h : i < l.length) :
    (l.set i v).getD i 0 = v := by
  rw [List.getD_eq_getElem?_getD, List.getElem?_set_eq_of_lt v h]
  rfl

theorem getD_set_ne (l : List Nat) (i j : Nat) (v : Nat) (h : i ≠ j) :
    (l.set i v).getD j 0 = l.getD j 0 := by
  rw [List.getD_eq_getElem?_getD, List.getD_eq_getElem?_getD, List.getElem?_set_ne h]

theorem forwardAt_getD_self (pos : List Nat) (i : Nat) (h : i < pos.length) :
    (forwardAt pos i).getD i 0 = pos.getD i 0 + 1 :=
  getD_set_self pos i _ h

theorem forwardAt_getD_ne (pos : List Nat) (i j : Nat) (h : i ≠ j) :
    (forwardAt pos i).getD j 0 = pos.getD j 0 :=
  getD_set_ne pos i j _ h

theorem forwardAt_length (pos : List Nat) (i : Nat) :
    (forwardAt pos i).length = pos.length := by
  simp [forwardAt]

theorem resetAbove_getD (l : List Nat) (i j : Nat) :
    (resetAbove l i).getD j 0 = if i < j then 0 else l.getD j 0 := by
  by_cases hj : j < l.length
  · rw [List.getD_eq_getElem?_getD, resetAbove,
      List.getElem?_eq_getElem (by simpa using hj)]
    rw [List.getElem_mapIdx]
    rw [List.getD_eq_getElem?_getD, List.getElem?_eq_getElem hj]
    rfl
  · have h1 : (resetAbove l i).getD j 0 = 0 := by
      rw [List.getD_eq_getElem?_getD, List.getElem?_eq_none (by simpa [resetAbove] using hj)]
      rfl
    have h2 : l.getD j 0 = 0 := by
      rw [List.getD_eq_getElem?_getD, List.getElem?_eq_none (by omega)]
      rfl
    rw [h1, h2]
    simp

theorem resetAbove_length (l : List Nat) (i : Nat) :
    (resetAbove l i).length = l.length := by
  simp [resetAbove]

theorem rollLoop_length (n : List Nat) :
    ∀ k pos, ((rollLoop n k pos).2).length = pos.length := by
  intro k
  induction k with
  | zero => intro pos; rfl
  | succ i ih =>
    intro pos
    simp only [rollLoop]
    split
    · simp [forwardAt]
    · rw [ih]
      simp [forwardAt]

/-- Failure case of the cascade: when every instance below `k` is eos
even after forwarding, the scan passes `-1`, and every instance below
`k` has been forwarded exactly once. -/
theorem rollLoop_fail (n : List Nat) :
    ∀ (k : Nat) (pos : List Nat), k ≤ pos.length →
    (∀ i, i < k → n.getD i 0 ≤ pos.getD i 0 + 1) →
    (rollLoop n k pos).1 = none ∧
      ∀ j, ((rollLoop n k pos).2).getD j 0 =
        if j < k then pos.getD j 0 + 1 else pos.getD j 0 := by
  intro k
  induction k with
  | zero =>
    intro pos _ _
    exact ⟨rfl, fun j => by simp [rollLoop]⟩
  | succ i ih =>
    intro pos hk hall
    have hfwd : (forwardAt pos i).getD i 0 = pos.getD i 0 + 1 :=
      forwardAt_getD_self pos i (by omega)
    have hnb : ¬ ((forwardAt pos i).getD i 0 < n.getD i 0) := by
      rw [hfwd]
      exact Nat.not_lt.mpr (hall i (by omega))
    simp only [rollLoop, hnb, if_false]
    have hlen : (forwardAt pos i).length = pos.length := forwardAt_length pos i
    have hall' : ∀ j, j < i → n.getD j 0 ≤ (forwardAt pos i).getD j 0 + 1 := by
      intro j hj
      rw [forwardAt_getD_ne pos i j (by omega)]
      exact hall j (by omega)
    obtain ⟨h1, h2⟩ := ih (forwardAt pos i) (by omega) hall'
    refine ⟨h1, fun j => ?_⟩
    rw [h2 j]
    by_cases hji : j < i
    · rw [if_pos hji, if_pos (by omega), forwardAt_getD_ne pos i j (by omega)]
    · by_cases hje : j = i
      · subst hje
        rw [if_neg (by omega), if_pos (by omega), hfwd]
      · rw [if_neg hji, if_neg (by omega), forwardAt_getD_ne pos i j (by omega)]

/-- Break case of the cascade: `i` is the highest index below `k` that
is not eos after forwarding; every instance in `(i, k)` is forwarded to
eos, instance `i` is forwarded, and the scan breaks at `i`. -/
theorem rollLoop_break (n : List Nat) :
    ∀ (k : Nat) (pos : List Nat) (i : Nat), k ≤ pos.length → i < k →
    pos.getD i 0 + 1 < n.getD i 0 →
    (∀ j, i < j → j < k → n.getD j 0 ≤ pos.getD j 0 + 1) →
    (rollLoop n k pos).1 = some i ∧
      ∀ j, ((rollLoop n k pos).2).getD j 0 =
        if i ≤ j ∧ j < k then pos.getD j 0 + 1 else pos.getD j 0 := by
  intro k
  induction k with
  | zero => intro pos i _ hik; omega
  | succ m ih =>
    intro pos i hk hik hbreak habove
    have hfwd : (forwardAt pos m).getD m 0 = pos.getD m 0 + 1 :=
      forwardAt_getD_self pos m (by omega)
    by_cases him : i = m
    · subst him
      have hb : (forwardAt pos i).getD i 0 < n.getD i 0 := by rw [hfwd]; exact hbreak
      refine ⟨by simp only [rollLoop, if_pos hb], fun j => ?_⟩
      simp only [rollLoop, if_pos hb]
      by_cases hji : j = i
      · subst hji
        rw [hfwd, if_pos (by omega)]
      · rw [forwardAt_getD_ne pos i j (fun h => hji h.symm)]
        rw [if_neg (by omega)]
    · have hmlt : i < m := by omega
      have hnb : ¬ ((forwardAt pos m).getD m 0 < n.getD m 0) := by
        rw [hfwd]
        exact Nat.not_lt.mpr (habove m (by omega) (by omega))
      simp only [rollLoop, hnb, if_false]
      have hlen : (forwardAt pos m).length = pos.length := forwardAt_length pos m
      have hbreak' : (forwardAt pos m).getD i 0 + 1 < n.getD i 0 := by
        rw [forwardAt_getD_ne pos m i (by omega)]
        exact hbreak
      have habove' : ∀ j, i < j → j < m → n.getD j 0 ≤ (forwardAt pos m).getD j 0 + 1 := by
        intro j h1 h2
        rw [forwardAt_getD_ne pos m j (by omega)]
        exact habove j h1 (by omega)
      obtain ⟨h1, h2⟩ := ih (forwardAt pos m) i (by omega) hmlt hbreak' habove'
      refine ⟨h1, fun j => ?_⟩
      rw [h2 j]
      by_cases hjm : j = m
      · subst hjm
        rw [if_neg (by omega), if_pos (by omega), hfwd]
      · rw [forwardAt_getD_ne pos m j (fun h => hjm h.symm)]
        by_cases hcond : i ≤ j ∧ j < m
        · rw [if_pos hcond, if_pos (by omega)]
        · rw [if_neg hcond, if_neg (by omega)]

/-! ### State-derived queries and the fill loop -/

/-- The bound row index (`_cur_child_offset`); only meaningful when a
row is bound. -/
def LState.curRow (st : LState) : Nat := st.curChildOffset.getD 0

/-- Per-instance value-sequence sizes for row `r`. -/
def Config.sizes (cfg : Config) (r : Nat) : List Nat :=
  cfg.fns.map (fun f => f.effN r)

/-- Per-instance `eos()` flags in index order: instance `i` is eos when
its offset has reached the end of its value sequence for the bound
row. -/
def eosVec (cfg : Config) (st : LState) : List Bool :=
  (List.range cfg.fnNum).map
    (fun i => decide ((cfg.sizes st.curRow).getD i 0 ≤ st.pos.getD i 0))

/-- `TableFunctionLocalState::_is_inner_and_empty`, as a function of the
bound row (`current_empty()` is row-scoped): some instance is not outer
and produced zero values for row `r`. -/
def isInnerAndEmptyRow (cfg : Config) (r : Nat) : Bool :=
  cfg.fns.any (fun f => !f.outer && (f.rowVals r).isEmpty)

/-- Replace column `i` by `f` applied to it. -/
def modifyCol (cols : Cols) (i : Nat) (f : List Val → List Val) : Cols :=
  cols.set i (f (cols.getD i []))

/-- Size of column `i`. -/
def colSize (cols : Cols) (i : Nat) : Nat := (cols.getD i []).length

/-- `TableFunctionLocalState::_copy_output_slots`: when a replication
count is pending, append the bound row's value of every needed child
slot `_current_row_insert_times` times to that slot's output column
(`insert_many_from`), then clear the count. -/
def copyOutputSlots (cfg : Config) (st : LState) (cols : Cols) : LState × Cols :=
  if st.currentRowInsertTimes = 0 then (st, cols)
  else
    let srcRow := st.childBlock.getD st.curRow []
    let cols' := cfg.outputSlotIndexs.foldl
      (fun cs index => modifyCol cs index
        (fun c => c ++ List.replicate st.currentRowInsertTimes (srcRow.getD index Val.null)))
      cols
    ({ st with currentRowInsertTimes := 0 }, cols')

/-- `TableFunctionLocalState::process_next_child_row`: advance
`_cur_child_offset` (from `-1` to `0`); past the last buffered row,
`process_close` every instance, clear the child block's columns and
mark no row bound (`-1`); otherwise `process_row` binds the new row on
every instance, resetting each instance's emission offset. -/
def processNextChildRow (cfg : Config) (st : LState) : LState × List Event :=
  let off := match st.curChildOffset with
    | none => 0
    | some r => r + 1
  if st.childBlock.length ≤ off then
    ({ st with curChildOffset := none, childBlock := [] },
      (List.range cfg.fnNum).map Event.close)
  else
    ({ st with curChildOffset := some off, pos := List.replicate cfg.fnNum 0 },
      [Event.nextRow])

/-- Output-column index of TVF `i`. -/
def Config.fnColIdx (cfg : Config) (i : Nat) : Nat := cfg.childSlotCount + i

/-- `get_value` on the last instance (modelled from the spec: produce up
to `maxCount` consecutive values from the current offset into the
instance's output column, advance the offset by the number produced,
and return that number; an outer-empty instance's sequence is the
single null). -/
def emitLast (cfg : Config) (st : LState) (cols : Cols) (maxCount : Nat) :
    Nat × LState × Cols :=
  let i := cfg.fnNum - 1
  let ev := (cfg.fns.getD i default).effVals st.curRow
  let p := st.pos.getD i 0
  let t := min maxCount (ev.length - p)
  (t, { st with pos := st.pos.set i (p + t) },
    modifyCol cols (cfg.fnColIdx i) (fun c => c ++ (ev.drop p).take t))

/-- `get_same_many_values` on every non-last instance (modelled from
the spec: append the instance's current value `t` times to its output
column). -/
def emitRepeated (cfg : Config) (st : LState) (cols : Cols) (t : Nat) : Cols :=
  (List.range (cfg.fnNum - 1)).foldl
    (fun cs i => modifyCol cs (cfg.fnColIdx i)
      (fun c => c ++ List.replicate t
        (((cfg.fns.getD i default).effVals st.curRow).getD (st.pos.getD i 0) Val.null)))
    cols

/-- Result of one inner-loop iteration: `brk` is the `break` once the
child block is exhausted, `next` carries the updated state, columns,
`skip_child_row` flag and the iteration's events. -/
inductive StepRes where
  | brk : LState → Cols → List Event → StepRes
  | next : LState → Cols → Bool → List Event → StepRes

/-- Tail of one inner-loop iteration, from the outer-empty skip check
onwards: recompute `skip_child_row`; if it is set, `continue`;
otherwise `get_value` on the last instance with
`max_count = batch_size - size`, accumulate the returned repeat count
into `_current_row_insert_times`, and `get_same_many_values` on every
other instance with that count. -/
def skipCheckAndEmit (cfg : Config) (cap : Nat) (st : LState) (cols : Cols)
    (evs : List Event) : StepRes :=
  if isInnerAndEmptyRow cfg st.curRow then .next st cols true evs
  else
    let maxCount := cap - colSize cols cfg.childSlotCount
    let e := emitLast cfg st cols maxCount
    let st₂ := { e.2.1 with currentRowInsertTimes := e.2.1.currentRowInsertTimes + e.1 }
    .next st₂ (emitRepeated cfg st₂ e.2.2 e.1) false
      (evs ++ [Event.emit st.curRow e.1 maxCount])

/-- Body of the inner `while` loop of `get_expanded_block` (after the
capacity guard): dispatch on `_find_last_fn_eos_idx` and
`skip_child_row` — flush-and-advance when the row is exhausted or
skipped (breaking when the block is drained), roll when a proper suffix
of instances is eos (`continue` when rolling finds the row exhausted) —
then fall through to the skip check and emission. -/
def innerBody (cfg : Config) (cap : Nat) (st : LState) (cols : Cols) (skip : Bool) :
    StepRes :=
  let idx := findLastFnEosIdx (eosVec cfg st)
  if idx = 0 ∨ skip = true then
    let fl := copyOutputSlots cfg st cols
    let pr := processNextChildRow cfg fl.1
    if pr.1.curChildOffset = none then .brk pr.1 fl.2 pr.2
    else skipCheckAndEmit cfg cap pr.1 fl.2 pr.2
  else if idx < (cfg.fnNum : Int) ∧ idx ≠ -1 then
    let rl := rollTableFunctions (cfg.sizes st.curRow) st.pos idx.toNat
    if rl.1 then skipCheckAndEmit cfg cap { st with pos := rl.2 } cols [Event.roll idx true]
    else .next { st with pos := rl.2 } cols skip [Event.roll idx false]
  else
    skipCheckAndEmit cfg cap st cols []

/-- The inner `while` loop: re-check the capacity guard
(`columns[child_slots.size()]->size() < batch_size`), run the body,
repeat.  Fuel-indexed: `none` means the fuel ran out before the loop
finished. -/
def innerLoopGo (cfg : Config) (cap : Nat) :
    Nat → LState → Cols → Bool → Option (LState × Cols × List Event)
  | 0, _, _, _ => none
  | fuel + 1, st, cols, skip =>
    if colSize cols cfg.childSlotCount < cap then
      match innerBody cfg cap st cols skip with
      | .brk st' cols' ev => some (st', cols', ev)
      | .next st' cols' skip' ev =>
        (innerLoopGo cfg cap fuel st' cols' skip').map
          (fun x => (x.1, x.2.1, ev ++ x.2.2))
    else some (st, cols, [])

/-- The fresh mutable columns of one fill call (`mem_reuse` build over
the caller's cleared output block): one empty column per output slot. -/
def emptyCols (cfg : Config) : Cols :=
  List.replicate (cfg.childSlotCount + cfg.fnNum) []

/-- End-of-call padding: extend every useless pass-through column with
default values (`insert_many_defaults`) up to
`row_size = columns[child_slots.size()]->size()`. -/
def padUseless (cfg : Config) (cols : Cols) : Cols :=
  let rowSize := colSize cols cfg.childSlotCount
  cfg.uselessSlotIndexs.foldl
    (fun cs index => modifyCol cs index
      (fun c => c ++ List.replicate (rowSize - c.length) Val.null))
    cols

/-- Result of one completed `get_expanded_block` call. -/
structure FillResult where
  state : LState
  cols : Cols
  events : List Event
  eos : Bool
deriving DecidableEq, Repr

/-- `TableFunctionLocalState::get_expanded_block`: when the buffered
child block is empty the loops are skipped (`rows() == 0` break, and
both `while` guards coincide with the inner loop's own guard);
afterwards flush the pending replication, pad the useless columns, and
report end-of-stream iff the child is exhausted and no row is bound.
The external conjunct filter is out of scope (§6). -/
def getExpandedBlock (cfg : Config) (cap : Nat) (fuel : Nat) (st : LState) :
    Option FillResult :=
  let run := if st.childBlock = [] then some (st, emptyCols cfg, ([] : List Event))
             else innerLoopGo cfg cap fuel st (emptyCols cfg) false
  run.map (fun x =>
    let fl := copyOutputSlots cfg x.1 x.2.1
    ⟨fl.1, padUseless cfg fl.2, x.2.2, fl.1.childEos && fl.1.curChildOffset.isNone⟩)

/-- Modelled from the spec: the Row Binder receiving a child block
(`TableFunctionOperatorX::push`, declared outside this slice): record
the child's end-of-stream flag, buffer the block, and when it is
non-empty bind its first row via `process_next_child_row` (from
`_cur_child_offset = -1`). -/
def pushBlock (cfg : Config) (block : List (List Val)) (childEos : Bool) : LState :=
  let st : LState := ⟨none, List.replicate cfg.fnNum 0, 0, block, childEos⟩
  if block = [] then st
  else (processNextChildRow cfg st).1

/-! ### Column helper lemmas -/

theorem getD_set_self' {α : Type} (l : List α) (i : Nat) (v d : α) (h : i < l.length) :
    (l.set i v).getD i d = v := by
  rw [List.getD_eq_getElem?_getD, List.getElem?_set_eq_of_lt v h]
  rfl

theorem getD_set_ne' {α : Type} (l : List α) (i j : Nat) (v d : α) (h : i ≠ j) :
    (l.set i v).getD j d = l.getD j d := by
  rw [List.getD_eq_getElem?_getD, List.getD_eq_getElem?_getD, List.getElem?_set_ne h]

theorem modifyCol_getD_ne (cols : Cols) (i j : Nat) (f : List Val → List Val)
    (h : i ≠ j) : (modifyCol cols i f).getD j [] = cols.getD j [] :=
  getD_set_ne' cols i j _ [] h

theorem modifyCol_getD_self (cols : Cols) (i : Nat) (f : List Val → List Val)
    (h : i < cols.length) : (modifyCol cols i f).getD i [] = f (cols.getD i []) :=
  getD_set_self' cols i _ [] h

theorem modifyCol_length (cols : Cols) (i : Nat) (f : List Val → List Val) :
    (modifyCol cols i f).length = cols.length := by
  simp [modifyCol]

theorem foldl_modifyCol_getD_ne (F : Nat → List Val → List Val) (j : Nat) :
    ∀ (l : List Nat) (cols : Cols), (∀ i ∈ l, i ≠ j) →
    (l.foldl (fun cs i => modifyCol cs i (F i)) cols).getD j [] = cols.getD j [] := by
  intro l
  induction l with
  | nil => intro cols _; rfl
  | cons a rest ih =>
    intro cols h
    simp only [List.foldl_cons]
    rw [ih _ (fun i hi => h i (List.mem_cons_of_mem a hi))]
    exact modifyCol_getD_ne cols a j _ (h a (List.mem_cons_self a rest))

theorem foldl_modifyCol_length (F : Nat → List Val → List Val) :
    ∀ (l : List Nat) (cols : Cols),
    (l.foldl (fun cs i => modifyCol cs i (F i)) cols).length = cols.length := by
  intro l
  induction l with
  | nil => intro cols; rfl
  | cons a rest ih =>
    intro cols
    simp only [List.foldl_cons]
    rw [ih, modifyCol_length]

/-- Events of one iteration result. -/
def StepRes.events : StepRes → List Event
  | .brk _ _ e => e
  | .next _ _ _ e => e

/-- State of one iteration result. -/
def StepRes.state : StepRes → LState
  | .brk s _ _ => s
  | .next s _ _ _ => s

/-- Columns of one iteration result. -/
def StepRes.cols : StepRes → Cols
  | .brk _ c _ => c
  | .next _ c _ _ => c

/-! ### Claim C2 -/

/-- C2: for every vector of per-instance eos flags over `N ≥ 1`
instances, the pivot-locating scan `_find_last_fn_eos_idx` returns `-1`
iff instance `N-1` is not eos, returns `0` iff every instance is eos,
and returns `k` with `0 < k < N` iff instances `k..N-1` are all eos and
instance `k-1` is not. -/
theorem C2_findLastFnEosIdx_pivot (eos : List Bool) (hN : 0 < eos.length) :
    (findLastFnEosIdx eos = -1 ↔ eos.getD (eos.length - 1) false = false) ∧
    (findLastFnEosIdx eos = 0 ↔ ∀ j, j < eos.length → eos.getD j false = true) ∧
    (∀ k : Nat, 0 < k → k < eos.length →
      (findLastFnEosIdx eos = (k : Int) ↔
        (∀ j, j < eos.length → k ≤ j → eos.getD j false = true) ∧
          eos.getD (k - 1) false = false)) := by
  refine ⟨findLastFnEosIdx_eq_neg_one eos hN, findLastFnEosIdx_eq_zero eos hN,
    fun k hk hkN => ?_⟩
  constructor
  · intro h
    obtain ⟨h1, h2⟩ := (findLastFnEosIdx_eq_pos eos k hk hkN).mp h
    exact ⟨fun j hj hkj => h1 j hkj hj, h2⟩
  · rintro ⟨h1, h2⟩
    exact (findLastFnEosIdx_eq_pos eos k hk hkN).mpr ⟨fun j hkj hj => h1 j hj hkj, h2⟩

/-- Witness for C2: at `eos = [false, true, true]` the scan returns
`1`, instances `1..2` being eos and instance `0` not. -/
theorem C2_findLastFnEosIdx_pivot_witness :
    findLastFnEosIdx [false, true, true] = 1 :=
  ((C2_findLastFnEosIdx_pivot [false, true, true] (by decide)).2.2 1 (by decide)
    (by decide)).mpr (by decide)

/-! ### Claim C3 -/

/-- Failure side of `_roll_table_functions`: every instance below the
pivot is eos even after forwarding — the roll reports `false`, each
visited instance is forwarded once and none is reset. -/
theorem rollTableFunctions_fail (n pos : List Nat) (k : Nat)
    (hk : k ≤ pos.length)
    (hall : ∀ i, i < k → n.getD i 0 ≤ pos.getD i 0 + 1) :
    (rollTableFunctions n pos k).1 = false ∧
      ∀ j, ((rollTableFunctions n pos k).2).getD j 0 =
        if j < k then pos.getD j 0 + 1 else pos.getD j 0 := by
  obtain ⟨h1, h2⟩ := rollLoop_fail n k pos hk hall
  unfold rollTableFunctions
  rcases heq : rollLoop n k pos with ⟨o, p'⟩
  rw [heq] at h1 h2
  simp only at h1
  subst h1
  exact ⟨rfl, fun j => h2 j⟩

/-- Success side of `_roll_table_functions`: `i` is the highest index
below the pivot that is not eos after forwarding — the roll reports
`true`, instance `i` is forwarded, instances above `i` are reset, and
instances below `i` are untouched. -/
theorem rollTableFunctions_break (n pos : List Nat) (k i : Nat)
    (hk : k ≤ pos.length) (hik : i < k)
    (hbreak : pos.getD i 0 + 1 < n.getD i 0)
    (habove : ∀ j, j < k → i < j → n.getD j 0 ≤ pos.getD j 0 + 1) :
    (rollTableFunctions n pos k).1 = true ∧
      ∀ j, ((rollTableFunctions n pos k).2).getD j 0 =
        if j < i then pos.getD j 0 else if j = i then pos.getD i 0 + 1 else 0 := by
  obtain ⟨h1, h2⟩ :=
    rollLoop_break n k pos i hk hik hbreak (fun j h1 h2 => habove j h2 h1)
  unfold rollTableFunctions
  rcases heq : rollLoop n k pos with ⟨o, p'⟩
  rw [heq] at h1 h2
  simp only at h1 h2
  subst h1
  refine ⟨rfl, fun j => ?_⟩
  simp only
  rw [resetAbove_getD, h2 j]
  by_cases hji : j < i
  · rw [if_neg (by omega), if_neg (by omega), if_pos hji]
  · by_cases hje : j = i
    · subst hje
      rw [if_neg (by omega), if_pos ⟨le_refl j, by omega⟩, if_neg (by omega),
        if_pos rfl]
    · rw [if_pos (by omega), if_neg hji, if_neg hje]

theorem rollTableFunctions_length (n pos : List Nat) (idx : Nat) :
    ((rollTableFunctions n pos idx).2).length = pos.length := by
  unfold rollTableFunctions
  rcases heq : rollLoop n idx pos with ⟨o, p'⟩
  have hl := rollLoop_length n idx pos
  rw [heq] at hl
  cases o
  · simpa using hl
  · simp only
    rw [resetAbove_length]
    simpa using hl

/-- C3: rolling at pivot `k` (`0 < k ≤ N`), with `pos` the instance
offsets and `n` the value-sequence sizes for the bound row (instance
`i` is eos iff `n i ≤ pos i`, so "not eos after forwarding" is
`pos i + 1 < n i`): if every instance below `k` is eos even after
forwarding, the roll returns `false` and every visited instance is
merely forwarded, none reset; otherwise, with `i` the highest index
below `k` not eos after forwarding, it returns `true`, leaves instances
below `i` unchanged, forwards instance `i`, and resets every instance
above `i` to its initial offset `0`. -/
theorem C3_rollTableFunctions_spec (n pos : List Nat) (k : Nat)
    (hk0 : 0 < k) (hk : k ≤ pos.length) :
    ((∀ i, i < k → n.getD i 0 ≤ pos.getD i 0 + 1) →
      (rollTableFunctions n pos k).1 = false ∧
        ∀ j, ((rollTableFunctions n pos k).2).getD j 0 =
          if j < k then pos.getD j 0 + 1 else pos.getD j 0) ∧
    (∀ i, i < k → pos.getD i 0 + 1 < n.getD i 0 →
      (∀ j, j < k → i < j → n.getD j 0 ≤ pos.getD j 0 + 1) →
      (rollTableFunctions n pos k).1 = true ∧
        ∀ j, ((rollTableFunctions n pos k).2).getD j 0 =
          if j < i then pos.getD j 0 else if j = i then pos.getD i 0 + 1 else 0) :=
  ⟨fun hall => rollTableFunctions_fail n pos k hk hall,
    fun i hik hbreak habove => rollTableFunctions_break n pos k i hk hik hbreak habove⟩

/-- Witness for C3: `n = [2, 3]`, `pos = [0, 3]`, pivot `k = 1`:
instance `0` is forwarded to offset `1` (not eos), instance `1` is
reset to `0`, and the roll reports `true`. -/
theorem C3_rollTableFunctions_spec_witness :
    (rollTableFunctions [2, 3] [0, 3] 1).1 = true ∧
      ((rollTableFunctions [2, 3] [0, 3] 1).2).getD 0 0 = 1 ∧
      ((rollTableFunctions [2, 3] [0, 3] 1).2).getD 1 0 = 0 := by
  obtain ⟨-, hs⟩ := C3_rollTableFunctions_spec [2, 3] [0, 3] 1 (by decide) (by decide)
  obtain ⟨h1, h2⟩ := hs 0 (by decide) (by decide) (fun j hj hij => by omega)
  refine ⟨h1, ?_, ?_⟩
  · have := h2 0
    simpa using this
  · have := h2 1
    simpa using this

/-! ### Iteration-level lemmas -/

/-- Concrete one-function fixture (non-outer, two values per row) used
by witnesses. -/
def cfg1 : Config := ⟨[⟨false, fun _ => [Val.int 1, Val.int 2]⟩], 1, [0], []⟩

/-- Concrete state: a two-row child block, bound at row 0. -/
def st2rows : LState := ⟨some 0, [0], 0, [[Val.int 10], [Val.int 11]], false⟩

theorem foldl_getD_stable (g : Cols → Nat → Cols) (j : Nat)
    (hg : ∀ cs i, i ≠ j → (g cs i).getD j [] = cs.getD j []) :
    ∀ (l : List Nat) (cols : Cols), (∀ i ∈ l, i ≠ j) →
    (l.foldl g cols).getD j [] = cols.getD j [] := by
  intro l
  induction l with
  | nil => intro cols _; rfl
  | cons a rest ih =>
    intro cols h
    simp only [List.foldl_cons]
    rw [ih _ (fun i hi => h i (List.mem_cons_of_mem a hi)),
      hg cols a (h a (List.mem_cons_self a rest))]

/-- The flush returns the same local state with the pending count
cleared. -/
theorem copyOutputSlots_fst (cfg : Config) (st : LState) (cols : Cols) :
    (copyOutputSlots cfg st cols).1 = { st with currentRowInsertTimes := 0 } := by
  obtain ⟨off, pos, times, block, ceos⟩ := st
  unfold copyOutputSlots
  by_cases h : times = 0
  · rw [if_pos h]
    subst h
    rfl
  · rw [if_neg h]

/-- The flush only touches the needed pass-through columns: any column
index outside `_output_slot_indexs` keeps its content. -/
theorem copyOutputSlots_getD_stable (cfg : Config) (st : LState) (cols : Cols)
    (j : Nat) (hj : ∀ i ∈ cfg.outputSlotIndexs, i ≠ j) :
    ((copyOutputSlots cfg st cols).2).getD j [] = cols.getD j [] := by
  unfold copyOutputSlots
  by_cases h : st.currentRowInsertTimes = 0
  · rw [if_pos h]
  · rw [if_neg h]
    exact foldl_getD_stable _ j
      (fun cs i hij => modifyCol_getD_ne cs i j _ hij) _ cols hj

theorem copyOutputSlots_colSize_stable (cfg : Config) (st : LState) (cols : Cols)
    (j : Nat) (hj : ∀ i ∈ cfg.outputSlotIndexs, i ≠ j) :
    colSize (copyOutputSlots cfg st cols).2 j = colSize cols j := by
  unfold colSize
  rw [copyOutputSlots_getD_stable cfg st cols j hj]

/-- `process_next_child_row`, characterized (used by claim C7 and by
the loop analysis): within the block it re-binds the next row with no
close; past the last row it closes every instance and clears the
block. -/
theorem processNextChildRow_spec (cfg : Config) (st : LState) (r : Nat)
    (hoff : st.curChildOffset = some r) :
    (r + 1 < st.childBlock.length →
      processNextChildRow cfg st =
        ({ st with curChildOffset := some (r + 1),
                   pos := List.replicate cfg.fnNum 0 }, [Event.nextRow])) ∧
    (st.childBlock.length ≤ r + 1 →
      processNextChildRow cfg st =
        ({ st with curChildOffset := none, childBlock := [] },
          (List.range cfg.fnNum).map Event.close)) := by
  obtain ⟨off, pos, times, block, ceos⟩ := st
  have hoff' : off = some r := hoff
  subst hoff'
  simp only [processNextChildRow]
  constructor
  · intro h
    have h' : r + 1 < block.length := h
    rw [if_neg (by omega)]
  · intro h
    have h' : block.length ≤ r + 1 := h
    rw [if_pos (by omega)]

/-- The events of `process_next_child_row` are a rebind or the per-fn
closes — never an emit or a roll. -/
theorem processNextChildRow_events (cfg : Config) (st : LState) :
    (processNextChildRow cfg st).2 = [Event.nextRow] ∨
      (processNextChildRow cfg st).2 = (List.range cfg.fnNum).map Event.close := by
  dsimp only [processNextChildRow]
  split
  · right; rfl
  · left; rfl

theorem emit_not_mem_processNextChildRow (cfg : Config) (st : LState)
    (r t mc : Nat) : Event.emit r t mc ∉ (processNextChildRow cfg st).2 := by
  rcases processNextChildRow_events cfg st with he | he <;> rw [he]
  · simp
  · simp

theorem roll_not_mem_processNextChildRow (cfg : Config) (st : LState)
    (k : Int) (ok : Bool) : Event.roll k ok ∉ (processNextChildRow cfg st).2 := by
  rcases processNextChildRow_events cfg st with he | he <;> rw [he]
  · simp
  · simp

theorem processNextChildRow_offset (cfg : Config) (st : LState) (r : Nat)
    (hoff : st.curChildOffset = some r) :
    (processNextChildRow cfg st).1.curChildOffset = none ∨
      (processNextChildRow cfg st).1.curChildOffset = some (r + 1) := by
  by_cases h : st.childBlock.length ≤ r + 1
  · left
    rw [(processNextChildRow_spec cfg st r hoff).2 h]
  · right
    rw [(processNextChildRow_spec cfg st r hoff).1 (by omega)]

/-- Where an emit event inside `skipCheckAndEmit` can come from: either
it was already among the carried events, or it is the fresh emission —
whose row is the bound row, whose skip check came out false, whose
`max_count` is the remaining capacity, and whose repeat count is at
most `max_count`. -/
theorem skipCheckAndEmit_emit_inv (cfg : Config) (cap : Nat) (st : LState)
    (cols : Cols) (evs : List Event) (r t mc : Nat)
    (hmem : Event.emit r t mc ∈ (skipCheckAndEmit cfg cap st cols evs).events) :
    Event.emit r t mc ∈ evs ∨
      (r = st.curRow ∧ isInnerAndEmptyRow cfg st.curRow = false ∧
        mc = cap - colSize cols cfg.childSlotCount ∧ t ≤ mc) := by
  simp only [skipCheckAndEmit] at hmem
  by_cases h : isInnerAndEmptyRow cfg st.curRow
  · rw [if_pos h] at hmem
    exact Or.inl hmem
  · rw [if_neg h] at hmem
    simp only [StepRes.events] at hmem
    rcases List.mem_append.mp hmem with hin | hin
    · exact Or.inl hin
    · have heq := List.mem_singleton.mp hin
      simp only [emitLast] at heq
      injection heq with h1 h2 h3
      subst h1
      subst h2
      subst h3
      exact Or.inr ⟨rfl, by simpa using h, rfl, Nat.min_le_left _ _⟩

theorem skipCheckAndEmit_state_offset (cfg : Config) (cap : Nat) (st : LState)
    (cols : Cols) (evs : List Event) :
    (skipCheckAndEmit cfg cap st cols evs).state.curChildOffset =
      st.curChildOffset := by
  simp only [skipCheckAndEmit]
  by_cases h : isInnerAndEmptyRow cfg st.curRow
  · rw [if_pos h]
    simp only [StepRes.state]
  · rw [if_neg h]
    simp only [StepRes.state, emitLast]

theorem skipCheckAndEmit_roll_events (cfg : Config) (cap : Nat) (st : LState)
    (cols : Cols) (evs : List Event) (k : Int) (ok : Bool)
    (hpre : Event.roll k ok ∉ evs) :
    Event.roll k ok ∉ (skipCheckAndEmit cfg cap st cols evs).events := by
  simp only [skipCheckAndEmit]
  by_cases h : isInnerAndEmptyRow cfg st.curRow
  · rw [if_pos h]
    exact hpre
  · rw [if_neg h]
    simp only [StepRes.events]
    intro hmem
    rcases List.mem_append.mp hmem with hin | hin
    · exact hpre hin
    · have heq := List.mem_singleton.mp hin
      exact Event.noConfusion heq

/-- Where an emit event inside the loop body can come from: the fresh
emission of `skipCheckAndEmit`, over either the unchanged columns or
the flushed columns. -/
theorem innerBody_emit_inv (cfg : Config) (cap : Nat) (st : LState)
    (cols : Cols) (skip : Bool) (r t mc : Nat)
    (hmem : Event.emit r t mc ∈ (innerBody cfg cap st cols skip).events) :
    isInnerAndEmptyRow cfg r = false ∧
      (mc = cap - colSize cols cfg.childSlotCount ∨
        mc = cap - colSize (copyOutputSlots cfg st cols).2 cfg.childSlotCount) ∧
      t ≤ mc := by
  simp only [innerBody] at hmem
  by_cases h1 : findLastFnEosIdx (eosVec cfg st) = 0 ∨ skip = true
  · rw [if_pos h1] at hmem
    by_cases h2 : (processNextChildRow cfg (copyOutputSlots cfg st cols).1).1.curChildOffset = none
    · rw [if_pos h2] at hmem
      simp only [StepRes.events] at hmem
      exact absurd hmem (emit_not_mem_processNextChildRow cfg _ r t mc)
    · rw [if_neg h2] at hmem
      rcases skipCheckAndEmit_emit_inv cfg cap _ _ _ r t mc hmem with hin | hout
      · exact absurd hin (emit_not_mem_processNextChildRow cfg _ r t mc)
      · obtain ⟨hr, hflag, hmc, ht⟩ := hout
        subst hr
        exact ⟨hflag, Or.inr hmc, ht⟩
  · rw [if_neg h1] at hmem
    by_cases h2 : findLastFnEosIdx (eosVec cfg st) < (cfg.fnNum : Int) ∧
        findLastFnEosIdx (eosVec cfg st) ≠ -1
    · rw [if_pos h2] at hmem
      by_cases h3 : (rollTableFunctions (cfg.sizes st.curRow) st.pos
          (findLastFnEosIdx (eosVec cfg st)).toNat).1 = true
      · rw [if_pos h3] at hmem
        rcases skipCheckAndEmit_emit_inv cfg cap _ _ _ r t mc hmem with hin | hout
        · exact absurd (List.mem_singleton.mp hin) (fun heq => Event.noConfusion heq)
        · obtain ⟨hr, hflag, hmc, ht⟩ := hout
          subst hr
          exact ⟨hflag, Or.inl hmc, ht⟩
      · rw [if_neg h3] at hmem
        simp only [StepRes.events] at hmem
        exact absurd (List.mem_singleton.mp hmem) (fun heq => Event.noConfusion heq)
    · rw [if_neg h2] at hmem
      rcases skipCheckAndEmit_emit_inv cfg cap _ _ _ r t mc hmem with hin | hout
      · simp at hin
      · obtain ⟨hr, hflag, hmc, ht⟩ := hout
        subst hr
        exact ⟨hflag, Or.inl hmc, ht⟩

/-! ### Claim C9 (emit capacity bounds) -/

/-- C9: whenever the fill loop's body — entered under the capacity
guard `size < batch_size`, with every needed pass-through slot a child
slot (so a flush cannot touch the guard column) — calls `get_value` on
the last instance, the `max_count` argument `batch_size - size` is at
least 1 and at most the configured batch capacity, and it bounds the
returned repeat count; the guard column's size stays below the
capacity, so its narrowing cast cannot overflow. -/
theorem C9_emit_maxCount_bounds (cfg : Config) (cap : Nat) (st : LState)
    (cols : Cols) (skip : Bool) (r t mc : Nat)
    (hneed : ∀ i ∈ cfg.outputSlotIndexs, i < cfg.childSlotCount)
    (hguard : colSize cols cfg.childSlotCount < cap)
    (hmem : Event.emit r t mc ∈ (innerBody cfg cap st cols skip).events) :
    1 ≤ mc ∧ mc ≤ cap ∧ t ≤ mc := by
  obtain ⟨-, hmc, ht⟩ := innerBody_emit_inv cfg cap st cols skip r t mc hmem
  have hstable : colSize (copyOutputSlots cfg st cols).2 cfg.childSlotCount =
      colSize cols cfg.childSlotCount :=
    copyOutputSlots_colSize_stable cfg st cols cfg.childSlotCount
      (fun i hi => Nat.ne_of_lt (hneed i hi))
  rcases hmc with hmc | hmc
  · exact ⟨by omega, by omega, ht⟩
  · rw [hstable] at hmc
    exact ⟨by omega, by omega, ht⟩

/-- Witness for C9: the first iteration of the fixture `cfg1` (capacity
10, fresh row, empty columns) emits with `max_count = 10` and repeat
count 2. -/
theorem C9_emit_maxCount_bounds_witness : 1 ≤ 10 ∧ 10 ≤ 10 ∧ 2 ≤ 10 :=
  C9_emit_maxCount_bounds cfg1 10 ⟨some 0, [0], 0, [[Val.int 10]], false⟩
    [[], []] false 0 2 10 (by decide) (by decide) (by decide)

/-! ### Claim C4 (outer-empty skip) -/

/-- C4, stated on one iteration of the fill loop: (i) any emission the
body performs is for a row on which every empty instance is outer (the
skip check fired `false`), so a combination of a row with a non-outer
empty instance never reaches `get_value`/`get_same_many_values`;
(ii) once the skip flag is set, the iteration advances past the
abandoned row directly — no roll is performed, nothing is emitted for
the abandoned row, and the bound row becomes the next one (or none);
(iii) conversely, when every empty instance is outer the skip check
reports false. -/
theorem C4_outer_empty_skip (cfg : Config) (cap : Nat) (st : LState)
    (cols : Cols) (skip : Bool) (r : Nat) :
    (∀ t mc, Event.emit r t mc ∈ (innerBody cfg cap st cols skip).events →
      isInnerAndEmptyRow cfg r = false) ∧
    (st.curChildOffset = some r →
      (∀ k ok, Event.roll k ok ∉ (innerBody cfg cap st cols true).events) ∧
      (∀ t mc, Event.emit r t mc ∉ (innerBody cfg cap st cols true).events) ∧
      ((innerBody cfg cap st cols true).state.curChildOffset = none ∨
        (innerBody cfg cap st cols true).state.curChildOffset = some (r + 1))) ∧
    ((∀ f ∈ cfg.fns, (f.rowVals r).isEmpty = true → f.outer = true) →
      isInnerAndEmptyRow cfg r = false) := by
  refine ⟨fun t mc hmem => (innerBody_emit_inv cfg cap st cols skip r t mc hmem).1,
    fun hoff => ?_, fun hmono => ?_⟩
  · have hoff1 : (copyOutputSlots cfg st cols).1.curChildOffset = some r := by
      rw [copyOutputSlots_fst cfg st cols]
      exact hoff
    rcases processNextChildRow_offset cfg _ r hoff1 with hnone | hsucc
    · constructor
      · intro k ok
        simp only [innerBody, or_true, if_true]
        rw [if_pos hnone]
        simp only [StepRes.events]
        exact roll_not_mem_processNextChildRow cfg _ k ok
      constructor
      · intro t mc
        simp only [innerBody, or_true, if_true]
        rw [if_pos hnone]
        simp only [StepRes.events]
        exact emit_not_mem_processNextChildRow cfg _ r t mc
      · left
        simp only [innerBody, or_true, if_true]
        rw [if_pos hnone]
        simp only [StepRes.state]
        exact hnone
    · by_cases hnone : (processNextChildRow cfg (copyOutputSlots cfg st cols).1).1.curChildOffset = none
      · rw [hnone] at hsucc
        exact absurd hsucc (by simp)
      · constructor
        · intro k ok
          simp only [innerBody, or_true, if_true]
          rw [if_neg hnone]
          exact skipCheckAndEmit_roll_events cfg cap _ _ _ k ok
            (roll_not_mem_processNextChildRow cfg _ k ok)
        constructor
        · intro t mc hmem
          simp only [innerBody, or_true, if_true] at hmem
          rw [if_neg hnone] at hmem
          rcases skipCheckAndEmit_emit_inv cfg cap _ _ _ r t mc hmem with hin | hout
          · exact emit_not_mem_processNextChildRow cfg _ r t mc hin
          · obtain ⟨hr, -, -, -⟩ := hout
            have : (processNextChildRow cfg (copyOutputSlots cfg st cols).1).1.curRow =
                r + 1 := by
              unfold LState.curRow
              rw [hsucc]
              rfl
            rw [this] at hr
            omega
        · right
          simp only [innerBody, or_true, if_true]
          rw [if_neg hnone]
          rw [skipCheckAndEmit_state_offset]
          exact hsucc
  · unfold isInnerAndEmptyRow
    rw [List.any_eq_false]
    intro f hf
    by_cases he : (f.rowVals r).isEmpty
    · rw [hmono f hf he]
      simp
    · simp [he]

/-- Witness for C4: a fixture where the second (non-outer) instance is
empty on row 0 — the loop body from a fresh bind performs no emission
for row 0 and advances off the one-row block with no roll once the skip
flag is set; and on `cfg1` (no empty instance) the skip check is
false. -/
theorem C4_outer_empty_skip_witness :
    isInnerAndEmptyRow cfg1 0 = false ∧
      (∀ t mc, Event.emit 0 t mc ∉
        (innerBody ⟨[⟨false, fun _ => [Val.int 1]⟩, ⟨false, fun _ => []⟩], 0, [], []⟩
          10 ⟨some 0, [0, 0], 0, [[]], false⟩ [[], []] true).events) := by
  constructor
  · exact (C4_outer_empty_skip cfg1 10 st2rows [[], []] false 0).2.2 (by decide)
  · exact fun t mc =>
      ((C4_outer_empty_skip
        ⟨[⟨false, fun _ => [Val.int 1]⟩, ⟨false, fun _ => []⟩], 0, [], []⟩
        10 ⟨some 0, [0, 0], 0, [[]], false⟩ [[], []] true 0).2.1 rfl).2.1 t mc

/-! ### Claim C7 (process_next_child_row and close) -/

/-- C7 counterexample: the operator advances past consumed row `0` of a
two-row block to row `1`, yet `process_close` is called on no TVF
instance — the instances are merely re-bound to the new row.  This
refutes the claim that every advance past a consumed input row releases
that row's TVF resources via `close`. -/
theorem C7_close_per_row_counterexample :
    (processNextChildRow cfg1 st2rows).1.curChildOffset = some 1 ∧
      (processNextChildRow cfg1 st2rows).2 = [Event.nextRow] ∧
      ∀ i : Nat, Event.close i ∉ (processNextChildRow cfg1 st2rows).2 := by
  refine ⟨rfl, rfl, fun i hmem => ?_⟩
  rw [show (processNextChildRow cfg1 st2rows).2 = [Event.nextRow] from rfl] at hmem
  simp at hmem

/-- C7 amended: `process_close` is called on every instance exactly
when the operator advances past the *last* row of the buffered child
block (which is then cleared, leaving no row bound); advancing between
rows within the block only re-binds the instances (`process_row` with
reset offsets), with no close. -/
theorem C7_processNextChildRow_close (cfg : Config) (st : LState) (r : Nat)
    (hoff : st.curChildOffset = some r) :
    (r + 1 < st.childBlock.length →
      processNextChildRow cfg st =
        ({ st with curChildOffset := some (r + 1),
                   pos := List.replicate cfg.fnNum 0 }, [Event.nextRow])) ∧
    (st.childBlock.length ≤ r + 1 →
      processNextChildRow cfg st =
        ({ st with curChildOffset := none, childBlock := [] },
          (List.range cfg.fnNum).map Event.close)) :=
  processNextChildRow_spec cfg st r hoff

/-- Witness for the amended C7, both sides: advancing within `st2rows`
closes nothing, and advancing out of its last row closes instance 0 and
clears the block. -/
theorem C7_processNextChildRow_close_witness :
    processNextChildRow cfg1 st2rows =
      ({ st2rows with curChildOffset := some 1,
                      pos := List.replicate cfg1.fnNum 0 }, [Event.nextRow]) ∧
    processNextChildRow cfg1 { st2rows with curChildOffset := some 1 } =
      ({ st2rows with curChildOffset := none, childBlock := [] },
        (List.range cfg1.fnNum).map Event.close) :=
  ⟨(C7_processNextChildRow_close cfg1 st2rows 0 rfl).1 (by decide),
    (C7_processNextChildRow_close cfg1 { st2rows with curChildOffset := some 1 } 1
      rfl).2 (by decide)⟩

/-! ### Claim C10 (flush idempotence) -/

/-- C10: `_copy_output_slots` leaves every output column unchanged when
the pending replication count is zero; after any call the pending count
is zero; hence flushing is idempotent — two consecutive flushes equal
one — so the unconditional flush at the end of a fill call never
duplicates rows already flushed at a row-binding change. -/
theorem C10_copyOutputSlots_idempotent (cfg : Config) (st : LState) (cols : Cols) :
    (st.currentRowInsertTimes = 0 → copyOutputSlots cfg st cols = (st, cols)) ∧
    (copyOutputSlots cfg st cols).1.currentRowInsertTimes = 0 ∧
    copyOutputSlots cfg (copyOutputSlots cfg st cols).1 (copyOutputSlots cfg st cols).2 =
      copyOutputSlots cfg st cols := by
  have hzero : ∀ (st' : LState) (cols' : Cols), st'.currentRowInsertTimes = 0 →
      copyOutputSlots cfg st' cols' = (st', cols') := by
    intro st' cols' h
    unfold copyOutputSlots
    rw [if_pos h]
  have hres : (copyOutputSlots cfg st cols).1.currentRowInsertTimes = 0 := by
    by_cases h : st.currentRowInsertTimes = 0
    · rw [hzero st cols h]
      exact h
    · unfold copyOutputSlots
      rw [if_neg h]
  refine ⟨fun h => hzero st cols h, hres, ?_⟩
  rw [hzero _ _ hres]

/-- Witness for C10 at a concrete zero-pending state: the flush is the
identity. -/
theorem C10_copyOutputSlots_idempotent_witness :
    copyOutputSlots cfg1 st2rows [[], []] = (st2rows, [[], []]) :=
  (C10_copyOutputSlots_idempotent cfg1 st2rows [[], []]).1 rfl

/-! ### Column-size bookkeeping -/

theorem foldl_getD_stable' {α : Type} (g : Cols → α → Cols) (j : Nat) :
    ∀ (l : List α) (cols : Cols),
    (∀ (cs : Cols) (i : α), i ∈ l → (g cs i).getD j [] = cs.getD j []) →
    (l.foldl g cols).getD j [] = cols.getD j [] := by
  intro l
  induction l with
  | nil => intro cols _; rfl
  | cons a rest ih =>
    intro cols h
    simp only [List.foldl_cons]
    rw [ih _ (fun cs i hi => h cs i (List.mem_cons_of_mem a hi)),
      h cols a (List.mem_cons_self a rest)]

theorem foldl_length_stable {α : Type} (g : Cols → α → Cols)
    (hg : ∀ cs i, (g cs i).length = cs.length) :
    ∀ (l : List α) (cols : Cols), (l.foldl g cols).length = cols.length := by
  intro l
  induction l with
  | nil => intro cols; rfl
  | cons a rest ih =>
    intro cols
    simp only [List.foldl_cons]
    rw [ih, hg]

theorem foldl_modify_getD_mem (F : Nat → List Val → List Val) :
    ∀ (l : List Nat) (cols : Cols) (j : Nat), l.Nodup → j ∈ l → j < cols.length →
    (l.foldl (fun cs i => modifyCol cs i (F i)) cols).getD j [] =
      F j (cols.getD j []) := by
  intro l
  induction l with
  | nil =>
    intro cols j _ hj _
    simp at hj
  | cons a rest ih =>
    intro cols j hnd hj hlen
    simp only [List.foldl_cons]
    rcases List.mem_cons.mp hj with hja | hjr
    · subst hja
      have hnot : ∀ i ∈ rest, i ≠ j := by
        intro i hi he
        subst he
        exact (List.nodup_cons.mp hnd).1 hi
      rw [foldl_getD_stable' _ j rest _
        (fun cs i hi => modifyCol_getD_ne cs i j _ (hnot i hi))]
      exact modifyCol_getD_self cols j _ hlen
    · have hne : a ≠ j := by
        intro he
        subst he
        exact (List.nodup_cons.mp hnd).1 hjr
      rw [ih _ j (List.nodup_cons.mp hnd).2 hjr
        (by rw [modifyCol_length]; exact hlen)]
      rw [modifyCol_getD_ne cols a j _ hne]

/-- A fold that modifies only columns `c0 + k`, `k < n`, leaves column
`c0 + i` holding `F i` of its old content. -/
theorem foldl_modify_shift_getD (F : Nat → List Val → List Val) (c0 : Nat) :
    ∀ (n : Nat) (cols : Cols) (i : Nat), i < n → c0 + i < cols.length →
    ((List.range n).foldl (fun cs k => modifyCol cs (c0 + k) (F k)) cols).getD
        (c0 + i) [] =
      F i (cols.getD (c0 + i) []) := by
  intro n
  induction n with
  | zero => intro cols i hi; omega
  | succ n ih =>
    intro cols i hi hlen
    rw [List.range_succ, List.foldl_append]
    simp only [List.foldl_cons, List.foldl_nil]
    have hfl : ((List.range n).foldl (fun cs k => modifyCol cs (c0 + k) (F k))
        cols).length = cols.length :=
      foldl_length_stable _ (fun cs k => modifyCol_length cs _ _) _ cols
    by_cases hin : i = n
    · subst hin
      rw [modifyCol_getD_self _ _ _ (by rw [hfl]; exact hlen)]
      rw [foldl_getD_stable' _ (c0 + i) _ cols
        (fun cs k hk => modifyCol_getD_ne cs _ _ _
          (by have := List.mem_range.mp hk; omega))]
    · rw [modifyCol_getD_ne _ _ _ _ (by omega)]
      exact ih cols i (by omega) hlen

theorem copyOutputSlots_length (cfg : Config) (st : LState) (cols : Cols) :
    ((copyOutputSlots cfg st cols).2).length = cols.length := by
  unfold copyOutputSlots
  by_cases h : st.currentRowInsertTimes = 0
  · rw [if_pos h]
  · rw [if_neg h]
    exact foldl_length_stable _ (fun cs i => modifyCol_length cs _ _) _ cols

/-- The flush grows each needed column by exactly the pending count. -/
theorem copyOutputSlots_needed_size (cfg : Config) (st : LState) (cols : Cols)
    (j : Nat) (hj : j ∈ cfg.outputSlotIndexs) (hnd : cfg.outputSlotIndexs.Nodup)
    (hlen : j < cols.length) :
    colSize (copyOutputSlots cfg st cols).2 j =
      colSize cols j + st.currentRowInsertTimes := by
  unfold copyOutputSlots
  by_cases h : st.currentRowInsertTimes = 0
  · rw [if_pos h, h]
    rfl
  · rw [if_neg h]
    unfold colSize
    rw [foldl_modify_getD_mem _ _ cols j hnd hj hlen]
    simp

theorem emitLast_cols_getD_ne (cfg : Config) (st : LState) (cols : Cols)
    (mc : Nat) (j : Nat) (hne : cfg.fnColIdx (cfg.fnNum - 1) ≠ j) :
    ((emitLast cfg st cols mc).2.2).getD j [] = cols.getD j [] := by
  simp only [emitLast]
  exact modifyCol_getD_ne cols _ j _ hne

theorem emitLast_length (cfg : Config) (st : LState) (cols : Cols) (mc : Nat) :
    ((emitLast cfg st cols mc).2.2).length = cols.length := by
  simp only [emitLast]
  exact modifyCol_length cols _ _

/-- `get_value` grows the last instance's column by exactly the repeat
count it returns. -/
theorem emitLast_colSize_self (cfg : Config) (st : LState) (cols : Cols)
    (mc : Nat) (hlen : cfg.fnColIdx (cfg.fnNum - 1) < cols.length) :
    colSize (emitLast cfg st cols mc).2.2 (cfg.fnColIdx (cfg.fnNum - 1)) =
      colSize cols (cfg.fnColIdx (cfg.fnNum - 1)) + (emitLast cfg st cols mc).1 := by
  unfold emitLast colSize
  simp only
  rw [modifyCol_getD_self _ _ _ hlen]
  rw [List.length_append, List.length_take, List.length_drop]
  congr 1
  exact Nat.min_eq_left (Nat.min_le_right _ _)

theorem emitLast_times (cfg : Config) (st : LState) (cols : Cols) (mc : Nat) :
    (emitLast cfg st cols mc).2.1.currentRowInsertTimes =
      st.currentRowInsertTimes := rfl

theorem emitLast_offset (cfg : Config) (st : LState) (cols : Cols) (mc : Nat) :
    (emitLast cfg st cols mc).2.1.curChildOffset = st.curChildOffset := rfl

theorem emitRepeated_getD_stable (cfg : Config) (st : LState) (cols : Cols)
    (t : Nat) (j : Nat) (hj : ∀ i, i < cfg.fnNum - 1 → cfg.fnColIdx i ≠ j) :
    (emitRepeated cfg st cols t).getD j [] = cols.getD j [] := by
  unfold emitRepeated
  exact foldl_getD_stable' _ j _ cols
    (fun cs i hi => modifyCol_getD_ne cs _ j _ (hj i (List.mem_range.mp hi)))

theorem emitRepeated_length (cfg : Config) (st : LState) (cols : Cols) (t : Nat) :
    (emitRepeated cfg st cols t).length = cols.length := by
  unfold emitRepeated
  exact foldl_length_stable _ (fun cs i => modifyCol_length cs _ _) _ cols

/-- `get_same_many_values` grows each non-last instance's column by the
repeat count. -/
theorem emitRepeated_colSize_fn (cfg : Config) (st : LState) (cols : Cols)
    (t : Nat) (i : Nat) (hi : i < cfg.fnNum - 1)
    (hlen : cfg.fnColIdx i < cols.length) :
    colSize (emitRepeated cfg st cols t) (cfg.fnColIdx i) =
      colSize cols (cfg.fnColIdx i) + t := by
  unfold emitRepeated colSize Config.fnColIdx
  rw [foldl_modify_shift_getD]
  · simp
  · exact hi
  · exact hlen

/-- Per-call well-formedness of the static configuration, as
`TableFunctionOperatorX::prepare` establishes it: at least one TVF, the
needed and useless slot indexes are child-slot indexes, both lists are
duplicate-free (they enumerate child slots in order), and they are
disjoint (a slot is needed or useless, not both). -/
structure ConfigWF (cfg : Config) : Prop where
  posN : 0 < cfg.fnNum
  needLt : ∀ i ∈ cfg.outputSlotIndexs, i < cfg.childSlotCount
  needNodup : cfg.outputSlotIndexs.Nodup
  uselessLt : ∀ i ∈ cfg.uselessSlotIndexs, i < cfg.childSlotCount
  uselessNodup : cfg.uselessSlotIndexs.Nodup
  disj : ∀ i ∈ cfg.uselessSlotIndexs, i ∉ cfg.outputSlotIndexs

/-- The column-size invariant of the fill loop, with `times` the
pending replication count: every needed pass-through column lags the
last TVF column by exactly `times`; all TVF columns have equal size;
useless pass-through columns are still empty (they are only padded at
batch-flush time). -/
structure ColsInv (cfg : Config) (times : Nat) (cols : Cols) : Prop where
  len : cols.length = cfg.childSlotCount + cfg.fnNum
  needed : ∀ j ∈ cfg.outputSlotIndexs,
    colSize cols j + times = colSize cols (cfg.fnColIdx (cfg.fnNum - 1))
  fncols : ∀ i, i < cfg.fnNum →
    colSize cols (cfg.fnColIdx i) = colSize cols (cfg.fnColIdx (cfg.fnNum - 1))
  useless : ∀ j ∈ cfg.uselessSlotIndexs, cols.getD j [] = []

theorem ColsInv_emptyCols (cfg : Config) : ColsInv cfg 0 (emptyCols cfg) := by
  have hget : ∀ j, (emptyCols cfg).getD j [] = [] := by
    intro j
    unfold emptyCols
    by_cases hj : j < cfg.childSlotCount + cfg.fnNum
    · rw [List.getD_eq_getElem?_getD, List.getElem?_replicate]
      simp [hj]
    · rw [List.getD_eq_getElem?_getD,
        List.getElem?_eq_none (by simpa [emptyCols] using by omega)]
      rfl
  refine ⟨by simp [emptyCols], fun j _ => ?_, fun i _ => ?_, fun j _ => hget j⟩
  · unfold colSize
    rw [hget, hget]
    rfl
  · unfold colSize
    rw [hget, hget]


theorem processNextChildRow_times (cfg : Config) (st : LState) :
    (processNextChildRow cfg st).1.currentRowInsertTimes =
      st.currentRowInsertTimes := by
  dsimp only [processNextChildRow]
  split
  · rfl
  · rfl

/-- The flush preserves the column invariant (the pending count drops
to zero) and establishes size equality between every needed column and
the last TVF column. -/
theorem copyOutputSlots_inv (cfg : Config) (hwf : ConfigWF cfg) (st : LState)
    (cols : Cols) (hinv : ColsInv cfg st.currentRowInsertTimes cols) :
    ColsInv cfg 0 (copyOutputSlots cfg st cols).2 ∧
      ∀ j ∈ cfg.outputSlotIndexs,
        colSize (copyOutputSlots cfg st cols).2 j =
          colSize (copyOutputSlots cfg st cols).2 (cfg.fnColIdx (cfg.fnNum - 1)) := by
  have hlen := copyOutputSlots_length cfg st cols
  have hstable : ∀ x, cfg.childSlotCount ≤ x →
      ((copyOutputSlots cfg st cols).2).getD x [] = cols.getD x [] := by
    intro x hx
    exact copyOutputSlots_getD_stable cfg st cols x
      (fun i hi => by have := hwf.needLt i hi; omega)
  have hcs : ∀ x, cfg.childSlotCount ≤ x →
      colSize (copyOutputSlots cfg st cols).2 x = colSize cols x :=
    fun x hx => congrArg List.length (hstable x hx)
  have hlast : colSize (copyOutputSlots cfg st cols).2 (cfg.fnColIdx (cfg.fnNum - 1)) =
      colSize cols (cfg.fnColIdx (cfg.fnNum - 1)) :=
    hcs _ (Nat.le_add_right _ _)
  have hneed : ∀ j ∈ cfg.outputSlotIndexs,
      colSize (copyOutputSlots cfg st cols).2 j =
        colSize cols j + st.currentRowInsertTimes := by
    intro j hj
    exact copyOutputSlots_needed_size cfg st cols j hj hwf.needNodup
      (by have := hwf.needLt j hj; have := hinv.len; omega)
  refine ⟨⟨by rw [hlen, hinv.len], fun j hj => ?_, fun i hi => ?_, fun j hj => ?_⟩,
    fun j hj => ?_⟩
  · rw [hneed j hj, hlast]
    have := hinv.needed j hj
    omega
  · rw [hcs (cfg.fnColIdx i) (Nat.le_add_right _ _), hlast]
    exact hinv.fncols i hi
  · rw [copyOutputSlots_getD_stable cfg st cols j
      (fun i hi => fun he => hwf.disj j hj (he ▸ hi))]
    exact hinv.useless j hj
  · rw [hneed j hj, hlast]
    have := hinv.needed j hj
    omega

/-- Emission preserves the column invariant: the last column and every
other TVF column grow by the repeat count, which is also added to the
pending pass-through replication count. -/
theorem skipCheckAndEmit_inv (cfg : Config) (hwf : ConfigWF cfg) (cap : Nat)
    (st : LState) (cols : Cols) (evs : List Event)
    (hinv : ColsInv cfg st.currentRowInsertTimes cols) :
    ColsInv cfg
      (skipCheckAndEmit cfg cap st cols evs).state.currentRowInsertTimes
      (skipCheckAndEmit cfg cap st cols evs).cols := by
  simp only [skipCheckAndEmit]
  by_cases h : isInnerAndEmptyRow cfg st.curRow
  · rw [if_pos h]
    exact hinv
  · rw [if_neg h]
    dsimp only [StepRes.state, StepRes.cols]
    have hN := hwf.posN
    have hlastlt : cfg.fnColIdx (cfg.fnNum - 1) < cols.length := by
      rw [hinv.len]
      unfold Config.fnColIdx
      omega
    set mc := cap - colSize cols cfg.childSlotCount with hmc
    set e := emitLast cfg st cols mc with he
    set st₂ : LState :=
      { e.2.1 with currentRowInsertTimes := e.2.1.currentRowInsertTimes + e.1 } with hst₂
    have helen : (e.2.2).length = cols.length := emitLast_length cfg st cols mc
    have hrlen : (emitRepeated cfg st₂ e.2.2 e.1).length = cols.length := by
      rw [emitRepeated_length, helen]
    have hlow : ∀ x, x < cfg.childSlotCount →
        (emitRepeated cfg st₂ e.2.2 e.1).getD x [] = cols.getD x [] := by
      intro x hx
      rw [emitRepeated_getD_stable cfg st₂ e.2.2 e.1 x
        (fun i hi => by unfold Config.fnColIdx; omega)]
      exact emitLast_cols_getD_ne cfg st cols mc x (by unfold Config.fnColIdx; omega)
    have hlastsz : colSize (emitRepeated cfg st₂ e.2.2 e.1)
        (cfg.fnColIdx (cfg.fnNum - 1)) =
        colSize cols (cfg.fnColIdx (cfg.fnNum - 1)) + e.1 := by
      rw [show colSize (emitRepeated cfg st₂ e.2.2 e.1) (cfg.fnColIdx (cfg.fnNum - 1)) =
          colSize e.2.2 (cfg.fnColIdx (cfg.fnNum - 1)) from
        congrArg List.length (emitRepeated_getD_stable cfg st₂ e.2.2 e.1 _
          (fun i hi => by unfold Config.fnColIdx; omega))]
      exact emitLast_colSize_self cfg st cols mc hlastlt
    have hfnsz : ∀ i, i < cfg.fnNum - 1 →
        colSize (emitRepeated cfg st₂ e.2.2 e.1) (cfg.fnColIdx i) =
          colSize cols (cfg.fnColIdx i) + e.1 := by
      intro i hi
      rw [emitRepeated_colSize_fn cfg st₂ e.2.2 e.1 i hi
        (by rw [helen, hinv.len]; unfold Config.fnColIdx; omega)]
      rw [show colSize e.2.2 (cfg.fnColIdx i) = colSize cols (cfg.fnColIdx i) from
        congrArg List.length (emitLast_cols_getD_ne cfg st cols mc _
          (by unfold Config.fnColIdx; omega))]
  -- assemble the four invariant fields
    refine ⟨by rw [hrlen, hinv.len], fun j hj => ?_, fun i hi => ?_, fun j hj => ?_⟩
    · have hj' := hwf.needLt j hj
      have het : e.2.1.currentRowInsertTimes = st.currentRowInsertTimes := rfl
      rw [het, show colSize (emitRepeated cfg st₂ e.2.2 e.1) j = colSize cols j from
        congrArg List.length (hlow j hj'), hlastsz]
      have := hinv.needed j hj
      omega
    · by_cases hilast : i = cfg.fnNum - 1
      · rw [hilast]
      · rw [hlastsz, hfnsz i (by omega)]
        have := hinv.fncols i hi
        omega
    · rw [hlow j (hwf.uselessLt j hj)]
      exact hinv.useless j hj

/-- One iteration of the fill loop preserves the column invariant. -/
theorem innerBody_inv (cfg : Config) (hwf : ConfigWF cfg) (cap : Nat)
    (st : LState) (cols : Cols) (skip : Bool)
    (hinv : ColsInv cfg st.currentRowInsertTimes cols) :
    ColsInv cfg (innerBody cfg cap st cols skip).state.currentRowInsertTimes
      (innerBody cfg cap st cols skip).cols := by
  simp only [innerBody]
  by_cases h1 : findLastFnEosIdx (eosVec cfg st) = 0 ∨ skip = true
  · rw [if_pos h1]
    have hc := (copyOutputSlots_inv cfg hwf st cols hinv).1
    have hpr : (processNextChildRow cfg
        (copyOutputSlots cfg st cols).1).1.currentRowInsertTimes = 0 := by
      rw [processNextChildRow_times, copyOutputSlots_fst]
    by_cases h2 : (processNextChildRow cfg
        (copyOutputSlots cfg st cols).1).1.curChildOffset = none
    · rw [if_pos h2]
      dsimp only [StepRes.state, StepRes.cols]
      rw [hpr]
      exact hc
    · rw [if_neg h2]
      exact skipCheckAndEmit_inv cfg hwf cap _ _ _ (by rw [hpr]; exact hc)
  · rw [if_neg h1]
    by_cases h2 : findLastFnEosIdx (eosVec cfg st) < (cfg.fnNum : Int) ∧
        findLastFnEosIdx (eosVec cfg st) ≠ -1
    · rw [if_pos h2]
      by_cases h3 : (rollTableFunctions (cfg.sizes st.curRow) st.pos
          (findLastFnEosIdx (eosVec cfg st)).toNat).1 = true
      · rw [if_pos h3]
        exact skipCheckAndEmit_inv cfg hwf cap _ _ _ hinv
      · rw [if_neg h3]
        exact hinv
    · rw [if_neg h2]
      exact skipCheckAndEmit_inv cfg hwf cap _ _ _ hinv

/-- The whole inner loop preserves the column invariant. -/
theorem innerLoopGo_inv (cfg : Config) (hwf : ConfigWF cfg) (cap : Nat) :
    ∀ (fuel : Nat) (st : LState) (cols : Cols) (skip : Bool)
      (out : LState × Cols × List Event),
    ColsInv cfg st.currentRowInsertTimes cols →
    innerLoopGo cfg cap fuel st cols skip = some out →
    ColsInv cfg out.1.currentRowInsertTimes out.2.1 := by
  intro fuel
  induction fuel with
  | zero =>
    intro st cols skip out _ h
    exact Option.noConfusion h
  | succ fuel ih =>
    intro st cols skip out hinv h
    simp only [innerLoopGo] at h
    by_cases hg : colSize cols cfg.childSlotCount < cap
    · rw [if_pos hg] at h
      rcases hb : innerBody cfg cap st cols skip with ⟨st', cols', ev⟩ | ⟨st', cols', skip', ev⟩
      · rw [hb] at h
        have hi := innerBody_inv cfg hwf cap st cols skip hinv
        rw [hb] at hi
        dsimp only [StepRes.state, StepRes.cols] at hi
        cases h
        exact hi
      · rw [hb] at h
        have hi := innerBody_inv cfg hwf cap st cols skip hinv
        rw [hb] at hi
        dsimp only [StepRes.state, StepRes.cols] at hi
        rcases Option.map_eq_some'.mp h with ⟨x, hx, hxe⟩
        have hres := ih st' cols' skip' x hi hx
        rw [← hxe]
        exact hres
    · rw [if_neg hg] at h
      cases h
      exact hinv

theorem padUseless_getD_stable (cfg : Config) (cols : Cols) (j : Nat)
    (hj : ∀ i ∈ cfg.uselessSlotIndexs, i ≠ j) :
    (padUseless cfg cols).getD j [] = cols.getD j [] := by
  unfold padUseless
  exact foldl_getD_stable' _ j _ cols
    (fun cs i hi => modifyCol_getD_ne cs i j _ (hj i hi))

theorem padUseless_useless_col (cfg : Config) (cols : Cols) (j : Nat)
    (hj : j ∈ cfg.uselessSlotIndexs) (hnd : cfg.uselessSlotIndexs.Nodup)
    (hlen : j < cols.length) :
    (padUseless cfg cols).getD j [] =
      cols.getD j [] ++ List.replicate
        (colSize cols cfg.childSlotCount - (cols.getD j []).length) Val.null := by
  unfold padUseless
  exact foldl_modify_getD_mem _ _ cols j hnd hj hlen

/-- End of a fill call, starting from any state satisfying the column
invariant: after the final flush and the useless-column padding, every
useless column is exactly `replicate common default`, and every needed
column and every TVF column has size `common`, the size of the last TVF
column. -/
theorem finalize_cols_spec (cfg : Config) (hwf : ConfigWF cfg) (st : LState)
    (cols : Cols) (hinv : ColsInv cfg st.currentRowInsertTimes cols) :
    (∀ j ∈ cfg.uselessSlotIndexs,
      (padUseless cfg (copyOutputSlots cfg st cols).2).getD j [] =
        List.replicate (colSize (padUseless cfg (copyOutputSlots cfg st cols).2)
          (cfg.fnColIdx (cfg.fnNum - 1))) Val.null) ∧
    (∀ j ∈ cfg.outputSlotIndexs,
      colSize (padUseless cfg (copyOutputSlots cfg st cols).2) j =
        colSize (padUseless cfg (copyOutputSlots cfg st cols).2)
          (cfg.fnColIdx (cfg.fnNum - 1))) ∧
    (∀ i, i < cfg.fnNum →
      colSize (padUseless cfg (copyOutputSlots cfg st cols).2) (cfg.fnColIdx i) =
        colSize (padUseless cfg (copyOutputSlots cfg st cols).2)
          (cfg.fnColIdx (cfg.fnNum - 1))) := by
  obtain ⟨hC, hflush⟩ := copyOutputSlots_inv cfg hwf st cols hinv
  set D : Cols := (copyOutputSlots cfg st cols).2 with hD
  have hpadhi : ∀ x, cfg.childSlotCount ≤ x →
      (padUseless cfg D).getD x [] = D.getD x [] := by
    intro x hx
    exact padUseless_getD_stable cfg D x
      (fun i hi => by have := hwf.uselessLt i hi; omega)
  have hpadneed : ∀ j ∈ cfg.outputSlotIndexs,
      (padUseless cfg D).getD j [] = D.getD j [] := by
    intro j hj
    exact padUseless_getD_stable cfg D j
      (fun i hi => fun he => hwf.disj i hi (he ▸ hj))
  have hlast : colSize (padUseless cfg D) (cfg.fnColIdx (cfg.fnNum - 1)) =
      colSize D (cfg.fnColIdx (cfg.fnNum - 1)) :=
    congrArg List.length (hpadhi _ (Nat.le_add_right _ _))
  refine ⟨fun j hj => ?_, fun j hj => ?_, fun i hi => ?_⟩
  · rw [padUseless_useless_col cfg D j hj hwf.uselessNodup
      (by rw [hC.len]; have := hwf.uselessLt j hj; omega)]
    rw [hC.useless j hj]
    rw [hlast]
    have h0 : colSize D cfg.childSlotCount = colSize D (cfg.fnColIdx (cfg.fnNum - 1)) := by
      have := hC.fncols 0 hwf.posN
      rw [show cfg.fnColIdx 0 = cfg.childSlotCount from by unfold Config.fnColIdx; omega] at this
      exact this
    rw [h0]
    simp
  · rw [show colSize (padUseless cfg D) j = colSize D j from
      congrArg List.length (hpadneed j hj), hlast]
    exact hflush j hj
  · rw [show colSize (padUseless cfg D) (cfg.fnColIdx i) = colSize D (cfg.fnColIdx i) from
      congrArg List.length (hpadhi _ (Nat.le_add_right _ _)), hlast]
    exact hC.fncols i hi

/-! ### Claim C6 (append-time size invariant) -/

/-- C6 counterexample: one iteration of the fill loop on `cfg1` (one
needed pass-through slot, one TVF with two values) appends two values
to the TVF column (the emit event is in the iteration's log), after
which the needed pass-through column reports 0 rows while the last-TVF
column reports 2 — they are not identical, the needed column lags by
the pending replication count until the flush. -/
theorem C6_mid_append_sizes_counterexample :
    Event.emit 0 2 10 ∈
      (innerBody cfg1 10 ⟨some 0, [0], 0, [[Val.int 10]], false⟩ [[], []]
        false).events ∧
    colSize (innerBody cfg1 10 ⟨some 0, [0], 0, [[Val.int 10]], false⟩ [[], []]
        false).cols 0 = 0 ∧
    colSize (innerBody cfg1 10 ⟨some 0, [0], 0, [[Val.int 10]], false⟩ [[], []]
        false).cols 1 = 2 := by
  decide

/-- C6 amended: after every append the needed pass-through columns lag
the last-TVF column by exactly the pending replication count (and the
TVF columns agree among themselves, useless columns stay empty) — the
invariant `ColsInv` — and every iteration of the fill loop preserves
it; the needed columns' sizes become identical to the last-TVF column's
exactly at each flush (`_copy_output_slots`). -/
theorem C6_size_invariant (cfg : Config) (cap : Nat) (st : LState) (cols : Cols)
    (skip : Bool) (hwf : ConfigWF cfg)
    (hinv : ColsInv cfg st.currentRowInsertTimes cols) :
    ColsInv cfg (innerBody cfg cap st cols skip).state.currentRowInsertTimes
        (innerBody cfg cap st cols skip).cols ∧
      ∀ j ∈ cfg.outputSlotIndexs,
        colSize (copyOutputSlots cfg st cols).2 j =
          colSize (copyOutputSlots cfg st cols).2 (cfg.fnColIdx (cfg.fnNum - 1)) :=
  ⟨innerBody_inv cfg hwf cap st cols skip hinv,
    (copyOutputSlots_inv cfg hwf st cols hinv).2⟩

/-- Witness for C6 amended, on the counterexample iteration: the needed
column's size plus the pending count equals the last-TVF column's
size (0 + 2 = 2). -/
theorem C6_size_invariant_witness :
    colSize (innerBody cfg1 10 ⟨some 0, [0], 0, [[Val.int 10]], false⟩ [[], []]
        false).cols 0 +
      (innerBody cfg1 10 ⟨some 0, [0], 0, [[Val.int 10]], false⟩ [[], []]
        false).state.currentRowInsertTimes =
    colSize (innerBody cfg1 10 ⟨some 0, [0], 0, [[Val.int 10]], false⟩ [[], []]
        false).cols (cfg1.fnColIdx (cfg1.fnNum - 1)) :=
  ((C6_size_invariant cfg1 10 ⟨some 0, [0], 0, [[Val.int 10]], false⟩ [[], []]
      false
      ⟨by decide, by decide, by decide, by decide, by decide, by decide⟩
      ⟨by decide, by decide, by decide, by decide⟩).1).needed 0 (by decide)

/-! ### Claim C8 (flush-time padding of useless columns) -/

/-- C8: at flush time of every completed fill call (entered with no
pending replication), each useless pass-through column is extended with
default values exactly up to the common row count of the needed
columns: in the returned block every useless column is
`replicate common default` — defaults only, never values copied from
the source row — and every needed column and every TVF column has that
same common size. -/
theorem C8_useless_default_padding (cfg : Config) (cap fuel : Nat) (st : LState)
    (res : FillResult) (hwf : ConfigWF cfg)
    (htimes : st.currentRowInsertTimes = 0)
    (hres : getExpandedBlock cfg cap fuel st = some res) :
    (∀ j ∈ cfg.uselessSlotIndexs,
      res.cols.getD j [] =
        List.replicate (colSize res.cols (cfg.fnColIdx (cfg.fnNum - 1))) Val.null) ∧
    (∀ j ∈ cfg.outputSlotIndexs,
      colSize res.cols j = colSize res.cols (cfg.fnColIdx (cfg.fnNum - 1))) ∧
    (∀ i, i < cfg.fnNum →
      colSize res.cols (cfg.fnColIdx i) =
        colSize res.cols (cfg.fnColIdx (cfg.fnNum - 1))) := by
  simp only [getExpandedBlock] at hres
  by_cases hblk : st.childBlock = []
  · rw [if_pos hblk] at hres
    simp only [Option.map_some'] at hres
    have heq := Option.some.inj hres
    subst heq
    exact finalize_cols_spec cfg hwf st (emptyCols cfg)
      (by rw [htimes]; exact ColsInv_emptyCols cfg)
  · rw [if_neg hblk] at hres
    rcases Option.map_eq_some'.mp hres with ⟨x, hx, hfe⟩
    have hinv := innerLoopGo_inv cfg hwf cap fuel st (emptyCols cfg) false x
      (by rw [htimes]; exact ColsInv_emptyCols cfg) hx
    subst hfe
    exact finalize_cols_spec cfg hwf x.1 x.2.1 hinv

/-- Fixture for the C8 witness: one TVF, two child slots, slot 0 needed
and slot 1 useless, two buffered child rows. -/
def cfgD : Config :=
  ⟨[⟨false, fun r => [Val.int (Int.ofNat r), Val.int 9]⟩], 2, [0], [1]⟩

def stD : LState :=
  ⟨some 0, [0], 0, [[Val.int 100, Val.int 200], [Val.int 101, Val.int 201]], true⟩

/-- The completed fill call on the C8 fixture. -/
def resD : FillResult :=
  ⟨⟨none, [2], 0, [], true⟩,
    [[Val.int 100, Val.int 100, Val.int 101, Val.int 101],
     [Val.null, Val.null, Val.null, Val.null],
     [Val.int 0, Val.int 9, Val.int 1, Val.int 9]],
    [Event.emit 0 2 100, Event.nextRow, Event.emit 1 2 98, Event.close 0],
    true⟩

/-- Witness for C8: on the fixture, the useless column 1 of the
returned block is all defaults, padded to the common row count. -/
theorem C8_useless_default_padding_witness :
    resD.cols.getD 1 [] =
      List.replicate (colSize resD.cols (cfgD.fnColIdx (cfgD.fnNum - 1)))
        Val.null :=
  (C8_useless_default_padding cfgD 100 50 stD resD
    ⟨by decide, by decide, by decide, by decide, by decide, by decide⟩ rfl
    (by decide)).1 1 (by decide)

/-! ### Claim C1: mixed-radix accounting for the expansion of one row

The enumeration over one bound row is a mixed-radix counter: instance
`N-1` is the fastest digit, instance `i` counts modulo `n i` (its
value-sequence size).  `mval n pos = Σ pos_i · Π_{j>i} n_j` is the
number of combinations already emitted; emission adds the repeat count
to the last digit, a successful roll is the carry (it preserves
`mval`), and a failed roll happens exactly when `mval` has reached
`Π n_i`. -/

/-- Mixed-radix value of the digit list `pos` for radixes `n`. -/
def mval : List Nat → List Nat → Nat
  | n :: ns, p :: ps => p * ns.prod + mval ns ps
  | _, _ => 0

theorem mval_nil_right (n : List Nat) : mval n [] = 0 := by
  cases n <;> rfl

theorem mval_zero (n : List Nat) :
    ∀ pos : List Nat, (∀ j, j < n.length → pos.getD j 0 = 0) →
    mval n pos = 0 := by
  induction n with
  | nil => intro pos _; cases pos <;> rfl
  | cons n0 ns ih =>
    intro pos h
    cases pos with
    | nil => rfl
    | cons p ps =>
      have h0 : p = 0 := h 0 (by simp)
      simp only [mval, h0, Nat.zero_mul, Nat.zero_add]
      exact ih ps (fun j hj => h (j + 1) (by simpa using hj))

/-- Bumping the last digit by `t` raises the value by `t`. -/
theorem mval_set_last (n : List Nat) :
    ∀ (pos : List Nat) (t : Nat), pos.length = n.length → 0 < n.length →
    mval n (pos.set (n.length - 1) (pos.getD (n.length - 1) 0 + t)) =
      mval n pos + t := by
  induction n with
  | nil => intro pos t _ h; simp at h
  | cons n0 ns ih =>
    intro pos t hlen _
    cases pos with
    | nil => simp at hlen
    | cons p ps =>
      cases ns with
      | nil =>
        cases ps with
        | nil => simp [mval]
        | cons q qs => simp at hlen
      | cons m ms =>
        have hlen' : ps.length = (m :: ms).length := by simpa using hlen
        have hpos : (n0 :: m :: ms).length - 1 = ((m :: ms).length - 1) + 1 := by
          simp
        rw [hpos]
        simp only [List.set_cons_succ, List.getD_cons_succ, mval]
        rw [ih ps t hlen' (by simp)]
        omega

/-- When every digit but the last sits at `radix - 1` and the last is at
its radix, the value is the full product: the row is complete. -/
theorem mval_done (n : List Nat) :
    ∀ pos : List Nat, pos.length = n.length → 0 < n.length →
    (∀ j, j < n.length - 1 → pos.getD j 0 + 1 = n.getD j 0) →
    pos.getD (n.length - 1) 0 = n.getD (n.length - 1) 0 →
    mval n pos = n.prod := by
  induction n with
  | nil => intro pos _ h; simp at h
  | cons n0 ns ih =>
    intro pos hlen _ hmid hlast
    cases pos with
    | nil => simp at hlen
    | cons p ps =>
      cases ns with
      | nil =>
        have : p = n0 := by simpa using hlast
        simp [mval, this]
      | cons m ms =>
        have hlen' : ps.length = (m :: ms).length := by simpa using hlen
        have hp : p + 1 = n0 := by
          have := hmid 0 (by simp)
          simpa using this
        have htail : mval (m :: ms) ps = (m :: ms).prod := by
          refine ih ps hlen' (by simp) (fun j hj => ?_) ?_
          · have := hmid (j + 1) (by simp at hj ⊢; omega)
            simpa using this
          · have := hlast
            simp only [List.length_cons, List.getD_cons_succ] at this ⊢
            simpa using this
        simp only [mval, htail, List.prod_cons]
        calc p * ((m :: ms).prod) + (m :: ms).prod
            = (p + 1) * (m :: ms).prod := by ring
          _ = n0 * (m :: ms).prod := by rw [hp]

/-- The carry: digit `i` goes up by one, every digit above `i` was at
its maximum configuration (digits in `(i, N-1)` at `radix - 1`, digit
`N-1` at its radix) and is reset to 0 — the value is unchanged. -/
theorem mval_carry (n : List Nat) :
    ∀ (pos₁ pos₂ : List Nat) (i : Nat),
    pos₁.length = n.length → pos₂.length = n.length → i < n.length - 1 →
    (∀ j, j < i → pos₂.getD j 0 = pos₁.getD j 0) →
    pos₂.getD i 0 = pos₁.getD i 0 + 1 →
    (∀ j, i < j → j < n.length → pos₂.getD j 0 = 0) →
    (∀ j, i < j → j < n.length - 1 → pos₁.getD j 0 + 1 = n.getD j 0) →
    pos₁.getD (n.length - 1) 0 = n.getD (n.length - 1) 0 →
    mval n pos₂ = mval n pos₁ := by
  induction n with
  | nil => intro pos₁ pos₂ i _ _ h; simp at h
  | cons n0 ns ih =>
    intro pos₁ pos₂ i hlen₁ hlen₂ hi hbelow hat habove hmax hlast
    cases pos₁ with
    | nil => simp at hlen₁
    | cons p ps =>
      cases pos₂ with
      | nil => simp at hlen₂
      | cons q qs =>
        cases i with
        | zero =>
          -- digit 0 bumps; the tail of pos₁ is complete, the tail of
          -- pos₂ is zero
          have hq : q = p + 1 := by simpa using hat
          have hns : 0 < ns.length := by simp at hi; omega
          have htail₂ : mval ns qs = 0 := by
            refine mval_zero ns qs (fun j hj => ?_)
            have := habove (j + 1) (by omega) (by simp; omega)
            simpa using this
          have htail₁ : mval ns ps = ns.prod := by
            refine mval_done ns ps (by simpa using hlen₁) hns (fun j hj => ?_) ?_
            · have := hmax (j + 1) (by omega) (by simp; omega)
              simpa using this
            · have h1 : (n0 :: ns).length - 1 = (ns.length - 1) + 1 := by
                simp; omega
              rw [h1, List.getD_cons_succ, List.getD_cons_succ] at hlast
              exact hlast
          simp only [mval, hq, htail₂, htail₁]
          ring
        | succ i' =>
          have hp : q = p := by simpa using hbelow 0 (by omega)
          have htail : mval ns qs = mval ns ps := by
            refine ih ps qs i' (by simpa using hlen₁) (by simpa using hlen₂)
              (by simp at hi; omega) (fun j hj => ?_) ?_ (fun j h1 h2 => ?_)
              (fun j h1 h2 => ?_) ?_
            · have := hbelow (j + 1) (by omega)
              simpa using this
            · have := hat
              simpa using this
            · have := habove (j + 1) (by omega) (by simp; omega)
              simpa using this
            · have := hmax (j + 1) (by omega) (by simp; omega)
              simpa using this
            · have h1 : (n0 :: ns).length - 1 = (ns.length - 1) + 1 := by
                simp at hi ⊢; omega
              rw [h1, List.getD_cons_succ, List.getD_cons_succ] at hlast
              exact hlast
          simp only [mval, hp, htail]

/-- The spec's per-row total:
`Π (s_i if s_i > 0 else (1 if o_i else 0))`. -/
def rowProduct (cfg : Config) (r : Nat) : Nat :=
  (cfg.fns.map (fun f =>
    if 0 < (f.rowVals r).length then (f.rowVals r).length
    else if f.outer then 1 else 0)).prod

/-- A TVF instance's effective value count agrees with the spec's
per-instance factor. -/
theorem effN_eq_factor (f : TF) (r : Nat) :
    f.effN r = if 0 < (f.rowVals r).length then (f.rowVals r).length
      else if f.outer then 1 else 0 := by
  unfold TF.effN TF.effVals
  by_cases he : (f.rowVals r).isEmpty
  · have h0 : (f.rowVals r).length = 0 := by
      rwa [List.isEmpty_iff_length_eq_zero] at he
    by_cases ho : f.outer
    · simp [he, ho, h0]
    · simp [he, ho, h0]
  · have h0 : 0 < (f.rowVals r).length := by
      rcases Nat.eq_zero_or_pos (f.rowVals r).length with h | h
      · exact absurd (by rwa [List.isEmpty_iff_length_eq_zero]) he
      · exact h
    simp [he, h0]

theorem rowProduct_eq_sizes_prod (cfg : Config) (r : Nat) :
    rowProduct cfg r = (cfg.sizes r).prod := by
  unfold rowProduct Config.sizes
  congr 1
  exact List.map_congr_left (fun f _ => (effN_eq_factor f r).symm)

/-- A skipped row (some non-outer instance empty) has product zero. -/
theorem skiprow_rowProduct_zero (cfg : Config) (r : Nat)
    (h : isInnerAndEmptyRow cfg r = true) : rowProduct cfg r = 0 := by
  rw [rowProduct_eq_sizes_prod]
  unfold isInnerAndEmptyRow at h
  rcases List.any_eq_true.mp h with ⟨f, hf, hp⟩
  rw [Bool.and_eq_true, Bool.not_eq_true'] at hp
  obtain ⟨hno, he⟩ := hp
  have he' : f.rowVals r = [] := by simpa using he
  refine List.prod_eq_zero ?_
  have hz : f.effN r = 0 := by
    unfold TF.effN TF.effVals
    simp [he', hno]
  exact hz ▸ List.mem_map_of_mem (fun f => f.effN r) hf

/-- An instance that does not trigger the skip has at least one
effective value. -/
theorem not_skip_effN_pos (f : TF) (r : Nat)
    (h : (!f.outer && (f.rowVals r).isEmpty) = false) : 1 ≤ f.effN r := by
  unfold TF.effN TF.effVals
  by_cases he : f.rowVals r = []
  · have ho : f.outer = true := by
      rw [he] at h
      simpa using h
    simp [he, ho]
  · have hpos : 0 < (f.rowVals r).length := List.length_pos.mpr he
    by_cases hb : ((f.rowVals r).isEmpty && f.outer) = true
    · simp [hb]
    · simp only [Bool.not_eq_true] at hb
      simpa [hb] using hpos

/-- On a row that is not skipped every instance has at least one
effective value. -/
theorem not_skiprow_sizes_pos (cfg : Config) (r : Nat)
    (h : isInnerAndEmptyRow cfg r = false) :
    ∀ i, i < cfg.fnNum → 1 ≤ (cfg.sizes r).getD i 0 := by
  intro i hi
  unfold isInnerAndEmptyRow at h
  have hall := List.any_eq_false.mp h
  have hlen : i < (cfg.fns.map (fun f => f.effN r)).length := by simpa using hi
  unfold Config.sizes
  rw [List.getD_eq_getElem?_getD, List.getElem?_eq_getElem hlen]
  simp only [Option.getD_some, List.getElem_map]
  refine not_skip_effN_pos _ r ?_
  have hmem : cfg.fns[i] ∈ cfg.fns := List.getElem_mem _
  exact Bool.eq_false_iff.mpr (hall _ hmem)

/-- The per-event contribution of an emit event to the count of rows
emitted for source row `r`. -/
def emitContribution (r : Nat) : Event → Nat
  | Event.emit r' t _ => if r' = r then t else 0
  | _ => 0

/-- Number of output rows the event log attributes to source row `r`. -/
def countEmits (evs : List Event) (r : Nat) : Nat :=
  (evs.map (emitContribution r)).sum

theorem countEmits_append (a b : List Event) (r : Nat) :
    countEmits (a ++ b) r = countEmits a r + countEmits b r := by
  unfold countEmits
  rw [List.map_append, List.sum_append]

theorem countEmits_closes (cfg : Config) (r : Nat) :
    countEmits ((List.range cfg.fnNum).map Event.close) r = 0 := by
  unfold countEmits
  rw [List.map_map]
  have : ∀ x ∈ (List.range cfg.fnNum), (emitContribution r ∘ Event.close) x = 0 :=
    fun x _ => rfl
  rw [List.map_congr_left this]
  simp

theorem countEmits_processNextChildRow (cfg : Config) (st : LState) (r : Nat) :
    countEmits (processNextChildRow cfg st).2 r = 0 := by
  rcases processNextChildRow_events cfg st with he | he <;> rw [he]
  · rfl
  · exact countEmits_closes cfg r

/-! ### Enumeration phases and the per-row accounting invariant -/

theorem sizes_length (cfg : Config) (r : Nat) :
    (cfg.sizes r).length = cfg.fnNum := by
  simp [Config.sizes, Config.fnNum]

theorem sizes_getD (cfg : Config) (r : Nat) (i : Nat) (hi : i < cfg.fnNum) :
    (cfg.sizes r).getD i 0 = ((cfg.fns.getD i default).effVals r).length := by
  unfold Config.sizes
  have hi' : i < cfg.fns.length := hi
  rw [List.getD_eq_getElem?_getD, List.getElem?_eq_getElem (by simpa using hi)]
  simp only [Option.getD_some, List.getElem_map]
  rw [List.getD_eq_getElem?_getD, List.getElem?_eq_getElem hi']
  rfl

theorem eosVec_length (cfg : Config) (st : LState) :
    (eosVec cfg st).length = cfg.fnNum := by
  simp [eosVec]

theorem eosVec_getD (cfg : Config) (st : LState) (j : Nat) (hj : j < cfg.fnNum) :
    (eosVec cfg st).getD j false =
      decide ((cfg.sizes st.curRow).getD j 0 ≤ st.pos.getD j 0) := by
  unfold eosVec
  rw [List.getD_eq_getElem?_getD, List.getElem?_eq_getElem (by simpa using hj)]
  simp

theorem findLastFnEosIdx_range (eos : List Bool) (h : 0 < eos.length) :
    -1 ≤ findLastFnEosIdx eos ∧ findLastFnEosIdx eos < (eos.length : Int) := by
  unfold findLastFnEosIdx
  have hle := leadingTrue_le eos.reverse
  rw [List.length_reverse] at hle
  by_cases h0 : leadingTrue eos.reverse = 0
  · rw [if_pos h0]
    constructor <;> omega
  · rw [if_neg h0]
    by_cases h1 : leadingTrue eos.reverse = eos.length
    · rw [if_pos h1]
      constructor <;> omega
    · rw [if_neg h1]
      constructor <;> omega

/-- The bound row's enumeration is mid-flight: every digit within
bounds, every non-last digit strictly below its radix. -/
def Expanding (cfg : Config) (r : Nat) (pos : List Nat) : Prop :=
  (∀ i, i < cfg.fnNum → pos.getD i 0 ≤ (cfg.sizes r).getD i 0) ∧
  (∀ i, i < cfg.fnNum - 1 → pos.getD i 0 < (cfg.sizes r).getD i 0)

/-- The bound row's enumeration is complete after a failed roll: every
digit sits exactly at its radix. -/
def DonePos (cfg : Config) (r : Nat) (pos : List Nat) : Prop :=
  ∀ i, i < cfg.fnNum → pos.getD i 0 = (cfg.sizes r).getD i 0

/-- Every instance reports eos. -/
def rowDone (cfg : Config) (r : Nat) (pos : List Nat) : Bool :=
  (List.range cfg.fnNum).all
    (fun i => decide ((cfg.sizes r).getD i 0 ≤ pos.getD i 0))

theorem rowDone_iff (cfg : Config) (r : Nat) (pos : List Nat) :
    rowDone cfg r pos = true ↔
      ∀ i, i < cfg.fnNum → (cfg.sizes r).getD i 0 ≤ pos.getD i 0 := by
  unfold rowDone
  rw [List.all_eq_true]
  constructor
  · intro h i hi
    simpa using h i (List.mem_range.mpr hi)
  · intro h x hx
    simpa using h x (List.mem_range.mp hx)

/-- Output rows already emitted for the bound row, read off the
state. -/
def curContrib (cfg : Config) (st : LState) : Nat :=
  if isInnerAndEmptyRow cfg st.curRow then 0
  else if rowDone cfg st.curRow st.pos then rowProduct cfg st.curRow
  else mval (cfg.sizes st.curRow) st.pos

/-- Output rows already emitted that are attributable to source row
`r`: full product for consumed rows, the current contribution for the
bound row, nothing for rows not yet reached. -/
def pastCount (cfg : Config) (st : LState) (r : Nat) : Nat :=
  match st.curChildOffset with
  | none => rowProduct cfg r
  | some cur =>
    if r < cur then rowProduct cfg r
    else if r = cur then curContrib cfg st
    else 0

/-- Loop invariant for the emission accounting: a row of the buffered
block is bound, the offsets form a valid enumeration state, and the
skip flag is only set on skipped rows. -/
structure RowInv (cfg : Config) (block : List (List Val)) (st : LState)
    (skip : Bool) : Prop where
  bound : st.curChildOffset = some st.curRow
  blockEq : st.childBlock = block
  rowLt : st.curRow < block.length
  posLen : st.pos.length = cfg.fnNum
  skipImp : skip = true → isInnerAndEmptyRow cfg st.curRow = true
  phase : isInnerAndEmptyRow cfg st.curRow = false →
    Expanding cfg st.curRow st.pos ∨ DonePos cfg st.curRow st.pos

/-- A mid-flight state that is all-eos can only be a one-instance row
whose single digit has just reached its radix; its value is the full
product. -/
theorem expanding_rowDone_mval (cfg : Config) (r : Nat) (pos : List Nat)
    (hN : 0 < cfg.fnNum) (hlen : pos.length = cfg.fnNum)
    (hexp : Expanding cfg r pos) (hd : rowDone cfg r pos = true) :
    mval (cfg.sizes r) pos = rowProduct cfg r := by
  have hN1 : cfg.fnNum = 1 := by
    by_contra hne
    have h2 := hexp.2 0 (by omega)
    have h3 := (rowDone_iff cfg r pos).mp hd 0 (by omega)
    omega
  rw [rowProduct_eq_sizes_prod]
  have heq : pos.getD 0 0 = (cfg.sizes r).getD 0 0 := by
    have h1 := hexp.1 0 (by omega)
    have h2 := (rowDone_iff cfg r pos).mp hd 0 (by omega)
    omega
  have hs : (cfg.sizes r).length = 1 := by rw [sizes_length, hN1]
  have hp : pos.length = 1 := by rw [hlen, hN1]
  rcases List.length_eq_one.mp hs with ⟨n0, hn0⟩
  rcases List.length_eq_one.mp hp with ⟨p0, hp0⟩
  rw [hn0, hp0] at heq ⊢
  simp only [List.getD_cons_zero] at heq
  simp [mval, heq]

theorem donePos_rowDone (cfg : Config) (r : Nat) (pos : List Nat)
    (hd : DonePos cfg r pos) : rowDone cfg r pos = true :=
  (rowDone_iff cfg r pos).mpr (fun i hi => le_of_eq (hd i hi).symm)

theorem curContrib_of_skip (cfg : Config) (st : LState)
    (h : isInnerAndEmptyRow cfg st.curRow = true) : curContrib cfg st = 0 := by
  unfold curContrib
  rw [if_pos h]

/-- On a non-skipped mid-flight row the contribution is the mixed-radix
value. -/
theorem curContrib_of_expanding (cfg : Config) (st : LState)
    (hN : 0 < cfg.fnNum) (hlen : st.pos.length = cfg.fnNum)
    (hskip : isInnerAndEmptyRow cfg st.curRow = false)
    (hexp : Expanding cfg st.curRow st.pos) :
    curContrib cfg st = mval (cfg.sizes st.curRow) st.pos := by
  unfold curContrib
  rw [if_neg (by rw [hskip]; exact Bool.false_ne_true)]
  by_cases hd : rowDone cfg st.curRow st.pos = true
  · rw [if_pos hd, expanding_rowDone_mval cfg st.curRow st.pos hN hlen hexp hd]
  · rw [if_neg hd]

/-- On a completed row the contribution is the full product. -/
theorem curContrib_of_done (cfg : Config) (st : LState)
    (hskip : isInnerAndEmptyRow cfg st.curRow = false)
    (hd : DonePos cfg st.curRow st.pos) :
    curContrib cfg st = rowProduct cfg st.curRow := by
  unfold curContrib
  rw [if_neg (by rw [hskip]; exact Bool.false_ne_true),
    if_pos (donePos_rowDone cfg st.curRow st.pos hd)]

/-- Greatest witness below a bound for a decidable predicate. -/
theorem exists_greatest_below (Q : Nat → Prop) [DecidablePred Q] :
    ∀ (b : Nat), (∃ j, j < b ∧ Q j) →
      ∃ i, i < b ∧ Q i ∧ ∀ j, i < j → j < b → ¬ Q j := by
  intro b
  induction b with
  | zero =>
    rintro ⟨j, hj, -⟩
    omega
  | succ b ih =>
    rintro ⟨j, hj, hQ⟩
    by_cases hb : Q b
    · exact ⟨b, by omega, hb, fun j h1 h2 => by omega⟩
    · have hex' : ∃ j, j < b ∧ Q j := by
        refine ⟨j, ?_, hQ⟩
        by_cases hjb : j = b
        · subst hjb
          exact absurd hQ hb
        · omega
      obtain ⟨i, h1, h2, h3⟩ := ih hex'
      refine ⟨i, by omega, h2, fun j ha hb2 => ?_⟩
      by_cases hjb : j = b
      · subst hjb
        exact hb
      · exact h3 j ha (by omega)

/-- A roll at pivot `N-1` (the only pivot reachable on a non-skipped
row, its non-last digits being strictly below their radixes) from a
mid-flight state whose last digit has reached its radix: on failure the
row is complete and its value has reached the full product; on success
the state stays mid-flight with the same value (the carry). -/
theorem roll_spec_last (cfg : Config) (r : Nat) (pos : List Nat)
    (hN2 : 2 ≤ cfg.fnNum) (hlen : pos.length = cfg.fnNum)
    (hskip : isInnerAndEmptyRow cfg r = false)
    (hexp : Expanding cfg r pos)
    (hlast : (cfg.sizes r).getD (cfg.fnNum - 1) 0 ≤ pos.getD (cfg.fnNum - 1) 0) :
    ((rollTableFunctions (cfg.sizes r) pos (cfg.fnNum - 1)).1 = false →
      DonePos cfg r (rollTableFunctions (cfg.sizes r) pos (cfg.fnNum - 1)).2 ∧
        mval (cfg.sizes r) pos = rowProduct cfg r) ∧
    ((rollTableFunctions (cfg.sizes r) pos (cfg.fnNum - 1)).1 = true →
      (Expanding cfg r (rollTableFunctions (cfg.sizes r) pos (cfg.fnNum - 1)).2 ∧
        rowDone cfg r (rollTableFunctions (cfg.sizes r) pos (cfg.fnNum - 1)).2 =
          false) ∧
      mval (cfg.sizes r) (rollTableFunctions (cfg.sizes r) pos (cfg.fnNum - 1)).2 =
        mval (cfg.sizes r) pos) := by
  have hnpos := not_skiprow_sizes_pos cfg r hskip
  have hlaste : pos.getD (cfg.fnNum - 1) 0 = (cfg.sizes r).getD (cfg.fnNum - 1) 0 := by
    have := hexp.1 (cfg.fnNum - 1) (by omega)
    omega
  have hnlen : (cfg.sizes r).length = cfg.fnNum := sizes_length cfg r
  have hplen : ((rollTableFunctions (cfg.sizes r) pos (cfg.fnNum - 1)).2).length =
      cfg.fnNum := by
    rw [rollTableFunctions_length, hlen]
  by_cases hex : ∃ j, j < cfg.fnNum - 1 ∧
      pos.getD j 0 + 1 < (cfg.sizes r).getD j 0
  · obtain ⟨j₀, hj₀, hPj₀⟩ := hex
    have hkey : ∃ i, i < cfg.fnNum - 1 ∧
        pos.getD i 0 + 1 < (cfg.sizes r).getD i 0 ∧
        ∀ j, i < j → j < cfg.fnNum - 1 →
          (cfg.sizes r).getD j 0 ≤ pos.getD j 0 + 1 := by
      obtain ⟨i, h1, h2, h3⟩ := exists_greatest_below
        (fun j => pos.getD j 0 + 1 < (cfg.sizes r).getD j 0) (cfg.fnNum - 1)
        ⟨j₀, hj₀, hPj₀⟩
      exact ⟨i, h1, h2, fun j ha hb => by
        have := h3 j ha hb
        omega⟩
    obtain ⟨i, hilt, hi, higreat⟩ := hkey
    obtain ⟨hres1, hres2⟩ := rollTableFunctions_break (cfg.sizes r) pos
      (cfg.fnNum - 1) i (by omega) (by omega) hi
      (fun j hj hij => higreat j hij hj)
    constructor
    · intro hfalse
      rw [hfalse] at hres1
      exact absurd hres1 (by simp)
    · intro _
      have hexp' : Expanding cfg r
          (rollTableFunctions (cfg.sizes r) pos (cfg.fnNum - 1)).2 := by
        constructor
        · intro m hm
          rw [hres2 m]
          by_cases hmi : m < i
          · rw [if_pos hmi]
            exact hexp.1 m hm
          · by_cases hme : m = i
            · rw [if_neg hmi, if_pos hme, hme]
              omega
            · rw [if_neg hmi, if_neg hme]
              exact Nat.zero_le _
        · intro m hm
          rw [hres2 m]
          by_cases hmi : m < i
          · rw [if_pos hmi]
            exact hexp.2 m hm
          · by_cases hme : m = i
            · rw [if_neg hmi, if_pos hme, hme]
              omega
            · rw [if_neg hmi, if_neg hme]
              exact hnpos m (by omega)
      refine ⟨⟨hexp', ?_⟩, ?_⟩
      · refine Bool.eq_false_iff.mpr (fun hd => ?_)
        have hdi := (rowDone_iff cfg r _).mp hd i (by omega)
        rw [hres2 i, if_neg (lt_irrefl i), if_pos rfl] at hdi
        omega
      · refine mval_carry (cfg.sizes r) pos _ i (by omega) (by omega)
          (by omega) (fun j hj => ?_) ?_ (fun j h1 h2 => ?_)
          (fun j h1 h2 => ?_) ?_
        · rw [hres2 j, if_pos hj]
        · rw [hres2 i, if_neg (lt_irrefl i), if_pos rfl]
        · rw [hres2 j, if_neg (by omega), if_neg (by omega)]
        · have h3 := higreat j h1 (by omega)
          have h4 := hexp.2 j (by omega)
          omega
        · rw [hnlen]
          exact hlaste
  · push_neg at hex
    obtain ⟨hres1, hres2⟩ := rollTableFunctions_fail (cfg.sizes r) pos
      (cfg.fnNum - 1) (by omega)
      (fun j hj => hex j hj)
    constructor
    · intro _
      constructor
      · intro m hm
        rw [hres2 m]
        by_cases hmi : m < cfg.fnNum - 1
        · rw [if_pos hmi]
          have h1 := hex m hmi
          have h2 := hexp.2 m hmi
          omega
        · rw [if_neg hmi]
          have hme : m = cfg.fnNum - 1 := by omega
          rw [hme]
          exact hlaste
      · rw [rowProduct_eq_sizes_prod]
        refine mval_done (cfg.sizes r) pos (by omega) (by omega)
          (fun j hj => ?_) ?_
        · rw [hnlen] at hj
          have h1 := hex j hj
          have h2 := hexp.2 j hj
          omega
        · rw [hnlen]
          exact hlaste
    · intro htrue
      rw [htrue] at hres1
      exact absurd hres1 (by simp)

theorem pastCount_eq (cfg : Config) (st : LState) (r : Nat)
    (hb : st.curChildOffset = some st.curRow) :
    pastCount cfg st r =
      if r < st.curRow then rowProduct cfg r
      else if r = st.curRow then curContrib cfg st
      else 0 := by
  unfold pastCount
  rw [hb]

theorem countEmits_single_emit (c t m r : Nat) :
    countEmits [Event.emit c t m] r = if c = r then t else 0 := by
  simp [countEmits, emitContribution]

theorem countEmits_single_roll (k : Int) (ok : Bool) (r : Nat) :
    countEmits [Event.roll k ok] r = 0 := rfl

/-- Accounting across the skip-check-and-emit tail of an iteration: the
result is a `next` over the same bound row, the invariant is preserved,
and the counts absorb exactly the emitted repeat count. -/
theorem skipCheckAndEmit_count (cfg : Config) (cap : Nat) (st : LState)
    (cols : Cols) (evs : List Event) (block : List (List Val))
    (hN : 0 < cfg.fnNum)
    (hinv : RowInv cfg block st false)
    (hexp : isInnerAndEmptyRow cfg st.curRow = false →
      Expanding cfg st.curRow st.pos) :
    match skipCheckAndEmit cfg cap st cols evs with
    | .brk _ _ _ => False
    | .next st' _ skip' ev' =>
        RowInv cfg block st' skip' ∧
        ∀ r, pastCount cfg st r + countEmits ev' r =
          pastCount cfg st' r + countEmits evs r := by
  simp only [skipCheckAndEmit]
  by_cases h : isInnerAndEmptyRow cfg st.curRow
  · rw [if_pos h]
    refine ⟨⟨hinv.bound, hinv.blockEq, hinv.rowLt, hinv.posLen, fun _ => h,
      fun hc => absurd h (by rw [hc]; exact Bool.false_ne_true)⟩, fun r => rfl⟩
  · rw [if_neg h]
    have hskipf : isInnerAndEmptyRow cfg st.curRow = false :=
      Bool.eq_false_iff.mpr h
    have hexp' := hexp hskipf
    set mc := cap - colSize cols cfg.childSlotCount with hmc
    set t := (emitLast cfg st cols mc).1 with ht
    have htval : t = min mc
        (((cfg.fns.getD (cfg.fnNum - 1) default).effVals st.curRow).length -
          st.pos.getD (cfg.fnNum - 1) 0) := rfl
    set st₂ : LState := { (emitLast cfg st cols mc).2.1 with
      currentRowInsertTimes :=
        (emitLast cfg st cols mc).2.1.currentRowInsertTimes + t } with hst₂
    have hoff2 : st₂.curChildOffset = st.curChildOffset := rfl
    have hrow2 : st₂.curRow = st.curRow := rfl
    have hblock2 : st₂.childBlock = st.childBlock := rfl
    have hpos2 : st₂.pos = st.pos.set (cfg.fnNum - 1)
        (st.pos.getD (cfg.fnNum - 1) 0 + t) := rfl
    have hlastsz : (cfg.sizes st.curRow).getD (cfg.fnNum - 1) 0 =
        ((cfg.fns.getD (cfg.fnNum - 1) default).effVals st.curRow).length :=
      sizes_getD cfg st.curRow (cfg.fnNum - 1) (by omega)
    have hexp₂ : Expanding cfg st.curRow st₂.pos := by
      rw [hpos2]
      constructor
      · intro i hi
        by_cases hil : i = cfg.fnNum - 1
        · subst hil
          rw [getD_set_self _ _ _ (by rw [hinv.posLen]; omega)]
          have h1 := hexp'.1 (cfg.fnNum - 1) (by omega)
          have h2 : t ≤ ((cfg.fns.getD (cfg.fnNum - 1) default).effVals
              st.curRow).length - st.pos.getD (cfg.fnNum - 1) 0 := by
            rw [htval]
            exact Nat.min_le_right _ _
          omega
        · rw [getD_set_ne _ _ _ _ (fun he => hil he.symm)]
          exact hexp'.1 i hi
      · intro i hi
        rw [getD_set_ne _ _ _ _ (by omega)]
        exact hexp'.2 i hi
    have hinv₂ : RowInv cfg block st₂ false := by
      refine ⟨?_, ?_, ?_, ?_, fun hc => Bool.noConfusion hc, fun _ => Or.inl ?_⟩
      · rw [hoff2]
        have := hinv.bound
        rw [show st₂.curRow = st.curRow from hrow2]
        exact this
      · rw [hblock2]
        exact hinv.blockEq
      · rw [hrow2]
        exact hinv.rowLt
      · rw [hpos2]
        simp [hinv.posLen]
      · rw [hrow2]
        exact hexp₂
    refine ⟨hinv₂, fun r => ?_⟩
    rw [countEmits_append, countEmits_single_emit]
    rw [pastCount_eq cfg st r hinv.bound, pastCount_eq cfg st₂ r hinv₂.bound]
    rw [hrow2]
    by_cases hlt : r < st.curRow
    · rw [if_pos hlt, if_pos hlt, if_neg (show st.curRow ≠ r by omega)]
      omega
    · by_cases heq : r = st.curRow
      · rw [if_neg hlt, if_neg hlt, if_pos heq, if_pos heq]
        have hc1 : curContrib cfg st = mval (cfg.sizes st.curRow) st.pos :=
          curContrib_of_expanding cfg st hN hinv.posLen hskipf hexp'
        have hc2 : curContrib cfg st₂ = mval (cfg.sizes st₂.curRow) st₂.pos :=
          curContrib_of_expanding cfg st₂ hN
            (by rw [hpos2]; simp [hinv.posLen])
            (by rw [hrow2]; exact hskipf) (by rw [hrow2]; exact hexp₂)
        rw [hc1, hc2, hrow2, hpos2]
        have hml := mval_set_last (cfg.sizes st.curRow) st.pos t
          (by rw [hinv.posLen, sizes_length]) (by rw [sizes_length]; omega)
        rw [sizes_length] at hml
        rw [hml]
        have hcr : st.curRow = r := heq.symm
        rw [if_pos hcr]
        omega
      · rw [if_neg hlt, if_neg hlt, if_neg heq, if_neg heq]
        rw [if_neg (fun hc : st.curRow = r => heq hc.symm)]
        omega

theorem getD_replicate_zero (n i : Nat) :
    (List.replicate n (0 : Nat)).getD i 0 = 0 := by
  by_cases h : i < n
  · rw [List.getD_eq_getElem?_getD, List.getElem?_replicate]
    simp [h]
  · rw [List.getD_eq_getElem?_getD,
      List.getElem?_eq_none (by simpa using by omega)]
    rfl

theorem curContrib_of_rowDone (cfg : Config) (st : LState)
    (hskip : isInnerAndEmptyRow cfg st.curRow = false)
    (hd : rowDone cfg st.curRow st.pos = true) :
    curContrib cfg st = rowProduct cfg st.curRow := by
  unfold curContrib
  rw [if_neg (by rw [hskip]; exact Bool.false_ne_true), if_pos hd]

/-- A freshly bound row has contributed nothing yet. -/
theorem curContrib_fresh (cfg : Config) (st : LState) (hN : 0 < cfg.fnNum)
    (hpos : st.pos = List.replicate cfg.fnNum 0) :
    curContrib cfg st = 0 := by
  by_cases h : isInnerAndEmptyRow cfg st.curRow = true
  · exact curContrib_of_skip cfg st h
  · have hskipf := Bool.eq_false_iff.mpr h
    have hnd : rowDone cfg st.curRow st.pos = false := by
      refine Bool.eq_false_iff.mpr (fun hd => ?_)
      have h1 := (rowDone_iff cfg st.curRow st.pos).mp hd 0 hN
      rw [hpos, getD_replicate_zero] at h1
      have h2 := not_skiprow_sizes_pos cfg st.curRow hskipf 0 hN
      omega
    unfold curContrib
    rw [if_neg (by rw [hskipf]; exact Bool.false_ne_true),
      if_neg (by rw [hnd]; exact Bool.false_ne_true), hpos]
    exact mval_zero _ _ (fun j _ => getD_replicate_zero _ _)

theorem eosVec_getD_true_iff (cfg : Config) (st : LState) (j : Nat)
    (hj : j < cfg.fnNum) :
    (eosVec cfg st).getD j false = true ↔
      (cfg.sizes st.curRow).getD j 0 ≤ st.pos.getD j 0 := by
  rw [eosVec_getD cfg st j hj]
  exact decide_eq_true_iff

/-- `_find_last_fn_eos_idx = 0` on the live state means every instance
is eos. -/
theorem find_zero_iff (cfg : Config) (st : LState) (hN : 0 < cfg.fnNum) :
    findLastFnEosIdx (eosVec cfg st) = 0 ↔
      ∀ i, i < cfg.fnNum → (cfg.sizes st.curRow).getD i 0 ≤ st.pos.getD i 0 := by
  rw [findLastFnEosIdx_eq_zero (eosVec cfg st) (by rw [eosVec_length]; omega)]
  constructor
  · intro h i hi
    exact (eosVec_getD_true_iff cfg st i hi).mp (h i (by rw [eosVec_length]; omega))
  · intro h j hj
    rw [eosVec_length] at hj
    exact (eosVec_getD_true_iff cfg st j hj).mpr (h j hj)

/-- `_find_last_fn_eos_idx = -1` on the live state means the last
instance is not eos. -/
theorem find_neg_one_iff (cfg : Config) (st : LState) (hN : 0 < cfg.fnNum) :
    findLastFnEosIdx (eosVec cfg st) = -1 ↔
      ¬ ((cfg.sizes st.curRow).getD (cfg.fnNum - 1) 0 ≤
        st.pos.getD (cfg.fnNum - 1) 0) := by
  rw [findLastFnEosIdx_eq_neg_one (eosVec cfg st) (by rw [eosVec_length]; omega)]
  rw [eosVec_length]
  constructor
  · intro h hc
    have := (eosVec_getD_true_iff cfg st (cfg.fnNum - 1) (by omega)).mpr hc
    rw [h] at this
    exact Bool.noConfusion this
  · intro h
    refine Bool.eq_false_iff.mpr (fun hc => ?_)
    exact h ((eosVec_getD_true_iff cfg st (cfg.fnNum - 1) (by omega)).mp hc)

/-- On a non-skipped mid-flight row, a positive pivot can only be
`N-1`, and the last instance is then eos. -/
theorem find_pos_last (cfg : Config) (st : LState) (hN : 0 < cfg.fnNum)
    (hskip : isInnerAndEmptyRow cfg st.curRow = false)
    (hexp : Expanding cfg st.curRow st.pos)
    (k : Nat) (hk0 : 0 < k) (hkN : k < cfg.fnNum)
    (hfind : findLastFnEosIdx (eosVec cfg st) = (k : Int)) :
    k = cfg.fnNum - 1 ∧
      (cfg.sizes st.curRow).getD (cfg.fnNum - 1) 0 ≤
        st.pos.getD (cfg.fnNum - 1) 0 := by
  obtain ⟨hall, -⟩ := (findLastFnEosIdx_eq_pos (eosVec cfg st) k hk0
    (by rw [eosVec_length]; omega)).mp hfind
  rw [eosVec_length] at hall
  have hke : k = cfg.fnNum - 1 := by
    by_contra hne
    have hklt : k < cfg.fnNum - 1 := by omega
    have h1 := (eosVec_getD_true_iff cfg st k (by omega)).mp
      (hall k (le_refl k) (by omega))
    have h2 := hexp.2 k hklt
    omega
  refine ⟨hke, ?_⟩
  have h1 := (eosVec_getD_true_iff cfg st (cfg.fnNum - 1) (by omega)).mp
    (hall (cfg.fnNum - 1) (by omega) (by omega))
  exact h1

theorem pastCount_congr (cfg : Config) (st st' : LState) (r : Nat)
    (hb : st.curChildOffset = some st.curRow)
    (hb' : st'.curChildOffset = some st'.curRow)
    (hrow : st'.curRow = st.curRow)
    (hcontrib : curContrib cfg st' = curContrib cfg st) :
    pastCount cfg st' r = pastCount cfg st r := by
  rw [pastCount_eq cfg st r hb, pastCount_eq cfg st' r hb', hrow, hcontrib]

/-- Accounting across one full iteration of the fill loop: a `brk` ends
with no row bound and every buffered row's count settled at its full
product; a `next` preserves the invariant; in both cases the
iteration's events absorb exactly the change of the accounting
function. -/
theorem innerBody_count (cfg : Config) (cap : Nat) (block : List (List Val))
    (st : LState) (cols : Cols) (skip : Bool)
    (hN : 0 < cfg.fnNum)
    (hinv : RowInv cfg block st skip) :
    match innerBody cfg cap st cols skip with
    | .brk st' _ ev =>
        st'.curChildOffset = none ∧
        ∀ r, r < block.length →
          pastCount cfg st r + countEmits ev r = pastCount cfg st' r
    | .next st' _ skip' ev =>
        RowInv cfg block st' skip' ∧
        ∀ r, r < block.length →
          pastCount cfg st r + countEmits ev r = pastCount cfg st' r := by
  have hb := hinv.bound
  simp only [innerBody]
  by_cases h1 : findLastFnEosIdx (eosVec cfg st) = 0 ∨ skip = true
  · rw [if_pos h1]
    have hcontrib : curContrib cfg st = rowProduct cfg st.curRow := by
      by_cases hsk : isInnerAndEmptyRow cfg st.curRow = true
      · rw [curContrib_of_skip cfg st hsk, skiprow_rowProduct_zero cfg _ hsk]
      · have hskipf := Bool.eq_false_iff.mpr hsk
        have hidx0 : findLastFnEosIdx (eosVec cfg st) = 0 := by
          rcases h1 with h1 | h1
          · exact h1
          · exact absurd (hinv.skipImp h1) hsk
        exact curContrib_of_rowDone cfg st hskipf
          ((rowDone_iff cfg st.curRow st.pos).mpr
            ((find_zero_iff cfg st hN).mp hidx0))
    have hfl : (copyOutputSlots cfg st cols).1 =
        { st with currentRowInsertTimes := 0 } := copyOutputSlots_fst cfg st cols
    rw [hfl]
    have hblf : ({ st with currentRowInsertTimes := 0 } : LState).childBlock =
        block := hinv.blockEq
    by_cases h2 : (processNextChildRow cfg
        { st with currentRowInsertTimes := 0 }).1.curChildOffset = none
    · rw [if_pos h2]
      refine ⟨h2, fun r hrlen => ?_⟩
      rw [countEmits_processNextChildRow]
      have hpc : pastCount cfg (processNextChildRow cfg
          { st with currentRowInsertTimes := 0 }).1 r = rowProduct cfg r := by
        unfold pastCount
        rw [h2]
      rw [hpc, pastCount_eq cfg st r hb]
      have hend : block.length ≤ st.curRow + 1 := by
        by_contra hlt
        have hpr := (processNextChildRow_spec cfg
          { st with currentRowInsertTimes := 0 } st.curRow hb).1
          (by rw [hblf]; omega)
        rw [hpr] at h2
        exact Option.noConfusion h2
      by_cases hc1 : r < st.curRow
      · rw [if_pos hc1]
        omega
      · by_cases hc2 : r = st.curRow
        · rw [if_neg hc1, if_pos hc2, hcontrib, hc2]
          omega
        · exact absurd hrlen (by omega)
    · rw [if_neg h2]
      have hlt : st.curRow + 1 < block.length := by
        by_contra hge
        have hpr := (processNextChildRow_spec cfg
          { st with currentRowInsertTimes := 0 } st.curRow hb).2
          (by rw [hblf]; omega)
        rw [hpr] at h2
        exact h2 rfl
      have hpr := (processNextChildRow_spec cfg
        { st with currentRowInsertTimes := 0 } st.curRow hb).1 (by rw [hblf]; omega)
      have hoffb : (processNextChildRow cfg
          { st with currentRowInsertTimes := 0 }).1.curChildOffset =
          some (st.curRow + 1) := by
        rw [hpr]
      have hrowb : (processNextChildRow cfg
          { st with currentRowInsertTimes := 0 }).1.curRow = st.curRow + 1 := by
        unfold LState.curRow
        rw [hoffb]
        rfl
      have hposb : (processNextChildRow cfg
          { st with currentRowInsertTimes := 0 }).1.pos =
          List.replicate cfg.fnNum 0 := by
        rw [hpr]
      have hblockb : (processNextChildRow cfg
          { st with currentRowInsertTimes := 0 }).1.childBlock = block := by
        rw [hpr]
        exact hblf
      have hpr2 : (processNextChildRow cfg
          { st with currentRowInsertTimes := 0 }).2 = [Event.nextRow] := by
        rw [hpr]
      have hexpb : isInnerAndEmptyRow cfg (processNextChildRow cfg
          { st with currentRowInsertTimes := 0 }).1.curRow = false →
          Expanding cfg (processNextChildRow cfg
            { st with currentRowInsertTimes := 0 }).1.curRow
            (processNextChildRow cfg
              { st with currentRowInsertTimes := 0 }).1.pos := by
        intro hskf
        constructor
        · intro i hi
          rw [hposb, getD_replicate_zero]
          exact Nat.zero_le _
        · intro i hi
          rw [hposb, getD_replicate_zero]
          have := not_skiprow_sizes_pos cfg _ hskf i (by omega)
          omega
      have hinvb : RowInv cfg block (processNextChildRow cfg
          { st with currentRowInsertTimes := 0 }).1 false := by
        refine ⟨?_, hblockb, ?_, ?_, fun hc => Bool.noConfusion hc,
          fun hskf => Or.inl (hexpb hskf)⟩
        · rw [hoffb, hrowb]
        · rw [hrowb]
          exact hlt
        · rw [hposb]
          simp
      have hsc := skipCheckAndEmit_count cfg cap _ (copyOutputSlots cfg st cols).2
        (processNextChildRow cfg { st with currentRowInsertTimes := 0 }).2 block
        hN hinvb hexpb
      rcases hr : skipCheckAndEmit cfg cap
          (processNextChildRow cfg { st with currentRowInsertTimes := 0 }).1
          (copyOutputSlots cfg st cols).2
          (processNextChildRow cfg { st with currentRowInsertTimes := 0 }).2 with
        ⟨st', cols', ev'⟩ | ⟨st', cols', skip', ev'⟩
      · rw [hr] at hsc
        exact hsc.elim
      · rw [hr] at hsc
        obtain ⟨hinv', hacc⟩ := hsc
        refine ⟨hinv', fun r hrlen => ?_⟩
        have hstep := hacc r
        rw [hpr2] at hstep
        have hz : countEmits [Event.nextRow] r = 0 := rfl
        rw [hz] at hstep
        have h4 : pastCount cfg st r = pastCount cfg (processNextChildRow cfg
            { st with currentRowInsertTimes := 0 }).1 r := by
          rw [pastCount_eq cfg st r hb, pastCount_eq cfg _ r hinvb.bound, hrowb]
          by_cases hc1 : r < st.curRow
          · rw [if_pos hc1, if_pos (show r < st.curRow + 1 by omega)]
          · by_cases hc2 : r = st.curRow
            · rw [if_neg hc1, if_pos hc2,
                if_pos (show r < st.curRow + 1 by omega), hcontrib, hc2]
            · by_cases hc3 : r = st.curRow + 1
              · rw [if_neg hc1, if_neg hc2,
                  if_neg (show ¬ r < st.curRow + 1 by omega), if_pos hc3,
                  curContrib_fresh cfg _ hN hposb]
              · rw [if_neg hc1, if_neg hc2,
                  if_neg (show ¬ r < st.curRow + 1 by omega), if_neg hc3]
        omega
  · rw [if_neg h1]
    have hsk : ¬ skip = true := fun hc => h1 (Or.inr hc)
    have hskf : skip = false := Bool.eq_false_iff.mpr hsk
    have hidx0 : ¬ findLastFnEosIdx (eosVec cfg st) = 0 := fun hc => h1 (Or.inl hc)
    by_cases h2 : findLastFnEosIdx (eosVec cfg st) < (cfg.fnNum : Int) ∧
        findLastFnEosIdx (eosVec cfg st) ≠ -1
    · rw [if_pos h2]
      obtain ⟨hidxN, hidxm1⟩ := h2
      obtain ⟨hgem1, hltlen⟩ :=
        findLastFnEosIdx_range (eosVec cfg st) (by rw [eosVec_length]; omega)
      have hkcast : ((findLastFnEosIdx (eosVec cfg st)).toNat : Int) =
          findLastFnEosIdx (eosVec cfg st) := Int.toNat_of_nonneg (by omega)
      by_cases hsk2 : isInnerAndEmptyRow cfg st.curRow = true
      · have habs : ∀ (C : Prop), isInnerAndEmptyRow cfg st.curRow = false → C :=
          fun C hc => Bool.noConfusion (hc.symm.trans hsk2)
        have hcon3 : ∀ p : List Nat,
            curContrib cfg { st with pos := p } = curContrib cfg st := by
          intro p
          rw [curContrib_of_skip cfg { st with pos := p } hsk2,
            curContrib_of_skip cfg st hsk2]
        by_cases h3 : (rollTableFunctions (cfg.sizes st.curRow) st.pos
            (findLastFnEosIdx (eosVec cfg st)).toNat).1 = true
        · rw [if_pos h3]
          have hinv3 : RowInv cfg block
              { st with pos := (rollTableFunctions (cfg.sizes st.curRow) st.pos
                (findLastFnEosIdx (eosVec cfg st)).toNat).2 } false := by
            refine ⟨hb, hinv.blockEq, hinv.rowLt, ?_,
              fun hc => Bool.noConfusion hc, habs _⟩
            show (rollTableFunctions (cfg.sizes st.curRow) st.pos
              (findLastFnEosIdx (eosVec cfg st)).toNat).2.length = cfg.fnNum
            rw [rollTableFunctions_length]
            exact hinv.posLen
          have hsc := skipCheckAndEmit_count cfg cap _ cols
            [Event.roll (findLastFnEosIdx (eosVec cfg st)) true] block hN hinv3
            (habs _)
          rcases hr : skipCheckAndEmit cfg cap
              { st with pos := (rollTableFunctions (cfg.sizes st.curRow) st.pos
                (findLastFnEosIdx (eosVec cfg st)).toNat).2 } cols
              [Event.roll (findLastFnEosIdx (eosVec cfg st)) true] with
            ⟨a, b, c⟩ | ⟨st', cols', skip', ev'⟩
          · rw [hr] at hsc
            exact hsc.elim
          · rw [hr] at hsc
            obtain ⟨hinv', hacc⟩ := hsc
            refine ⟨hinv', fun r hrlen => ?_⟩
            have hstep := hacc r
            rw [countEmits_single_roll] at hstep
            have h4 := pastCount_congr cfg st
              { st with pos := (rollTableFunctions (cfg.sizes st.curRow) st.pos
                (findLastFnEosIdx (eosVec cfg st)).toNat).2 } r hb hb rfl (hcon3 _)
            omega
        · rw [if_neg h3]
          refine ⟨⟨hb, hinv.blockEq, hinv.rowLt, ?_, fun _ => hsk2,
            habs _⟩, fun r hrlen => ?_⟩
          · show (rollTableFunctions (cfg.sizes st.curRow) st.pos
              (findLastFnEosIdx (eosVec cfg st)).toNat).2.length = cfg.fnNum
            rw [rollTableFunctions_length]
            exact hinv.posLen
          · rw [countEmits_single_roll]
            have h4 := pastCount_congr cfg st
              { st with pos := (rollTableFunctions (cfg.sizes st.curRow) st.pos
                (findLastFnEosIdx (eosVec cfg st)).toNat).2 } r hb hb rfl (hcon3 _)
            omega
      · have hskip2 := Bool.eq_false_iff.mpr hsk2
        rcases hinv.phase hskip2 with hexp | hdone
        · have hk0 : 0 < (findLastFnEosIdx (eosVec cfg st)).toNat := by omega
          have hkN : (findLastFnEosIdx (eosVec cfg st)).toNat < cfg.fnNum := by
            omega
          obtain ⟨hkN1, hlast⟩ := find_pos_last cfg st hN hskip2 hexp
            (findLastFnEosIdx (eosVec cfg st)).toNat hk0 hkN hkcast.symm
          rw [hkN1]
          have hN2 : 2 ≤ cfg.fnNum := by omega
          have hroll := roll_spec_last cfg st.curRow st.pos hN2 hinv.posLen
            hskip2 hexp hlast
          by_cases h3 : (rollTableFunctions (cfg.sizes st.curRow) st.pos
              (cfg.fnNum - 1)).1 = true
          · rw [if_pos h3]
            obtain ⟨⟨hexp3, hrd3⟩, hmv⟩ := hroll.2 h3
            have hinv3 : RowInv cfg block
                { st with pos := (rollTableFunctions (cfg.sizes st.curRow) st.pos
                  (cfg.fnNum - 1)).2 } false := by
              refine ⟨hb, hinv.blockEq, hinv.rowLt, ?_,
                fun hc => Bool.noConfusion hc, fun _ => Or.inl hexp3⟩
              show (rollTableFunctions (cfg.sizes st.curRow) st.pos
                (cfg.fnNum - 1)).2.length = cfg.fnNum
              rw [rollTableFunctions_length]
              exact hinv.posLen
            have hexp3' : isInnerAndEmptyRow cfg
                ({ st with pos := (rollTableFunctions (cfg.sizes st.curRow) st.pos
                  (cfg.fnNum - 1)).2 } : LState).curRow = false →
                Expanding cfg
                  ({ st with pos := (rollTableFunctions (cfg.sizes st.curRow)
                    st.pos (cfg.fnNum - 1)).2 } : LState).curRow
                  ({ st with pos := (rollTableFunctions (cfg.sizes st.curRow)
                    st.pos (cfg.fnNum - 1)).2 } : LState).pos :=
              fun _ => hexp3
            have hsc := skipCheckAndEmit_count cfg cap _ cols
              [Event.roll (findLastFnEosIdx (eosVec cfg st)) true] block hN
              hinv3 hexp3'
            rcases hr : skipCheckAndEmit cfg cap
                { st with pos := (rollTableFunctions (cfg.sizes st.curRow) st.pos
                  (cfg.fnNum - 1)).2 } cols
                [Event.roll (findLastFnEosIdx (eosVec cfg st)) true] with
              ⟨a, b, c⟩ | ⟨st', cols', skip', ev'⟩
            · rw [hr] at hsc
              exact hsc.elim
            · rw [hr] at hsc
              obtain ⟨hinv', hacc⟩ := hsc
              refine ⟨hinv', fun r hrlen => ?_⟩
              have hstep := hacc r
              rw [countEmits_single_roll] at hstep
              have hlen3 : ({ st with pos := (rollTableFunctions
                  (cfg.sizes st.curRow) st.pos (cfg.fnNum - 1)).2 } :
                    LState).pos.length = cfg.fnNum := by
                rw [rollTableFunctions_length]
                exact hinv.posLen
              have hcon3 : curContrib cfg
                  { st with pos := (rollTableFunctions (cfg.sizes st.curRow)
                    st.pos (cfg.fnNum - 1)).2 } = curContrib cfg st := by
                rw [curContrib_of_expanding cfg _ hN hlen3 hskip2 hexp3,
                  curContrib_of_expanding cfg st hN hinv.posLen hskip2 hexp]
                exact hmv
              have h4 := pastCount_congr cfg st
                { st with pos := (rollTableFunctions (cfg.sizes st.curRow)
                  st.pos (cfg.fnNum - 1)).2 } r hb hb rfl hcon3
              omega
          · rw [if_neg h3]
            have hfalse : (rollTableFunctions (cfg.sizes st.curRow) st.pos
                (cfg.fnNum - 1)).1 = false := Bool.eq_false_iff.mpr h3
            obtain ⟨hdone3, hmvp⟩ := hroll.1 hfalse
            refine ⟨⟨hb, hinv.blockEq, hinv.rowLt, ?_,
              fun hc => absurd hc hsk, fun _ => Or.inr hdone3⟩,
              fun r hrlen => ?_⟩
            · show (rollTableFunctions (cfg.sizes st.curRow) st.pos
                (cfg.fnNum - 1)).2.length = cfg.fnNum
              rw [rollTableFunctions_length]
              exact hinv.posLen
            · rw [countEmits_single_roll]
              have hcon3 : curContrib cfg
                  { st with pos := (rollTableFunctions (cfg.sizes st.curRow)
                    st.pos (cfg.fnNum - 1)).2 } = curContrib cfg st := by
                rw [curContrib_of_done cfg { st with pos :=
                    (rollTableFunctions (cfg.sizes st.curRow) st.pos
                      (cfg.fnNum - 1)).2 } hskip2 hdone3,
                  curContrib_of_expanding cfg st hN hinv.posLen hskip2 hexp, hmvp]
                rfl
              have h4 := pastCount_congr cfg st
                { st with pos := (rollTableFunctions (cfg.sizes st.curRow)
                  st.pos (cfg.fnNum - 1)).2 } r hb hb rfl hcon3
              omega
        · exact absurd ((find_zero_iff cfg st hN).mpr
            (fun i hi => le_of_eq (hdone i hi).symm)) hidx0
    · rw [if_neg h2]
      have hexp0 : isInnerAndEmptyRow cfg st.curRow = false →
          Expanding cfg st.curRow st.pos := by
        intro hskc
        rcases hinv.phase hskc with hexp | hdone
        · exact hexp
        · exfalso
          obtain ⟨hgem1, hltlen⟩ :=
            findLastFnEosIdx_range (eosVec cfg st) (by rw [eosVec_length]; omega)
          rw [eosVec_length] at hltlen
          have hm1 : findLastFnEosIdx (eosVec cfg st) = -1 := by
            by_contra hm
            exact h2 ⟨hltlen, hm⟩
          refine (find_neg_one_iff cfg st hN).mp hm1 ?_
          exact le_of_eq (hdone (cfg.fnNum - 1) (by omega)).symm
      have hinv0 : RowInv cfg block st false :=
        ⟨hb, hinv.blockEq, hinv.rowLt, hinv.posLen,
          fun hc => Bool.noConfusion hc, hinv.phase⟩
      have hsc := skipCheckAndEmit_count cfg cap st cols [] block hN hinv0 hexp0
      rcases hr : skipCheckAndEmit cfg cap st cols [] with
        ⟨a, b, c⟩ | ⟨st', cols', skip', ev'⟩
      · rw [hr] at hsc
        exact hsc.elim
      · rw [hr] at hsc
        obtain ⟨hinv', hacc⟩ := hsc
        refine ⟨hinv', fun r hrlen => ?_⟩
        have hstep := hacc r
        have hz : countEmits ([] : List Event) r = 0 := rfl
        rw [hz] at hstep
        omega

/-- Accounting across the whole inner loop: starting from an invariant
state, if the loop terminates with no row bound, every buffered row's
emit events sum to its full product, up to what was already counted. -/
theorem innerLoopGo_count (cfg : Config) (cap : Nat) (block : List (List Val))
    (hN : 0 < cfg.fnNum) :
    ∀ (fuel : Nat) (st : LState) (cols : Cols) (skip : Bool)
      (stF : LState) (colsF : Cols) (ev : List Event),
      RowInv cfg block st skip →
      innerLoopGo cfg cap fuel st cols skip = some (stF, colsF, ev) →
      stF.curChildOffset = none →
      ∀ r, r < block.length →
        pastCount cfg st r + countEmits ev r = rowProduct cfg r := by
  intro fuel
  induction fuel with
  | zero =>
    intro st cols skip stF colsF ev hinv hrun hdone
    simp only [innerLoopGo] at hrun
    exact Option.noConfusion hrun
  | succ fuel ih =>
    intro st cols skip stF colsF ev hinv hrun hdone r hrlen
    simp only [innerLoopGo] at hrun
    by_cases hg : colSize cols cfg.childSlotCount < cap
    · rw [if_pos hg] at hrun
      have hstep := innerBody_count cfg cap block st cols skip hN hinv
      rcases hbody : innerBody cfg cap st cols skip with
        ⟨st1, cols1, ev1⟩ | ⟨st1, cols1, skip1, ev1⟩
      · rw [hbody] at hrun hstep
        have hrun2 : some ((st1, cols1, ev1) : LState × Cols × List Event) =
            some (stF, colsF, ev) := hrun
        simp only [Option.some.injEq, Prod.mk.injEq] at hrun2
        obtain ⟨he1, he2, he3⟩ := hrun2
        obtain ⟨hoff1, hacc⟩ := hstep
        have hpast := hacc r hrlen
        have hpc : pastCount cfg st1 r = rowProduct cfg r := by
          unfold pastCount
          rw [hoff1]
        rw [← he3]
        omega
      · rw [hbody] at hrun hstep
        obtain ⟨hinv1, hacc⟩ := hstep
        have hrun2 : (innerLoopGo cfg cap fuel st1 cols1 skip1).map
            (fun x => (x.1, x.2.1, ev1 ++ x.2.2)) = some (stF, colsF, ev) := hrun
        rcases hrec : innerLoopGo cfg cap fuel st1 cols1 skip1 with
          _ | ⟨⟨st2, cols2, ev2⟩⟩
        · rw [hrec] at hrun2
          exact Option.noConfusion hrun2
        · rw [hrec] at hrun2
          simp only [Option.map_some', Option.some.injEq, Prod.mk.injEq] at hrun2
          obtain ⟨he1, he2, he3⟩ := hrun2
          have hoff2 : st2.curChildOffset = none := by
            rw [he1]
            exact hdone
          have htail := ih st1 cols1 skip1 st2 cols2 ev2 hinv1 hrec hoff2 r hrlen
          have hpast := hacc r hrlen
          rw [← he3, countEmits_append]
          omega
    · rw [if_neg hg] at hrun
      have hrun2 : some ((st, cols, ([] : List Event)) : LState × Cols × List Event) =
          some (stF, colsF, ev) := hrun
      simp only [Option.some.injEq, Prod.mk.injEq] at hrun2
      obtain ⟨he1, he2, he3⟩ := hrun2
      exfalso
      rw [← he1] at hdone
      rw [hinv.bound] at hdone
      exact Option.noConfusion hdone

/-- Binding a non-empty child block yields the canonical start state:
first row bound, all instance offsets zero. -/
theorem pushBlock_ne_nil (cfg : Config) (block : List (List Val)) (ceos : Bool)
    (h : block ≠ []) :
    pushBlock cfg block ceos =
      ⟨some 0, List.replicate cfg.fnNum 0, 0, block, ceos⟩ := by
  unfold pushBlock
  rw [if_neg h]
  have hlen : 0 < block.length := List.length_pos.mpr h
  simp only [processNextChildRow]
  rw [if_neg (show ¬ block.length ≤ 0 by omega)]

/-- C1: for every input row of a pushed child block, once
`get_expanded_block` has fully consumed the block (no row remains
bound), the total number of output rows emitted for that row — summed
over the call's emit events — equals the product over the instances of
(`s_i` if `s_i > 0`, else 1 if outer else 0), where `s_i` is instance
`i`'s value count for that row; in particular it is 0 when some
non-outer instance is empty there. -/
theorem C1_row_totals (cfg : Config) (cap fuel : Nat)
    (block : List (List Val)) (ceos : Bool) (res : FillResult)
    (hN : 0 < cfg.fnNum)
    (hres : getExpandedBlock cfg cap fuel (pushBlock cfg block ceos) = some res)
    (hdone : res.state.curChildOffset = none) :
    ∀ r, r < block.length → countEmits res.events r = rowProduct cfg r := by
  intro r hrlen
  have hblk : block ≠ [] := by
    intro hb0
    subst hb0
    simp at hrlen
  have hpush := pushBlock_ne_nil cfg block ceos hblk
  rw [hpush] at hres
  simp only [getExpandedBlock] at hres
  rw [if_neg hblk] at hres
  rcases hrun : innerLoopGo cfg cap fuel
      ⟨some 0, List.replicate cfg.fnNum 0, 0, block, ceos⟩ (emptyCols cfg) false
    with _ | ⟨⟨st1, cols1, ev⟩⟩
  · rw [hrun] at hres
    exact Option.noConfusion hres
  · rw [hrun] at hres
    simp only [Option.map_some'] at hres
    have hres' := Option.some.inj hres
    have hev : res.events = ev := by
      rw [← hres']
    have hoff : st1.curChildOffset = none := by
      have hst : res.state = (copyOutputSlots cfg st1 cols1).1 := by
        rw [← hres']
      rw [hst, copyOutputSlots_fst] at hdone
      exact hdone
    have hinv1 : RowInv cfg block
        ⟨some 0, List.replicate cfg.fnNum 0, 0, block, ceos⟩ false := by
      refine ⟨rfl, rfl, ?_, by simp, fun hc => Bool.noConfusion hc,
        fun hc => Or.inl ⟨?_, ?_⟩⟩
      · exact List.length_pos.mpr hblk
      · intro i hi
        show (List.replicate cfg.fnNum 0).getD i 0 ≤ _
        rw [getD_replicate_zero]
        exact Nat.zero_le _
      · intro i hi
        show (List.replicate cfg.fnNum 0).getD i 0 < _
        rw [getD_replicate_zero]
        have := not_skiprow_sizes_pos cfg _ hc i (by omega)
        omega
    have hcount := innerLoopGo_count cfg cap block hN fuel
      ⟨some 0, List.replicate cfg.fnNum 0, 0, block, ceos⟩ (emptyCols cfg) false
      st1 cols1 ev hinv1 hrun hoff r hrlen
    have hpc : pastCount cfg
        (⟨some 0, List.replicate cfg.fnNum 0, 0, block, ceos⟩ : LState) r = 0 := by
      simp only [pastCount]
      rw [if_neg (Nat.not_lt_zero r)]
      by_cases hr0 : r = 0
      · rw [if_pos hr0,
          curContrib_fresh cfg ⟨some 0, List.replicate cfg.fnNum 0, 0, block, ceos⟩
            hN rfl]
      · rw [if_neg hr0]
    rw [hev]
    omega

/-! ### Claim C5: machinery for the capacity-split simulation -/

theorem fnColIdx_zero (cfg : Config) : cfg.fnColIdx 0 = cfg.childSlotCount := by
  unfold Config.fnColIdx
  omega

theorem emptyCols_getD (cfg : Config) (j : Nat) :
    (emptyCols cfg).getD j [] = [] := by
  unfold emptyCols
  by_cases hj : j < cfg.childSlotCount + cfg.fnNum
  · rw [List.getD_eq_getElem?_getD, List.getElem?_replicate]
    simp [hj]
  · rw [List.getD_eq_getElem?_getD,
      List.getElem?_eq_none (by simpa using by omega)]
    rfl

theorem emptyCols_length (cfg : Config) :
    (emptyCols cfg).length = cfg.childSlotCount + cfg.fnNum := by
  simp [emptyCols]

/-- Content of the flush on a needed column: the bound row's value is
appended exactly `_current_row_insert_times` times. -/
theorem copyOutputSlots_needed_getD (cfg : Config) (st : LState) (cols : Cols)
    (j : Nat) (hj : j ∈ cfg.outputSlotIndexs) (hnd : cfg.outputSlotIndexs.Nodup)
    (hlen : j < cols.length) :
    ((copyOutputSlots cfg st cols).2).getD j [] =
      cols.getD j [] ++ List.replicate st.currentRowInsertTimes
        ((st.childBlock.getD st.curRow []).getD j Val.null) := by
  unfold copyOutputSlots
  by_cases h : st.currentRowInsertTimes = 0
  · rw [if_pos h, h]
    simp
  · rw [if_neg h]
    exact foldl_modify_getD_mem _ _ cols j hnd hj hlen

theorem emitLast_t (cfg : Config) (st : LState) (cols : Cols) (mc : Nat) :
    (emitLast cfg st cols mc).1 =
      min mc (((cfg.fns.getD (cfg.fnNum - 1) default).effVals st.curRow).length
        - st.pos.getD (cfg.fnNum - 1) 0) := rfl

theorem emitLast_pos (cfg : Config) (st : LState) (cols : Cols) (mc : Nat) :
    (emitLast cfg st cols mc).2.1.pos =
      st.pos.set (cfg.fnNum - 1)
        (st.pos.getD (cfg.fnNum - 1) 0 + (emitLast cfg st cols mc).1) := rfl

/-- Content of `get_value` on the last instance's column: a contiguous
slice of the instance's value sequence, starting at the current
offset. -/
theorem emitLast_col_self (cfg : Config) (st : LState) (cols : Cols) (mc : Nat)
    (hlen : cfg.fnColIdx (cfg.fnNum - 1) < cols.length) :
    ((emitLast cfg st cols mc).2.2).getD (cfg.fnColIdx (cfg.fnNum - 1)) [] =
      cols.getD (cfg.fnColIdx (cfg.fnNum - 1)) [] ++
        ((((cfg.fns.getD (cfg.fnNum - 1) default).effVals st.curRow)).drop
          (st.pos.getD (cfg.fnNum - 1) 0)).take (emitLast cfg st cols mc).1 := by
  simp only [emitLast]
  exact modifyCol_getD_self cols _ _ hlen

/-- Content of `get_same_many_values` on a non-last instance's column:
its current value is appended `t` times. -/
theorem emitRepeated_col_fn (cfg : Config) (st : LState) (cols : Cols) (t : Nat)
    (i : Nat) (hi : i < cfg.fnNum - 1) (hlen : cfg.fnColIdx i < cols.length) :
    (emitRepeated cfg st cols t).getD (cfg.fnColIdx i) [] =
      cols.getD (cfg.fnColIdx i) [] ++ List.replicate t
        (((cfg.fns.getD i default).effVals st.curRow).getD (st.pos.getD i 0)
          Val.null) := by
  unfold emitRepeated Config.fnColIdx
  rw [foldl_modify_shift_getD]
  · exact hi
  · unfold Config.fnColIdx at hlen
    exact hlen

/-- `eosVec` only reads the bound row index and the offsets. -/
theorem eosVec_congr (cfg : Config) (stS st2 : LState)
    (hoff : stS.curChildOffset = st2.curChildOffset)
    (hpos : stS.pos = st2.pos) : eosVec cfg stS = eosVec cfg st2 := by
  unfold eosVec LState.curRow
  rw [hoff, hpos]

theorem curRow_congr (stS st2 : LState)
    (hoff : stS.curChildOffset = st2.curChildOffset) :
    stS.curRow = st2.curRow := by
  unfold LState.curRow
  rw [hoff]

theorem drop_take_split (l : List Val) (p a b : Nat) :
    (l.drop p).take (a + b) = (l.drop p).take a ++ (l.drop (p + a)).take b := by
  rw [List.take_add]
  congr 1
  rw [List.drop_drop]

theorem emitLast_block (cfg : Config) (st : LState) (cols : Cols) (mc : Nat) :
    (emitLast cfg st cols mc).2.1.childBlock = st.childBlock := rfl

theorem emitLast_ceos (cfg : Config) (st : LState) (cols : Cols) (mc : Nat) :
    (emitLast cfg st cols mc).2.1.childEos = st.childEos := rfl

/-- Simulation relation between the single fill call with capacity
`cap1 + cap2` (state `stS`, columns `colsS`) and the tail of the
composite run: call 1 (capacity `cap1`) has finished with final padded
columns `colsPre`, and call 2 (capacity `cap2`) is mid-loop (state
`st2`, columns `cols2`).  The states agree except that the single side
may carry extra pending replications that the composite side has
already materialized into `colsPre`. -/
structure ShiftRel (cfg : Config) (colsPre : Cols) (stS st2 : LState)
    (colsS cols2 : Cols) : Prop where
  off : stS.curChildOffset = st2.curChildOffset
  pos : stS.pos = st2.pos
  blockEq : stS.childBlock = st2.childBlock
  ceos : stS.childEos = st2.childEos
  timesLe : st2.currentRowInsertTimes ≤ stS.currentRowInsertTimes
  lenS : colsS.length = cfg.childSlotCount + cfg.fnNum
  len2 : cols2.length = cfg.childSlotCount + cfg.fnNum
  needed : ∀ j ∈ cfg.outputSlotIndexs,
    colsS.getD j [] ++ List.replicate
        (stS.currentRowInsertTimes - st2.currentRowInsertTimes)
        ((stS.childBlock.getD stS.curRow []).getD j Val.null) =
      colsPre.getD j [] ++ cols2.getD j []
  fncols : ∀ i, i < cfg.fnNum →
    colsS.getD (cfg.fnColIdx i) [] =
      colsPre.getD (cfg.fnColIdx i) [] ++ cols2.getD (cfg.fnColIdx i) []
  uselessS : ∀ j ∈ cfg.uselessSlotIndexs, colsS.getD j [] = []
  useless2 : ∀ j ∈ cfg.uselessSlotIndexs, cols2.getD j [] = []

/-- Simultaneous flushes preserve the simulation relation (both pending
counts drop to zero; the composite side catches up the difference). -/
theorem copyOutputSlots_shift (cfg : Config) (hwf : ConfigWF cfg)
    (colsPre : Cols) (stS st2 : LState) (colsS cols2 : Cols)
    (hrel : ShiftRel cfg colsPre stS st2 colsS cols2) :
    ShiftRel cfg colsPre (copyOutputSlots cfg stS colsS).1
      (copyOutputSlots cfg st2 cols2).1
      (copyOutputSlots cfg stS colsS).2 (copyOutputSlots cfg st2 cols2).2 := by
  have hrow := curRow_congr stS st2 hrel.off
  have hfS := copyOutputSlots_fst cfg stS colsS
  have hf2 := copyOutputSlots_fst cfg st2 cols2
  have htS : (copyOutputSlots cfg stS colsS).1.currentRowInsertTimes = 0 := by
    rw [hfS]
  have ht2 : (copyOutputSlots cfg st2 cols2).1.currentRowInsertTimes = 0 := by
    rw [hf2]
  refine ⟨?_, ?_, ?_, ?_, ?_, ?_, ?_, ?_, ?_, ?_, ?_⟩
  · rw [hfS, hf2]
    exact hrel.off
  · rw [hfS, hf2]
    exact hrel.pos
  · rw [hfS, hf2]
    exact hrel.blockEq
  · rw [hfS, hf2]
    exact hrel.ceos
  · rw [htS, ht2]
  · rw [copyOutputSlots_length]
    exact hrel.lenS
  · rw [copyOutputSlots_length]
    exact hrel.len2
  · intro j hj
    have hjlen : j < colsS.length := by
      rw [hrel.lenS]
      have := hwf.needLt j hj
      omega
    have hjlen2 : j < cols2.length := by
      rw [hrel.len2]
      have := hwf.needLt j hj
      omega
    rw [htS, ht2, Nat.sub_self, List.replicate_zero, List.append_nil,
      copyOutputSlots_needed_getD cfg stS colsS j hj hwf.needNodup hjlen,
      copyOutputSlots_needed_getD cfg st2 cols2 j hj hwf.needNodup hjlen2]
    have hv : (st2.childBlock.getD st2.curRow []).getD j Val.null =
        (stS.childBlock.getD stS.curRow []).getD j Val.null := by
      rw [hrel.blockEq, hrow]
    rw [hv]
    have hsplit : List.replicate stS.currentRowInsertTimes
        ((stS.childBlock.getD stS.curRow []).getD j Val.null) =
        List.replicate (stS.currentRowInsertTimes - st2.currentRowInsertTimes)
          ((stS.childBlock.getD stS.curRow []).getD j Val.null) ++
        List.replicate st2.currentRowInsertTimes
          ((stS.childBlock.getD stS.curRow []).getD j Val.null) := by
      rw [← List.replicate_add]
      congr 1
      have := hrel.timesLe
      omega
    rw [hsplit, ← List.append_assoc, hrel.needed j hj, List.append_assoc]
  · intro i hi
    rw [copyOutputSlots_getD_stable cfg stS colsS _
        (fun x hx => by have := hwf.needLt x hx; unfold Config.fnColIdx; omega),
      copyOutputSlots_getD_stable cfg st2 cols2 _
        (fun x hx => by have := hwf.needLt x hx; unfold Config.fnColIdx; omega)]
    exact hrel.fncols i hi
  · intro j hj
    rw [copyOutputSlots_getD_stable cfg stS colsS j
        (fun x hx => fun he => hwf.disj j hj (he ▸ hx))]
    exact hrel.uselessS j hj
  · intro j hj
    rw [copyOutputSlots_getD_stable cfg st2 cols2 j
        (fun x hx => fun he => hwf.disj j hj (he ▸ hx))]
    exact hrel.useless2 j hj

/-- Row advance on both sides preserves the simulation relation (only
used with both pending counts already flushed to the same value), and
the two advances agree on whether the block is drained. -/
theorem processNextChildRow_shift (cfg : Config) (colsPre : Cols)
    (stS st2 : LState) (colsS cols2 : Cols)
    (hrel : ShiftRel cfg colsPre stS st2 colsS cols2)
    (htimes : stS.currentRowInsertTimes = st2.currentRowInsertTimes) :
    ShiftRel cfg colsPre (processNextChildRow cfg stS).1
      (processNextChildRow cfg st2).1 colsS cols2 ∧
    ((processNextChildRow cfg stS).1.curChildOffset = none ↔
      (processNextChildRow cfg st2).1.curChildOffset = none) := by
  have hneed0 : ∀ j ∈ cfg.outputSlotIndexs,
      colsS.getD j [] = colsPre.getD j [] ++ cols2.getD j [] := by
    intro j hj
    have h := hrel.needed j hj
    rw [htimes, Nat.sub_self, List.replicate_zero, List.append_nil] at h
    exact h
  by_cases hc : st2.childBlock.length ≤
      (match st2.curChildOffset with | none => 0 | some r => r + 1)
  · have hprS : (processNextChildRow cfg stS).1 =
        { stS with curChildOffset := none, childBlock := [] } := by
      simp only [processNextChildRow]
      rw [if_pos (by rw [hrel.blockEq, hrel.off]; exact hc)]
    have hpr2 : (processNextChildRow cfg st2).1 =
        { st2 with curChildOffset := none, childBlock := [] } := by
      simp only [processNextChildRow]
      rw [if_pos hc]
    rw [hprS, hpr2]
    refine ⟨⟨rfl, hrel.pos, rfl, hrel.ceos, hrel.timesLe,
      hrel.lenS, hrel.len2, ?_, hrel.fncols, hrel.uselessS, hrel.useless2⟩,
      Iff.rfl⟩
    intro j hj
    show colsS.getD j [] ++ List.replicate
        (stS.currentRowInsertTimes - st2.currentRowInsertTimes) Val.null =
      colsPre.getD j [] ++ cols2.getD j []
    rw [htimes, Nat.sub_self, List.replicate_zero, List.append_nil]
    exact hneed0 j hj
  · have hprS : (processNextChildRow cfg stS).1 =
        { stS with curChildOffset := some (match stS.curChildOffset with | none => 0 | some r => r + 1), pos := List.replicate cfg.fnNum 0 } := by
      simp only [processNextChildRow]
      rw [if_neg (by rw [hrel.blockEq, hrel.off]; exact hc)]
    have hpr2 : (processNextChildRow cfg st2).1 =
        { st2 with curChildOffset := some (match st2.curChildOffset with | none => 0 | some r => r + 1), pos := List.replicate cfg.fnNum 0 } := by
      simp only [processNextChildRow]
      rw [if_neg hc]
    rw [hprS, hpr2]
    constructor
    · refine ⟨?_, rfl, hrel.blockEq, hrel.ceos, hrel.timesLe,
        hrel.lenS, hrel.len2, ?_, hrel.fncols, hrel.uselessS, hrel.useless2⟩
      · show some (match stS.curChildOffset with | none => 0 | some r => r + 1) =
          some (match st2.curChildOffset with | none => 0 | some r => r + 1)
        rw [hrel.off]
      · intro j hj
        show colsS.getD j [] ++ List.replicate
            (stS.currentRowInsertTimes - st2.currentRowInsertTimes)
            ((stS.childBlock.getD
              (match stS.curChildOffset with | none => 0 | some r => r + 1)
              []).getD j Val.null) =
          colsPre.getD j [] ++ cols2.getD j []
        rw [htimes, Nat.sub_self, List.replicate_zero, List.append_nil]
        exact hneed0 j hj
    · constructor
      · intro h
        exact Option.noConfusion h
      · intro h
        exact Option.noConfusion h

/-- The skip-check-and-emit tail preserves the simulation relation:
with the capacity already consumed by call 1 accounted for, both sides
compute the same repeat count, so both grow equally and keep the same
skip decision. -/
theorem skipCheckAndEmit_shift (cfg : Config) (hwf : ConfigWF cfg)
    (cap1 cap2 : Nat) (colsPre : Cols) (stS st2 : LState)
    (colsS cols2 : Cols) (evsS evs2 : List Event)
    (hpre : colSize colsPre cfg.childSlotCount = cap1)
    (hrel : ShiftRel cfg colsPre stS st2 colsS cols2) :
    match skipCheckAndEmit cfg (cap1 + cap2) stS colsS evsS,
        skipCheckAndEmit cfg cap2 st2 cols2 evs2 with
    | .next stS' colsS' skipS' _, .next st2' cols2' skip2' _ =>
        skipS' = skip2' ∧ ShiftRel cfg colsPre stS' st2' colsS' cols2'
    | _, _ => False := by
  have hrow := curRow_congr stS st2 hrel.off
  have hN := hwf.posN
  simp only [skipCheckAndEmit]
  by_cases hsk : isInnerAndEmptyRow cfg st2.curRow = true
  · rw [if_pos (show isInnerAndEmptyRow cfg stS.curRow = true by
      rw [hrow]; exact hsk), if_pos hsk]
    exact ⟨rfl, hrel⟩
  · have hskS : ¬ isInnerAndEmptyRow cfg stS.curRow = true := by
      rw [hrow]; exact hsk
    rw [if_neg hskS, if_neg hsk]
    have hszS : colSize colsS cfg.childSlotCount =
        cap1 + colSize cols2 cfg.childSlotCount := by
      have h0 := hrel.fncols 0 hN
      rw [fnColIdx_zero] at h0
      unfold colSize at hpre ⊢
      rw [h0, List.length_append, hpre]
    have hmc : cap1 + cap2 - colSize colsS cfg.childSlotCount =
        cap2 - colSize cols2 cfg.childSlotCount := by
      rw [hszS]
      omega
    have ht : (emitLast cfg stS colsS
        (cap1 + cap2 - colSize colsS cfg.childSlotCount)).1 =
        (emitLast cfg st2 cols2 (cap2 - colSize cols2 cfg.childSlotCount)).1 := by
      rw [emitLast_t, emitLast_t, hrow, hrel.pos, hmc]
    have hlastS : cfg.fnColIdx (cfg.fnNum - 1) < colsS.length := by
      rw [hrel.lenS]
      unfold Config.fnColIdx
      omega
    have hlast2 : cfg.fnColIdx (cfg.fnNum - 1) < cols2.length := by
      rw [hrel.len2]
      unfold Config.fnColIdx
      omega
    refine ⟨rfl, ?_, ?_, ?_, ?_, ?_, ?_, ?_, ?_, ?_, ?_, ?_⟩
    · exact hrel.off
    · show stS.pos.set (cfg.fnNum - 1) (stS.pos.getD (cfg.fnNum - 1) 0 +
          (emitLast cfg stS colsS
            (cap1 + cap2 - colSize colsS cfg.childSlotCount)).1) =
        st2.pos.set (cfg.fnNum - 1) (st2.pos.getD (cfg.fnNum - 1) 0 +
          (emitLast cfg st2 cols2
            (cap2 - colSize cols2 cfg.childSlotCount)).1)
      rw [hrel.pos, ht]
    · exact hrel.blockEq
    · exact hrel.ceos
    · show st2.currentRowInsertTimes +
          (emitLast cfg st2 cols2 (cap2 - colSize cols2 cfg.childSlotCount)).1 ≤
        stS.currentRowInsertTimes + (emitLast cfg stS colsS
          (cap1 + cap2 - colSize colsS cfg.childSlotCount)).1
      rw [ht]
      have := hrel.timesLe
      omega
    · rw [emitRepeated_length, emitLast_length]
      exact hrel.lenS
    · rw [emitRepeated_length, emitLast_length]
      exact hrel.len2
    · intro j hj
      have hjlt := hwf.needLt j hj
      rw [emitRepeated_getD_stable cfg _ _ _ j
          (fun i hi => by unfold Config.fnColIdx; omega),
        emitLast_cols_getD_ne cfg stS colsS _ j
          (by unfold Config.fnColIdx; omega),
        emitRepeated_getD_stable cfg _ _ _ j
          (fun i hi => by unfold Config.fnColIdx; omega),
        emitLast_cols_getD_ne cfg st2 cols2 _ j
          (by unfold Config.fnColIdx; omega)]
      show colsS.getD j [] ++ List.replicate
          ((stS.currentRowInsertTimes + (emitLast cfg stS colsS
              (cap1 + cap2 - colSize colsS cfg.childSlotCount)).1) -
            (st2.currentRowInsertTimes + (emitLast cfg st2 cols2
              (cap2 - colSize cols2 cfg.childSlotCount)).1))
          ((stS.childBlock.getD stS.curRow []).getD j Val.null) =
        colsPre.getD j [] ++ cols2.getD j []
      rw [ht, Nat.add_sub_add_right]
      exact hrel.needed j hj
    · intro i hi
      by_cases hilast : i = cfg.fnNum - 1
      · rw [hilast,
          emitRepeated_getD_stable cfg _ _ _ _
            (fun x hx => by unfold Config.fnColIdx; omega),
          emitLast_col_self cfg stS colsS _ hlastS,
          emitRepeated_getD_stable cfg _ _ _ _
            (fun x hx => by unfold Config.fnColIdx; omega),
          emitLast_col_self cfg st2 cols2 _ hlast2,
          hrow, hrel.pos, ht, hrel.fncols (cfg.fnNum - 1) (by omega),
          List.append_assoc]
      · have hi' : i < cfg.fnNum - 1 := by omega
        rw [emitRepeated_col_fn cfg _ _ _ i hi'
            (by rw [emitLast_length, hrel.lenS]; unfold Config.fnColIdx; omega),
          emitLast_cols_getD_ne cfg stS colsS _ _
            (by unfold Config.fnColIdx; omega),
          emitRepeated_col_fn cfg _ _ _ i hi'
            (by rw [emitLast_length, hrel.len2]; unfold Config.fnColIdx; omega),
          emitLast_cols_getD_ne cfg st2 cols2 _ _
            (by unfold Config.fnColIdx; omega)]
        show colsS.getD (cfg.fnColIdx i) [] ++ List.replicate
            (emitLast cfg stS colsS
              (cap1 + cap2 - colSize colsS cfg.childSlotCount)).1
            (((cfg.fns.getD i default).effVals
                (emitLast cfg stS colsS
                  (cap1 + cap2 - colSize colsS cfg.childSlotCount)).2.1.curRow).getD
              ((emitLast cfg stS colsS
                  (cap1 + cap2 - colSize colsS cfg.childSlotCount)).2.1.pos.getD
                i 0) Val.null) =
          colsPre.getD (cfg.fnColIdx i) [] ++
            (cols2.getD (cfg.fnColIdx i) [] ++ List.replicate
              (emitLast cfg st2 cols2
                (cap2 - colSize cols2 cfg.childSlotCount)).1
              (((cfg.fns.getD i default).effVals
                  (emitLast cfg st2 cols2
                    (cap2 - colSize cols2 cfg.childSlotCount)).2.1.curRow).getD
                ((emitLast cfg st2 cols2
                    (cap2 - colSize cols2 cfg.childSlotCount)).2.1.pos.getD
                  i 0) Val.null))
        have hcr : (emitLast cfg stS colsS
            (cap1 + cap2 - colSize colsS cfg.childSlotCount)).2.1.curRow =
            (emitLast cfg st2 cols2
              (cap2 - colSize cols2 cfg.childSlotCount)).2.1.curRow := by
          unfold LState.curRow
          rw [emitLast_offset, emitLast_offset, hrel.off]
        have hposi : (emitLast cfg stS colsS
            (cap1 + cap2 - colSize colsS cfg.childSlotCount)).2.1.pos.getD i 0 =
            (emitLast cfg st2 cols2
              (cap2 - colSize cols2 cfg.childSlotCount)).2.1.pos.getD i 0 := by
          rw [emitLast_pos, emitLast_pos, hrel.pos, ht]
        rw [hcr, hposi, ht, hrel.fncols i hi, List.append_assoc]
    · intro j hj
      have hjlt := hwf.uselessLt j hj
      rw [emitRepeated_getD_stable cfg _ _ _ j
          (fun i hi => by unfold Config.fnColIdx; omega),
        emitLast_cols_getD_ne cfg stS colsS _ j
          (by unfold Config.fnColIdx; omega)]
      exact hrel.uselessS j hj
    · intro j hj
      have hjlt := hwf.uselessLt j hj
      rw [emitRepeated_getD_stable cfg _ _ _ j
          (fun i hi => by unfold Config.fnColIdx; omega),
        emitLast_cols_getD_ne cfg st2 cols2 _ j
          (by unfold Config.fnColIdx; omega)]
      exact hrel.useless2 j hj

/-- One loop iteration preserves the simulation relation; both sides
take the same branch and make the same skip decision. -/
theorem innerBody_shift (cfg : Config) (hwf : ConfigWF cfg)
    (cap1 cap2 : Nat) (colsPre : Cols) (stS st2 : LState)
    (colsS cols2 : Cols) (skip : Bool)
    (hpre : colSize colsPre cfg.childSlotCount = cap1)
    (hrel : ShiftRel cfg colsPre stS st2 colsS cols2) :
    match innerBody cfg (cap1 + cap2) stS colsS skip,
        innerBody cfg cap2 st2 cols2 skip with
    | .brk stS' colsS' _, .brk st2' cols2' _ =>
        ShiftRel cfg colsPre stS' st2' colsS' cols2'
    | .next stS' colsS' skipS' _, .next st2' cols2' skip2' _ =>
        skipS' = skip2' ∧ ShiftRel cfg colsPre stS' st2' colsS' cols2'
    | _, _ => False := by
  have hrow := curRow_congr stS st2 hrel.off
  have heos : eosVec cfg stS = eosVec cfg st2 :=
    eosVec_congr cfg stS st2 hrel.off hrel.pos
  simp only [innerBody]
  rw [heos]
  by_cases h1 : findLastFnEosIdx (eosVec cfg st2) = 0 ∨ skip = true
  · rw [if_pos h1, if_pos h1]
    have hfl := copyOutputSlots_shift cfg hwf colsPre stS st2 colsS cols2 hrel
    have htimes0 : (copyOutputSlots cfg stS colsS).1.currentRowInsertTimes =
        (copyOutputSlots cfg st2 cols2).1.currentRowInsertTimes := by
      rw [copyOutputSlots_fst, copyOutputSlots_fst]
    have hadv := processNextChildRow_shift cfg colsPre _ _ _ _ hfl htimes0
    by_cases h2 : (processNextChildRow cfg
        (copyOutputSlots cfg st2 cols2).1).1.curChildOffset = none
    · rw [if_pos (hadv.2.mpr h2), if_pos h2]
      exact hadv.1
    · rw [if_neg (fun hcc => h2 (hadv.2.mp hcc)), if_neg h2]
      have hsc := skipCheckAndEmit_shift cfg hwf cap1 cap2 colsPre _ _ _ _
        (processNextChildRow cfg (copyOutputSlots cfg stS colsS).1).2
        (processNextChildRow cfg (copyOutputSlots cfg st2 cols2).1).2
        hpre hadv.1
      rcases hrS : skipCheckAndEmit cfg (cap1 + cap2)
          (processNextChildRow cfg (copyOutputSlots cfg stS colsS).1).1
          (copyOutputSlots cfg stS colsS).2
          (processNextChildRow cfg (copyOutputSlots cfg stS colsS).1).2 with
        ⟨a, b, c⟩ | ⟨sS, cS, kS, eS⟩ <;>
        rcases hr2 : skipCheckAndEmit cfg cap2
            (processNextChildRow cfg (copyOutputSlots cfg st2 cols2).1).1
            (copyOutputSlots cfg st2 cols2).2
            (processNextChildRow cfg (copyOutputSlots cfg st2 cols2).1).2 with
          ⟨a2, b2, c2⟩ | ⟨s2, c2, k2, e2⟩ <;>
        rw [hrS, hr2] at hsc
      · exact hsc.elim
      · exact hsc.elim
      · exact hsc.elim
      · exact hsc
  · rw [if_neg h1, if_neg h1]
    by_cases h2 : findLastFnEosIdx (eosVec cfg st2) < (cfg.fnNum : Int) ∧
        findLastFnEosIdx (eosVec cfg st2) ≠ -1
    · rw [if_pos h2, if_pos h2]
      have hroll : rollTableFunctions (cfg.sizes stS.curRow) stS.pos
          (findLastFnEosIdx (eosVec cfg st2)).toNat =
          rollTableFunctions (cfg.sizes st2.curRow) st2.pos
            (findLastFnEosIdx (eosVec cfg st2)).toNat := by
        rw [hrow, hrel.pos]
      rw [hroll]
      have hrel3 : ShiftRel cfg colsPre
          { stS with pos := (rollTableFunctions (cfg.sizes st2.curRow) st2.pos
            (findLastFnEosIdx (eosVec cfg st2)).toNat).2 }
          { st2 with pos := (rollTableFunctions (cfg.sizes st2.curRow) st2.pos
            (findLastFnEosIdx (eosVec cfg st2)).toNat).2 } colsS cols2 :=
        ⟨hrel.off, rfl, hrel.blockEq, hrel.ceos, hrel.timesLe, hrel.lenS,
          hrel.len2, hrel.needed, hrel.fncols, hrel.uselessS, hrel.useless2⟩
      by_cases h3 : (rollTableFunctions (cfg.sizes st2.curRow) st2.pos
          (findLastFnEosIdx (eosVec cfg st2)).toNat).1 = true
      · rw [if_pos h3, if_pos h3]
        have hsc := skipCheckAndEmit_shift cfg hwf cap1 cap2 colsPre _ _ _ _
          [Event.roll (findLastFnEosIdx (eosVec cfg st2)) true]
          [Event.roll (findLastFnEosIdx (eosVec cfg st2)) true] hpre hrel3
        rcases hrS : skipCheckAndEmit cfg (cap1 + cap2)
            { stS with pos := (rollTableFunctions (cfg.sizes st2.curRow) st2.pos
              (findLastFnEosIdx (eosVec cfg st2)).toNat).2 } colsS
            [Event.roll (findLastFnEosIdx (eosVec cfg st2)) true] with
          ⟨a, b, c⟩ | ⟨sS, cS, kS, eS⟩ <;>
          rcases hr2 : skipCheckAndEmit cfg cap2
              { st2 with pos := (rollTableFunctions (cfg.sizes st2.curRow) st2.pos
                (findLastFnEosIdx (eosVec cfg st2)).toNat).2 } cols2
              [Event.roll (findLastFnEosIdx (eosVec cfg st2)) true] with
            ⟨a2, b2, c2⟩ | ⟨s2, c2, k2, e2⟩ <;>
          rw [hrS, hr2] at hsc
        · exact hsc.elim
        · exact hsc.elim
        · exact hsc.elim
        · exact hsc
      · rw [if_neg h3, if_neg h3]
        exact ⟨rfl, hrel3⟩
    · rw [if_neg h2, if_neg h2]
      have hsc := skipCheckAndEmit_shift cfg hwf cap1 cap2 colsPre _ _ _ _
        ([] : List Event) ([] : List Event) hpre hrel
      rcases hrS : skipCheckAndEmit cfg (cap1 + cap2) stS colsS
          ([] : List Event) with ⟨a, b, c⟩ | ⟨sS, cS, kS, eS⟩ <;>
        rcases hr2 : skipCheckAndEmit cfg cap2 st2 cols2 ([] : List Event) with
          ⟨a2, b2, c2⟩ | ⟨s2, c2, k2, e2⟩ <;>
        rw [hrS, hr2] at hsc
      · exact hsc.elim
      · exact hsc.elim
      · exact hsc.elim
      · exact hsc

/-- The whole remaining loops stay in lockstep under the simulation
relation, ending in related final states and columns. -/
theorem innerLoopGo_shift (cfg : Config) (hwf : ConfigWF cfg)
    (cap1 cap2 : Nat) (colsPre : Cols)
    (hpre : colSize colsPre cfg.childSlotCount = cap1) :
    ∀ (fuelS fuel2 : Nat) (stS st2 : LState) (colsS cols2 : Cols)
      (skip : Bool) (outS out2 : LState × Cols × List Event),
      ShiftRel cfg colsPre stS st2 colsS cols2 →
      innerLoopGo cfg (cap1 + cap2) fuelS stS colsS skip = some outS →
      innerLoopGo cfg cap2 fuel2 st2 cols2 skip = some out2 →
      ShiftRel cfg colsPre outS.1 out2.1 outS.2.1 out2.2.1 := by
  intro fuelS
  induction fuelS with
  | zero =>
    intro fuel2 stS st2 colsS cols2 skip outS out2 hrel hrunS hrun2
    simp only [innerLoopGo] at hrunS
    exact Option.noConfusion hrunS
  | succ fuelS ih =>
    intro fuel2 stS st2 colsS cols2 skip outS out2 hrel hrunS hrun2
    have hguard : colSize colsS cfg.childSlotCount < cap1 + cap2 ↔
        colSize cols2 cfg.childSlotCount < cap2 := by
      have h0 := hrel.fncols 0 hwf.posN
      rw [fnColIdx_zero] at h0
      have hsz : colSize colsS cfg.childSlotCount =
          cap1 + colSize cols2 cfg.childSlotCount := by
        unfold colSize at hpre ⊢
        rw [h0, List.length_append, hpre]
      rw [hsz]
      omega
    simp only [innerLoopGo] at hrunS
    by_cases hg : colSize cols2 cfg.childSlotCount < cap2
    · rw [if_pos (hguard.mpr hg)] at hrunS
      cases fuel2 with
      | zero =>
        simp only [innerLoopGo] at hrun2
        exact Option.noConfusion hrun2
      | succ fuel2 =>
        simp only [innerLoopGo] at hrun2
        rw [if_pos hg] at hrun2
        have hstep := innerBody_shift cfg hwf cap1 cap2 colsPre stS st2 colsS
          cols2 skip hpre hrel
        rcases hbS : innerBody cfg (cap1 + cap2) stS colsS skip with
          ⟨sS, cS, eS⟩ | ⟨sS, cS, kS, eS⟩ <;>
          rcases hb2 : innerBody cfg cap2 st2 cols2 skip with
            ⟨s2, c2, e2⟩ | ⟨s2, c2, k2, e2⟩ <;>
          rw [hbS, hb2] at hstep <;> rw [hbS] at hrunS <;> rw [hb2] at hrun2
        · have hS2 : some ((sS, cS, eS) : LState × Cols × List Event) =
              some outS := hrunS
          have h22 : some ((s2, c2, e2) : LState × Cols × List Event) =
              some out2 := hrun2
          simp only [Option.some.injEq] at hS2 h22
          rw [← hS2, ← h22]
          exact hstep
        · exact hstep.elim
        · exact hstep.elim
        · obtain ⟨hk, hrel'⟩ := hstep
          subst hk
          have hS2 : (innerLoopGo cfg (cap1 + cap2) fuelS sS cS kS).map
              (fun x => (x.1, x.2.1, eS ++ x.2.2)) = some outS := hrunS
          have h22 : (innerLoopGo cfg cap2 fuel2 s2 c2 kS).map
              (fun x => (x.1, x.2.1, e2 ++ x.2.2)) = some out2 := hrun2
          rcases hrecS : innerLoopGo cfg (cap1 + cap2) fuelS sS cS kS with
            _ | ⟨oS⟩
          · rw [hrecS] at hS2
            exact Option.noConfusion hS2
          · rcases hrec2 : innerLoopGo cfg cap2 fuel2 s2 c2 kS with _ | ⟨o2⟩
            · rw [hrec2] at h22
              exact Option.noConfusion h22
            · rw [hrecS, Option.map_some'] at hS2
              rw [hrec2, Option.map_some'] at h22
              have htail := ih fuel2 sS s2 cS c2 kS oS o2 hrel' hrecS hrec2
              have hoS := Option.some.inj hS2
              have ho2 := Option.some.inj h22
              rw [← hoS, ← ho2]
              exact htail
    · rw [if_neg (fun hx => hg (hguard.mp hx))] at hrunS
      cases fuel2 with
      | zero =>
        simp only [innerLoopGo] at hrun2
        exact Option.noConfusion hrun2
      | succ fuel2 =>
        simp only [innerLoopGo] at hrun2
        rw [if_neg hg] at hrun2
        have hS2 : some ((stS, colsS, ([] : List Event)) :
            LState × Cols × List Event) = some outS := hrunS
        have h22 : some ((st2, cols2, ([] : List Event)) :
            LState × Cols × List Event) = some out2 := hrun2
        simp only [Option.some.injEq] at hS2 h22
        rw [← hS2, ← h22]
        exact hrel

/-- When the advance reports no bound row, it has cleared the child
block. -/
theorem processNextChildRow_none_block (cfg : Config) (st : LState)
    (h : (processNextChildRow cfg st).1.curChildOffset = none) :
    (processNextChildRow cfg st).1.childBlock = [] := by
  by_cases hc : st.childBlock.length ≤
      (match st.curChildOffset with | none => 0 | some r => r + 1)
  · have hpr : (processNextChildRow cfg st).1 =
        { st with curChildOffset := none, childBlock := [] } := by
      simp only [processNextChildRow]
      rw [if_pos hc]
    rw [hpr]
  · have hpr : (processNextChildRow cfg st).1 =
        { st with curChildOffset := some (match st.curChildOffset with | none => 0 | some r => r + 1), pos := List.replicate cfg.fnNum 0 } := by
      simp only [processNextChildRow]
      rw [if_neg hc]
    rw [hpr] at h
    exact Option.noConfusion h

theorem getD_set_getD (cols : Cols) (a j : Nat) :
    (cols.set a (cols.getD a [])).getD j [] = cols.getD j [] := by
  by_cases haj : a = j
  · subst haj
    by_cases hlt : a < cols.length
    · exact getD_set_self' cols a _ [] hlt
    · have h2 : (cols.set a (cols.getD a [])).getD a [] = [] := by
        rw [List.getD_eq_getElem?_getD, List.getElem?_eq_none]
        · rfl
        · rw [List.length_set]
          omega
      have h1 : cols.getD a [] = [] := by
        rw [List.getD_eq_getElem?_getD, List.getElem?_eq_none]
        · rfl
        · omega
      rw [h2, h1]
  · exact getD_set_ne' cols a j _ [] haj

/-- Padding the fresh empty columns is a no-op on every column. -/
theorem padUseless_empty_getD (cfg : Config) (j : Nat) :
    (padUseless cfg (emptyCols cfg)).getD j [] = [] := by
  unfold padUseless
  have hrow : colSize (emptyCols cfg) cfg.childSlotCount = 0 := by
    unfold colSize
    rw [emptyCols_getD]
    rfl
  rw [hrow]
  have hstep : ∀ (l : List Nat) (cols : Cols), (∀ k, cols.getD k [] = []) →
      ∀ k, (l.foldl (fun cs index => modifyCol cs index
        (fun c => c ++ List.replicate (0 - c.length) Val.null)) cols).getD k []
        = [] := by
    intro l
    induction l with
    | nil => intro cols h k; exact h k
    | cons a rest ih =>
      intro cols h k
      simp only [List.foldl_cons]
      refine ih _ (fun k' => ?_) k
      have hm : modifyCol cols a
          (fun c => c ++ List.replicate (0 - c.length) Val.null) =
          cols.set a (cols.getD a []) := by
        unfold modifyCol
        simp only [Nat.zero_sub, List.replicate_zero, List.append_nil]
      rw [hm, getD_set_getD]
      exact h k'
  exact hstep cfg.uselessSlotIndexs (emptyCols cfg) (emptyCols_getD cfg) j

/-- Unfolding of a fill call over a non-empty buffered block: the call
is the inner loop followed by the final flush and padding. -/
theorem getExpandedBlock_run (cfg : Config) (cap fuel : Nat) (st : LState)
    (res : FillResult) (hres : getExpandedBlock cfg cap fuel st = some res)
    (hblk : st.childBlock ≠ []) :
    ∃ out, innerLoopGo cfg cap fuel st (emptyCols cfg) false = some out ∧
      res.cols = padUseless cfg (copyOutputSlots cfg out.1 out.2.1).2 ∧
      res.state = (copyOutputSlots cfg out.1 out.2.1).1 := by
  simp only [getExpandedBlock] at hres
  rw [if_neg hblk] at hres
  rcases hrun : innerLoopGo cfg cap fuel st (emptyCols cfg) false with _ | ⟨out⟩
  · rw [hrun] at hres
    exact Option.noConfusion hres
  · rw [hrun, Option.map_some'] at hres
    have h := Option.some.inj hres
    refine ⟨out, rfl, ?_, ?_⟩
    · rw [← h]
    · rw [← h]

/-- A fill call whose start state has an empty buffered block and no
pending replication produces only empty columns. -/
theorem getExpandedBlock_nil_cols (cfg : Config) (cap fuel : Nat) (st : LState)
    (res : FillResult) (hres : getExpandedBlock cfg cap fuel st = some res)
    (hblk : st.childBlock = []) (htimes : st.currentRowInsertTimes = 0) :
    ∀ j, res.cols.getD j [] = [] := by
  intro j
  simp only [getExpandedBlock] at hres
  rw [if_pos hblk, Option.map_some'] at hres
  have h := Option.some.inj hres
  have hc : res.cols = padUseless cfg (copyOutputSlots cfg st (emptyCols cfg)).2 := by
    rw [← h]
  have hid : (copyOutputSlots cfg st (emptyCols cfg)).2 = emptyCols cfg := by
    unfold copyOutputSlots
    rw [if_pos htimes]
  rw [hc, hid]
  exact padUseless_empty_getD cfg j

/-- A fill call with zero capacity from a flushed state produces only
empty columns. -/
theorem getExpandedBlock_cap0_cols (cfg : Config) (fuel : Nat) (st : LState)
    (res : FillResult) (hres : getExpandedBlock cfg 0 fuel st = some res)
    (htimes : st.currentRowInsertTimes = 0) :
    ∀ j, res.cols.getD j [] = [] := by
  intro j
  by_cases hblk : st.childBlock = []
  · exact getExpandedBlock_nil_cols cfg 0 fuel st res hres hblk htimes j
  · obtain ⟨out, hrun, hcols, -⟩ := getExpandedBlock_run cfg 0 fuel st res hres hblk
    cases fuel with
    | zero =>
      simp only [innerLoopGo] at hrun
      exact Option.noConfusion hrun
    | succ fuel =>
      simp only [innerLoopGo] at hrun
      rw [if_neg (by omega)] at hrun
      have h := Option.some.inj hrun
      rw [hcols, ← h]
      have hid : (copyOutputSlots cfg st (emptyCols cfg)).2 = emptyCols cfg := by
        unfold copyOutputSlots
        rw [if_pos htimes]
      rw [hid]
      exact padUseless_empty_getD cfg j

theorem lstate_ext (a b : LState)
    (h1 : a.curChildOffset = b.curChildOffset) (h2 : a.pos = b.pos)
    (h3 : a.currentRowInsertTimes = b.currentRowInsertTimes)
    (h4 : a.childBlock = b.childBlock) (h5 : a.childEos = b.childEos) :
    a = b := by
  obtain ⟨a1, a2, a3, a4, a5⟩ := a
  obtain ⟨b1, b2, b3, b4, b5⟩ := b
  simp only at h1 h2 h3 h4 h5
  subst h1
  subst h2
  subst h3
  subst h4
  subst h5
  rfl

theorem cols_ext (c1 c2 : Cols) (hlen : c1.length = c2.length)
    (h : ∀ j, c1.getD j [] = c2.getD j []) : c1 = c2 := by
  refine List.ext_getElem hlen (fun i h1 h2 => ?_)
  have hj := h i
  rw [List.getD_eq_getElem?_getD, List.getD_eq_getElem?_getD,
    List.getElem?_eq_getElem h1, List.getElem?_eq_getElem h2] at hj
  simpa using hj

/-- The relation at a call boundary: call 1 has just returned state
`st` and columns `cols`; its finalize flushes and pads them into the
first call's result, and call 2 restarts from the flushed state with
fresh columns. -/
theorem handoff_rel (cfg : Config) (hwf : ConfigWF cfg) (st : LState)
    (cols : Cols) (hlenc : cols.length = cfg.childSlotCount + cfg.fnNum)
    (husel : ∀ j ∈ cfg.uselessSlotIndexs, cols.getD j [] = []) :
    ShiftRel cfg (padUseless cfg (copyOutputSlots cfg st cols).2) st
      { st with currentRowInsertTimes := 0 } cols (emptyCols cfg) := by
  refine ⟨rfl, rfl, rfl, rfl, Nat.zero_le _, hlenc, emptyCols_length cfg,
    ?_, ?_, husel, fun j _ => emptyCols_getD cfg j⟩
  · intro j hj
    have hjlen : j < cols.length := by
      rw [hlenc]
      have := hwf.needLt j hj
      omega
    rw [emptyCols_getD, List.append_nil,
      padUseless_getD_stable cfg _ j
        (fun i hi => fun he => hwf.disj i hi (he ▸ hj)),
      copyOutputSlots_needed_getD cfg st cols j hj hwf.needNodup hjlen]
    rfl
  · intro i hi
    rw [emptyCols_getD, List.append_nil,
      padUseless_getD_stable cfg _ _
        (fun x hx => by have := hwf.uselessLt x hx; unfold Config.fnColIdx; omega),
      copyOutputSlots_getD_stable cfg st cols _
        (fun x hx => by have := hwf.needLt x hx; unfold Config.fnColIdx; omega)]

/-- Canonical form of the emit branch of the skip-check-and-emit
tail. -/
theorem skipCheckAndEmit_emit_eq (cfg : Config) (cap : Nat) (st : LState)
    (cols : Cols) (evs : List Event)
    (hsk : isInnerAndEmptyRow cfg st.curRow = false) :
    skipCheckAndEmit cfg cap st cols evs = .next
      { st with pos := st.pos.set (cfg.fnNum - 1) (st.pos.getD (cfg.fnNum - 1) 0 + (emitLast cfg st cols (cap - colSize cols cfg.childSlotCount)).1), currentRowInsertTimes := st.currentRowInsertTimes + (emitLast cfg st cols (cap - colSize cols cfg.childSlotCount)).1 }
      (emitRepeated cfg
        { st with pos := st.pos.set (cfg.fnNum - 1) (st.pos.getD (cfg.fnNum - 1) 0 + (emitLast cfg st cols (cap - colSize cols cfg.childSlotCount)).1), currentRowInsertTimes := st.currentRowInsertTimes + (emitLast cfg st cols (cap - colSize cols cfg.childSlotCount)).1 }
        (emitLast cfg st cols (cap - colSize cols cfg.childSlotCount)).2.2
        (emitLast cfg st cols (cap - colSize cols cfg.childSlotCount)).1)
      false
      (evs ++ [Event.emit st.curRow (emitLast cfg st cols (cap - colSize cols cfg.childSlotCount)).1 (cap - colSize cols cfg.childSlotCount)]) := by
  simp only [skipCheckAndEmit]
  rw [if_neg (by rw [hsk]; exact Bool.false_ne_true)]
  rfl

/-- One emit grows the guard column (the first TVF column) by exactly
the repeat count, whatever the state passed to the repeat helper. -/
theorem emit_cols_fn0_size (cfg : Config) (hN : 0 < cfg.fnNum) (st stArg : LState)
    (cols : Cols) (mc : Nat)
    (hlenc : cols.length = cfg.childSlotCount + cfg.fnNum) :
    colSize (emitRepeated cfg stArg (emitLast cfg st cols mc).2.2
        (emitLast cfg st cols mc).1) cfg.childSlotCount =
      colSize cols cfg.childSlotCount + (emitLast cfg st cols mc).1 := by
  rw [← fnColIdx_zero cfg]
  by_cases h01 : 0 < cfg.fnNum - 1
  · rw [emitRepeated_colSize_fn cfg _ _ _ 0 h01
      (by rw [emitLast_length, hlenc]; unfold Config.fnColIdx; omega)]
    congr 1
    exact congrArg List.length (emitLast_cols_getD_ne cfg st cols mc _
      (by unfold Config.fnColIdx; omega))
  · have hN1 : cfg.fnNum - 1 = 0 := by omega
    have hrep : emitRepeated cfg stArg (emitLast cfg st cols mc).2.2
        (emitLast cfg st cols mc).1 = (emitLast cfg st cols mc).2.2 := by
      unfold emitRepeated
      rw [hN1]
      rfl
    rw [hrep, show cfg.fnColIdx 0 = cfg.fnColIdx (cfg.fnNum - 1) from by
      rw [hN1]]
    exact emitLast_colSize_self cfg st cols mc
      (by rw [hlenc]; unfold Config.fnColIdx; omega)

/-- An emit that would overrun the smaller capacity decomposes: the
large-capacity emit reaches the same state and columns as the
small-capacity (clamped) emit followed by a second emit of the rest. -/
theorem skipCheckAndEmit_decompose (cfg : Config) (capB cap2 : Nat)
    (st : LState) (cols : Cols) (evsA evsB : List Event)
    (hN : 0 < cfg.fnNum)
    (hlenc : cols.length = cfg.childSlotCount + cfg.fnNum)
    (hlenp : st.pos.length = cfg.fnNum)
    (hsk : isInnerAndEmptyRow cfg st.curRow = false)
    (havail : capB - colSize cols cfg.childSlotCount <
      ((cfg.fns.getD (cfg.fnNum - 1) default).effVals st.curRow).length -
        st.pos.getD (cfg.fnNum - 1) 0) :
    (skipCheckAndEmit cfg (capB + cap2) st cols evsA).state =
      (skipCheckAndEmit cfg (capB + cap2)
        (skipCheckAndEmit cfg capB st cols evsB).state
        (skipCheckAndEmit cfg capB st cols evsB).cols ([] : List Event)).state ∧
    (skipCheckAndEmit cfg (capB + cap2) st cols evsA).cols =
      (skipCheckAndEmit cfg (capB + cap2)
        (skipCheckAndEmit cfg capB st cols evsB).state
        (skipCheckAndEmit cfg capB st cols evsB).cols ([] : List Event)).cols := by
  rw [skipCheckAndEmit_emit_eq cfg (capB + cap2) st cols evsA hsk,
    skipCheckAndEmit_emit_eq cfg capB st cols evsB hsk]
  dsimp only [StepRes.state, StepRes.cols]
  set eA := emitLast cfg st cols
    (capB + cap2 - colSize cols cfg.childSlotCount) with heA
  set eB := emitLast cfg st cols
    (capB - colSize cols cfg.childSlotCount) with heB
  set STB : LState := { st with pos := st.pos.set (cfg.fnNum - 1) (st.pos.getD (cfg.fnNum - 1) 0 + eB.1), currentRowInsertTimes := st.currentRowInsertTimes + eB.1 } with hSTB
  set CTB : Cols := emitRepeated cfg STB eB.2.2 eB.1 with hCTB
  rw [skipCheckAndEmit_emit_eq cfg (capB + cap2) STB CTB ([] : List Event) hsk]
  dsimp only [StepRes.state, StepRes.cols]
  set e2 := emitLast cfg STB CTB
    (capB + cap2 - colSize CTB cfg.childSlotCount) with he2
  have hTA : eA.1 = min (capB + cap2 - colSize cols cfg.childSlotCount)
      (((cfg.fns.getD (cfg.fnNum - 1) default).effVals st.curRow).length -
        st.pos.getD (cfg.fnNum - 1) 0) := by
    rw [heA]
    exact emitLast_t cfg st cols _
  have hTBmin : eB.1 = min (capB - colSize cols cfg.childSlotCount)
      (((cfg.fns.getD (cfg.fnNum - 1) default).effVals st.curRow).length -
        st.pos.getD (cfg.fnNum - 1) 0) := by
    rw [heB]
    exact emitLast_t cfg st cols _
  have hp2 : STB.pos.getD (cfg.fnNum - 1) 0 =
      st.pos.getD (cfg.fnNum - 1) 0 + eB.1 :=
    getD_set_self' st.pos (cfg.fnNum - 1) _ 0 (by rw [hlenp]; omega)
  have hsz2 : colSize CTB cfg.childSlotCount =
      colSize cols cfg.childSlotCount + eB.1 := by
    rw [hCTB, heB]
    exact emit_cols_fn0_size cfg hN st STB cols _ hlenc
  have hT2 : e2.1 = min (capB + cap2 - colSize CTB cfg.childSlotCount)
      (((cfg.fns.getD (cfg.fnNum - 1) default).effVals st.curRow).length -
        (st.pos.getD (cfg.fnNum - 1) 0 + eB.1)) := by
    rw [he2, emitLast_t, hp2]
    rfl
  have htotal : eA.1 = eB.1 + e2.1 := by
    rw [hTA, hTBmin] at *
    omega
  constructor
  · refine lstate_ext _ _ rfl ?_ ?_ rfl rfl
    · dsimp only
      rw [hp2, List.set_set]
      congr 1
      omega
    · dsimp only
      omega
  · refine cols_ext _ _ ?_ (fun j => ?_)
    · rw [emitRepeated_length, heA, emitLast_length, emitRepeated_length, he2,
        emitLast_length, hCTB, emitRepeated_length, heB, emitLast_length]
    · by_cases hjlast : j = cfg.fnColIdx (cfg.fnNum - 1)
      · rw [hjlast,
          emitRepeated_getD_stable cfg _ _ _ _
            (fun x hx => by unfold Config.fnColIdx; omega),
          heA, emitLast_col_self cfg st cols _
            (by rw [hlenc]; unfold Config.fnColIdx; omega),
          emitRepeated_getD_stable cfg _ _ _ _
            (fun x hx => by unfold Config.fnColIdx; omega),
          he2, emitLast_col_self cfg STB CTB _
            (by rw [hCTB, emitRepeated_length, heB, emitLast_length, hlenc]
                unfold Config.fnColIdx; omega),
          hCTB, emitRepeated_getD_stable cfg _ _ _ _
            (fun x hx => by unfold Config.fnColIdx; omega),
          heB, emitLast_col_self cfg st cols _
            (by rw [hlenc]; unfold Config.fnColIdx; omega)]
        have hev : (cfg.fns.getD (cfg.fnNum - 1) default).effVals STB.curRow =
            (cfg.fns.getD (cfg.fnNum - 1) default).effVals st.curRow := rfl
        rw [hev, hp2, ← heA, ← heB, List.append_assoc, ← drop_take_split,
          ← htotal]
      · by_cases hjfn : cfg.childSlotCount ≤ j ∧
            j < cfg.childSlotCount + cfg.fnNum
        · obtain ⟨hjl, hjr⟩ := hjfn
          unfold Config.fnColIdx at hjlast
          have hi : j - cfg.childSlotCount < cfg.fnNum - 1 := by omega
          have hjeq : j = cfg.fnColIdx (j - cfg.childSlotCount) := by
            unfold Config.fnColIdx
            omega
          rw [hjeq,
            emitRepeated_col_fn cfg _ _ _ _ hi
              (by rw [heA, emitLast_length, hlenc]; unfold Config.fnColIdx
                  omega),
            heA, emitLast_cols_getD_ne cfg st cols _ _
              (by unfold Config.fnColIdx; omega),
            emitRepeated_col_fn cfg _ _ _ _ hi
              (by rw [he2, emitLast_length, hCTB, emitRepeated_length, heB,
                    emitLast_length, hlenc]
                  unfold Config.fnColIdx; omega),
            he2, emitLast_cols_getD_ne cfg STB CTB _ _
              (by unfold Config.fnColIdx; omega),
            hCTB, emitRepeated_col_fn cfg _ _ _ _ hi
              (by rw [heB, emitLast_length, hlenc]; unfold Config.fnColIdx
                  omega),
            heB, emitLast_cols_getD_ne cfg st cols _ _
              (by unfold Config.fnColIdx; omega)]
          rw [← heA, ← heB]
          have hv1 : (({ st with pos := st.pos.set (cfg.fnNum - 1) (st.pos.getD (cfg.fnNum - 1) 0 + eA.1), currentRowInsertTimes := st.currentRowInsertTimes + eA.1 } : LState)).pos.getD (j - cfg.childSlotCount) 0 =
              st.pos.getD (j - cfg.childSlotCount) 0 := by
            dsimp only
            exact getD_set_ne' st.pos _ _ _ 0 (by omega)
          have hv2 : (({ STB with pos := STB.pos.set (cfg.fnNum - 1) (STB.pos.getD (cfg.fnNum - 1) 0 + e2.1), currentRowInsertTimes := STB.currentRowInsertTimes + e2.1 } : LState)).pos.getD (j - cfg.childSlotCount) 0 =
              st.pos.getD (j - cfg.childSlotCount) 0 := by
            dsimp only
            rw [getD_set_ne' STB.pos _ _ _ 0 (by omega), hSTB]
            dsimp only
            exact getD_set_ne' st.pos _ _ _ 0 (by omega)
          have hv3 : STB.pos.getD (j - cfg.childSlotCount) 0 =
              st.pos.getD (j - cfg.childSlotCount) 0 := by
            rw [hSTB]
            dsimp only
            exact getD_set_ne' st.pos _ _ _ 0 (by omega)
          rw [hv1, hv2, hv3, ← hCTB, ← he2]
          have hcrA : (({ st with pos := st.pos.set (cfg.fnNum - 1) (st.pos.getD (cfg.fnNum - 1) 0 + eA.1), currentRowInsertTimes := st.currentRowInsertTimes + eA.1 } : LState)).curRow = st.curRow := rfl
          have hcrB : STB.curRow = st.curRow := rfl
          have hcr2 : (({ STB with pos := STB.pos.set (cfg.fnNum - 1) (STB.pos.getD (cfg.fnNum - 1) 0 + e2.1), currentRowInsertTimes := STB.currentRowInsertTimes + e2.1 } : LState)).curRow = st.curRow := rfl
          rw [hcrA, hcrB, hcr2, List.append_assoc, ← List.replicate_add,
            ← htotal]
        · have hcl : j < cfg.childSlotCount ∨
              cfg.childSlotCount + cfg.fnNum ≤ j := by
            by_contra hcon
            push_neg at hcon
            exact hjfn ⟨by omega, by omega⟩
          rcases hcl with hcl | hcl <;>
            rw [emitRepeated_getD_stable cfg _ _ _ j
                (fun x hx => by unfold Config.fnColIdx; omega),
              heA, emitLast_cols_getD_ne cfg st cols _ j
                (by unfold Config.fnColIdx; omega),
              emitRepeated_getD_stable cfg _ _ _ j
                (fun x hx => by unfold Config.fnColIdx; omega),
              he2, emitLast_cols_getD_ne cfg STB CTB _ j
                (by unfold Config.fnColIdx; omega),
              hCTB, emitRepeated_getD_stable cfg _ _ _ j
                (fun x hx => by unfold Config.fnColIdx; omega),
              heB, emitLast_cols_getD_ne cfg st cols _ j
                (by unfold Config.fnColIdx; omega)]

/-- When the last instance is not exhausted, the loop body goes
straight to the skip check and emission. -/
theorem innerBody_fresh_emit (cfg : Config) (hN : 0 < cfg.fnNum) (cap : Nat)
    (st : LState) (cols : Cols)
    (hnotlast : ¬ ((cfg.sizes st.curRow).getD (cfg.fnNum - 1) 0 ≤
      st.pos.getD (cfg.fnNum - 1) 0)) :
    innerBody cfg cap st cols false = skipCheckAndEmit cfg cap st cols [] := by
  have hfind : findLastFnEosIdx (eosVec cfg st) = -1 :=
    (find_neg_one_iff cfg st hN).mpr hnotlast
  simp only [innerBody]
  rw [hfind, if_neg (by decide), if_neg (fun hc => hc.2 rfl)]

/-- Outcome of one loop iteration run at the two capacities from the
same configuration: the smaller-capacity side keeps its invariants, and
either the two sides stay identical, or the small side has just hit its
capacity and the large side is now simulated by a fresh call 2 whose
first iteration has already been taken. -/
def EqStepPost (cfg : Config) (capB cap2 : Nat) (sA sB : LState)
    (cA cB : Cols) (kA kB : Bool) : Prop :=
  kA = kB ∧
  cB.length = cfg.childSlotCount + cfg.fnNum ∧
  sB.pos.length = cfg.fnNum ∧
  colSize cB cfg.childSlotCount ≤ capB ∧
  (kB = true → colSize cB cfg.childSlotCount < capB) ∧
  (∀ j ∈ cfg.uselessSlotIndexs, cB.getD j [] = []) ∧
  sB.childBlock ≠ [] ∧
  ((sA = sB ∧ cA = cB) ∨
    (kB = false ∧ colSize cB cfg.childSlotCount = capB ∧ 0 < cap2 ∧
      match innerBody cfg cap2 { sB with currentRowInsertTimes := 0 }
          (emptyCols cfg) false with
      | .next s21 c21 k21 _ =>
          k21 = false ∧
          ShiftRel cfg (padUseless cfg (copyOutputSlots cfg sB cB).2)
            sA s21 cA c21
      | .brk _ _ _ => False))

/-- The skip-check-and-emit tail at the two capacities. -/
theorem skipCheckAndEmit_cap_cases (cfg : Config) (hwf : ConfigWF cfg)
    (capB cap2 : Nat) (st : LState) (cols : Cols) (evsA evsB : List Event)
    (hlenc : cols.length = cfg.childSlotCount + cfg.fnNum)
    (hlenp : st.pos.length = cfg.fnNum)
    (hszB : colSize cols cfg.childSlotCount < capB)
    (husel : ∀ j ∈ cfg.uselessSlotIndexs, cols.getD j [] = [])
    (hblk : st.childBlock ≠ []) :
    match skipCheckAndEmit cfg (capB + cap2) st cols evsA,
        skipCheckAndEmit cfg capB st cols evsB with
    | .next sA cA kA _, .next sB cB kB _ =>
        EqStepPost cfg capB cap2 sA sB cA cB kA kB
    | _, _ => False := by
  have hN := hwf.posN
  by_cases hsk : isInnerAndEmptyRow cfg st.curRow = true
  · simp only [skipCheckAndEmit]
    rw [if_pos hsk, if_pos hsk]
    exact ⟨rfl, hlenc, hlenp, Nat.le_of_lt hszB, fun _ => hszB, husel, hblk,
      Or.inl ⟨rfl, rfl⟩⟩
  · have hskf : isInnerAndEmptyRow cfg st.curRow = false :=
      Bool.eq_false_iff.mpr hsk
    have hdec0 := skipCheckAndEmit_decompose cfg capB cap2 st cols evsA evsB
      hN hlenc hlenp hskf
    rw [skipCheckAndEmit_emit_eq cfg (capB + cap2) st cols evsA hskf,
      skipCheckAndEmit_emit_eq cfg capB st cols evsB hskf]
    set eA := emitLast cfg st cols
      (capB + cap2 - colSize cols cfg.childSlotCount) with heA
    set eB := emitLast cfg st cols
      (capB - colSize cols cfg.childSlotCount) with heB
    set SA : LState := { st with pos := st.pos.set (cfg.fnNum - 1) (st.pos.getD (cfg.fnNum - 1) 0 + eA.1), currentRowInsertTimes := st.currentRowInsertTimes + eA.1 } with hSA
    set SB : LState := { st with pos := st.pos.set (cfg.fnNum - 1) (st.pos.getD (cfg.fnNum - 1) 0 + eB.1), currentRowInsertTimes := st.currentRowInsertTimes + eB.1 } with hSB
    set CA : Cols := emitRepeated cfg SA eA.2.2 eA.1 with hCA
    set CB : Cols := emitRepeated cfg SB eB.2.2 eB.1 with hCB
    have htA : eA.1 = min (capB + cap2 - colSize cols cfg.childSlotCount)
        (((cfg.fns.getD (cfg.fnNum - 1) default).effVals st.curRow).length -
          st.pos.getD (cfg.fnNum - 1) 0) := by
      rw [heA]
      exact emitLast_t cfg st cols _
    have htB : eB.1 = min (capB - colSize cols cfg.childSlotCount)
        (((cfg.fns.getD (cfg.fnNum - 1) default).effVals st.curRow).length -
          st.pos.getD (cfg.fnNum - 1) 0) := by
      rw [heB]
      exact emitLast_t cfg st cols _
    have hfn0 : colSize CB cfg.childSlotCount =
        colSize cols cfg.childSlotCount + eB.1 := by
      rw [hCB, heB]
      exact emit_cols_fn0_size cfg hN st SB cols _ hlenc
    have hlenCB : CB.length = cfg.childSlotCount + cfg.fnNum := by
      rw [hCB, emitRepeated_length, heB, emitLast_length]
      exact hlenc
    have huselCB : ∀ j ∈ cfg.uselessSlotIndexs, CB.getD j [] = [] := by
      intro j hj
      have hjlt := hwf.uselessLt j hj
      rw [hCB, emitRepeated_getD_stable cfg _ _ _ j
          (fun x hx => by unfold Config.fnColIdx; omega),
        heB, emitLast_cols_getD_ne cfg st cols _ j
          (by unfold Config.fnColIdx; omega)]
      exact husel j hj
    refine ⟨rfl, hlenCB, ?_, ?_, fun hko => Bool.noConfusion hko, huselCB,
      hblk, ?_⟩
    · rw [hSB]
      dsimp only
      rw [List.length_set]
      exact hlenp
    · rw [hfn0]
      omega
    · by_cases hcross : eA.1 = eB.1
      · refine Or.inl ⟨?_, ?_⟩
        · rw [hSA, hSB, hcross]
        · have hee : eA = eB := by
            have hmin : min (capB + cap2 - colSize cols cfg.childSlotCount)
                (((cfg.fns.getD (cfg.fnNum - 1) default).effVals
                  st.curRow).length - st.pos.getD (cfg.fnNum - 1) 0) =
                min (capB - colSize cols cfg.childSlotCount)
                (((cfg.fns.getD (cfg.fnNum - 1) default).effVals
                  st.curRow).length - st.pos.getD (cfg.fnNum - 1) 0) := by
              rw [← htA, ← htB]
              exact hcross
            rw [heA, heB]
            simp only [emitLast]
            rw [hmin]
          rw [hCA, hCB, hee, hSA, hSB, hcross]
      · have havail : capB - colSize cols cfg.childSlotCount <
            ((cfg.fns.getD (cfg.fnNum - 1) default).effVals st.curRow).length -
              st.pos.getD (cfg.fnNum - 1) 0 := by
          by_contra hna
          push_neg at hna
          apply hcross
          rw [htA, htB]
          omega
        have hc2 : 0 < cap2 := by
          by_contra hc0
          apply hcross
          rw [htA, htB]
          omega
        have hcapB : colSize CB cfg.childSlotCount = capB := by
          rw [hfn0, htB]
          omega
        refine Or.inr ⟨rfl, hcapB, hc2, ?_⟩
        rw [innerBody_fresh_emit cfg hN cap2 _ (emptyCols cfg) ?hno]
        case hno =>
          show ¬ ((cfg.sizes st.curRow).getD (cfg.fnNum - 1) 0 ≤
            (st.pos.set (cfg.fnNum - 1)
              (st.pos.getD (cfg.fnNum - 1) 0 + eB.1)).getD (cfg.fnNum - 1) 0)
          rw [getD_set_self' st.pos _ _ 0 (by rw [hlenp]; omega),
            sizes_getD cfg st.curRow (cfg.fnNum - 1) (by omega), htB]
          omega
        rw [skipCheckAndEmit_emit_eq cfg cap2
          { SB with currentRowInsertTimes := 0 } (emptyCols cfg)
          ([] : List Event)
          (show isInnerAndEmptyRow cfg
            ({ SB with currentRowInsertTimes := 0 } : LState).curRow = false
            from hskf)]
        refine ⟨rfl, ?_⟩
        have hdec := hdec0 havail
        rw [skipCheckAndEmit_emit_eq cfg (capB + cap2) st cols evsA hskf,
          skipCheckAndEmit_emit_eq cfg capB st cols evsB hskf] at hdec
        dsimp only [StepRes.state, StepRes.cols] at hdec
        rw [skipCheckAndEmit_emit_eq cfg (capB + cap2) SB CB
          ([] : List Event) hskf] at hdec
        dsimp only [StepRes.state, StepRes.cols] at hdec
        have hpreP : colSize (padUseless cfg (copyOutputSlots cfg SB CB).2)
            cfg.childSlotCount = capB := by
          unfold colSize
          rw [padUseless_getD_stable cfg _ _
              (fun x hx => by have := hwf.uselessLt x hx; omega),
            copyOutputSlots_getD_stable cfg SB CB _
              (fun x hx => by have := hwf.needLt x hx; omega)]
          exact hcapB
        have hrelH := handoff_rel cfg hwf SB CB hlenCB huselCB
        have hshift := skipCheckAndEmit_shift cfg hwf capB cap2
          (padUseless cfg (copyOutputSlots cfg SB CB).2) SB
          { SB with currentRowInsertTimes := 0 } CB (emptyCols cfg)
          ([] : List Event) ([] : List Event) hpreP hrelH
        rw [skipCheckAndEmit_emit_eq cfg (capB + cap2) SB CB
            ([] : List Event) hskf,
          skipCheckAndEmit_emit_eq cfg cap2 { SB with currentRowInsertTimes := 0 }
            (emptyCols cfg) ([] : List Event) hskf] at hshift
        have hdec1 : SA = { SB with pos := SB.pos.set (cfg.fnNum - 1) (SB.pos.getD (cfg.fnNum - 1) 0 + (emitLast cfg SB CB (capB + cap2 - colSize CB cfg.childSlotCount)).1), currentRowInsertTimes := SB.currentRowInsertTimes + (emitLast cfg SB CB (capB + cap2 - colSize CB cfg.childSlotCount)).1 } := hdec.1
        have hdec2 : CA = emitRepeated cfg
            { SB with pos := SB.pos.set (cfg.fnNum - 1) (SB.pos.getD (cfg.fnNum - 1) 0 + (emitLast cfg SB CB (capB + cap2 - colSize CB cfg.childSlotCount)).1), currentRowInsertTimes := SB.currentRowInsertTimes + (emitLast cfg SB CB (capB + cap2 - colSize CB cfg.childSlotCount)).1 }
            (emitLast cfg SB CB
              (capB + cap2 - colSize CB cfg.childSlotCount)).2.2
            (emitLast cfg SB CB
              (capB + cap2 - colSize CB cfg.childSlotCount)).1 := hdec.2
        rw [hdec1, hdec2]
        exact hshift.2

/-- One loop iteration at the two capacities from the same state: the
iterations break together (draining the block), or step together with
the post-relation `EqStepPost`. -/
theorem innerBody_cap_cases (cfg : Config) (hwf : ConfigWF cfg)
    (capB cap2 : Nat) (st : LState) (cols : Cols) (skip : Bool)
    (hlenc : cols.length = cfg.childSlotCount + cfg.fnNum)
    (hlenp : st.pos.length = cfg.fnNum)
    (hszB : colSize cols cfg.childSlotCount < capB)
    (husel : ∀ j ∈ cfg.uselessSlotIndexs, cols.getD j [] = [])
    (hblk : st.childBlock ≠ []) :
    match innerBody cfg (capB + cap2) st cols skip,
        innerBody cfg capB st cols skip with
    | .brk sA cA _, .brk sB cB _ => sA = sB ∧ cA = cB ∧ sB.childBlock = []
    | .next sA cA kA _, .next sB cB kB _ =>
        EqStepPost cfg capB cap2 sA sB cA cB kA kB
    | _, _ => False := by
  simp only [innerBody]
  by_cases h1 : findLastFnEosIdx (eosVec cfg st) = 0 ∨ skip = true
  · rw [if_pos h1, if_pos h1]
    by_cases h2 : (processNextChildRow cfg
        (copyOutputSlots cfg st cols).1).1.curChildOffset = none
    · rw [if_pos h2, if_pos h2]
      exact ⟨rfl, rfl, processNextChildRow_none_block cfg _ h2⟩
    · rw [if_neg h2, if_neg h2]
      have hclen : ¬ ((copyOutputSlots cfg st cols).1.childBlock.length ≤
          (match (copyOutputSlots cfg st cols).1.curChildOffset with
            | none => 0 | some r => r + 1)) := by
        intro hc
        apply h2
        simp only [processNextChildRow]
        rw [if_pos hc]
      have hpr : (processNextChildRow cfg (copyOutputSlots cfg st cols).1).1 =
          { (copyOutputSlots cfg st cols).1 with curChildOffset := some (match (copyOutputSlots cfg st cols).1.curChildOffset with | none => 0 | some r => r + 1), pos := List.replicate cfg.fnNum 0 } := by
        simp only [processNextChildRow]
        rw [if_neg hclen]
      have hlenc' : (copyOutputSlots cfg st cols).2.length =
          cfg.childSlotCount + cfg.fnNum := by
        rw [copyOutputSlots_length]
        exact hlenc
      have hlenp' : (processNextChildRow cfg
          (copyOutputSlots cfg st cols).1).1.pos.length = cfg.fnNum := by
        rw [hpr]
        exact List.length_replicate cfg.fnNum 0
      have hsz' : colSize (copyOutputSlots cfg st cols).2
          cfg.childSlotCount < capB := by
        rw [copyOutputSlots_colSize_stable cfg st cols _
          (fun i hi => by have := hwf.needLt i hi; omega)]
        exact hszB
      have husel' : ∀ j ∈ cfg.uselessSlotIndexs,
          (copyOutputSlots cfg st cols).2.getD j [] = [] := by
        intro j hj
        rw [copyOutputSlots_getD_stable cfg st cols j
          (fun i hi => fun he => hwf.disj j hj (he ▸ hi))]
        exact husel j hj
      have hblk' : (processNextChildRow cfg
          (copyOutputSlots cfg st cols).1).1.childBlock ≠ [] := by
        rw [hpr]
        show (copyOutputSlots cfg st cols).1.childBlock ≠ []
        intro he
        apply hclen
        rw [he]
        exact Nat.zero_le _
      have hsc := skipCheckAndEmit_cap_cases cfg hwf capB cap2
        (processNextChildRow cfg (copyOutputSlots cfg st cols).1).1
        (copyOutputSlots cfg st cols).2
        (processNextChildRow cfg (copyOutputSlots cfg st cols).1).2
        (processNextChildRow cfg (copyOutputSlots cfg st cols).1).2
        hlenc' hlenp' hsz' husel' hblk'
      rcases hrA : skipCheckAndEmit cfg (capB + cap2)
          (processNextChildRow cfg (copyOutputSlots cfg st cols).1).1
          (copyOutputSlots cfg st cols).2
          (processNextChildRow cfg (copyOutputSlots cfg st cols).1).2 with
        ⟨a, b, c⟩ | ⟨sA, cA, kA, eA⟩ <;>
        rcases hrB : skipCheckAndEmit cfg capB
            (processNextChildRow cfg (copyOutputSlots cfg st cols).1).1
            (copyOutputSlots cfg st cols).2
            (processNextChildRow cfg (copyOutputSlots cfg st cols).1).2 with
          ⟨a2, b2, c2⟩ | ⟨sB, cB, kB, eB⟩ <;>
        rw [hrA, hrB] at hsc
      · exact hsc.elim
      · exact hsc.elim
      · exact hsc.elim
      · exact hsc
  · rw [if_neg h1, if_neg h1]
    by_cases h2 : findLastFnEosIdx (eosVec cfg st) < (cfg.fnNum : Int) ∧
        findLastFnEosIdx (eosVec cfg st) ≠ -1
    · rw [if_pos h2, if_pos h2]
      by_cases h3 : (rollTableFunctions (cfg.sizes st.curRow) st.pos
          (findLastFnEosIdx (eosVec cfg st)).toNat).1 = true
      · rw [if_pos h3, if_pos h3]
        have hlenp' : ({ st with pos := (rollTableFunctions (cfg.sizes st.curRow) st.pos (findLastFnEosIdx (eosVec cfg st)).toNat).2 } : LState).pos.length = cfg.fnNum := by
          show (rollTableFunctions (cfg.sizes st.curRow) st.pos
            (findLastFnEosIdx (eosVec cfg st)).toNat).2.length = cfg.fnNum
          rw [rollTableFunctions_length]
          exact hlenp
        have hsc := skipCheckAndEmit_cap_cases cfg hwf capB cap2
          { st with pos := (rollTableFunctions (cfg.sizes st.curRow) st.pos (findLastFnEosIdx (eosVec cfg st)).toNat).2 }
          cols [Event.roll (findLastFnEosIdx (eosVec cfg st)) true]
          [Event.roll (findLastFnEosIdx (eosVec cfg st)) true]
          hlenc hlenp' hszB husel hblk
        rcases hrA : skipCheckAndEmit cfg (capB + cap2)
            { st with pos := (rollTableFunctions (cfg.sizes st.curRow) st.pos (findLastFnEosIdx (eosVec cfg st)).toNat).2 }
            cols [Event.roll (findLastFnEosIdx (eosVec cfg st)) true] with
          ⟨a, b, c⟩ | ⟨sA, cA, kA, eA⟩ <;>
          rcases hrB : skipCheckAndEmit cfg capB
              { st with pos := (rollTableFunctions (cfg.sizes st.curRow) st.pos (findLastFnEosIdx (eosVec cfg st)).toNat).2 }
              cols [Event.roll (findLastFnEosIdx (eosVec cfg st)) true] with
            ⟨a2, b2, c2⟩ | ⟨sB, cB, kB, eB⟩ <;>
          rw [hrA, hrB] at hsc
        · exact hsc.elim
        · exact hsc.elim
        · exact hsc.elim
        · exact hsc
      · rw [if_neg h3, if_neg h3]
        refine ⟨rfl, hlenc, ?_, Nat.le_of_lt hszB, fun _ => hszB, husel, hblk,
          Or.inl ⟨rfl, rfl⟩⟩
        show (rollTableFunctions (cfg.sizes st.curRow) st.pos
          (findLastFnEosIdx (eosVec cfg st)).toNat).2.length = cfg.fnNum
        rw [rollTableFunctions_length]
        exact hlenp
    · rw [if_neg h2, if_neg h2]
      have hsc := skipCheckAndEmit_cap_cases cfg hwf capB cap2 st cols
        ([] : List Event) ([] : List Event) hlenc hlenp hszB husel hblk
      rcases hrA : skipCheckAndEmit cfg (capB + cap2) st cols
          ([] : List Event) with ⟨a, b, c⟩ | ⟨sA, cA, kA, eA⟩ <;>
        rcases hrB : skipCheckAndEmit cfg capB st cols ([] : List Event) with
          ⟨a2, b2, c2⟩ | ⟨sB, cB, kB, eB⟩ <;>
        rw [hrA, hrB] at hsc
      · exact hsc.elim
      · exact hsc.elim
      · exact hsc.elim
      · exact hsc

/-- Relation between the full outputs of the inner loop run at the two
capacities from the same start: either both ended identically (with the
block drained, or with no capacity left for a second call), or the
small-capacity run hit its capacity exactly and every completed
second-call loop run from the flushed handoff state ends related to the
large-capacity run by the column-shift simulation. -/
def SplitPost (cfg : Config) (capB cap2 : Nat)
    (outA outB : LState × Cols × List Event) : Prop :=
  (outA.1 = outB.1 ∧ outA.2.1 = outB.2.1 ∧
    (outB.1.childBlock = [] ∨ cap2 = 0)) ∨
  (0 < cap2 ∧ colSize outB.2.1 cfg.childSlotCount = capB ∧
    outB.1.childBlock ≠ [] ∧
    outB.2.1.length = cfg.childSlotCount + cfg.fnNum ∧
    (∀ j ∈ cfg.uselessSlotIndexs, outB.2.1.getD j [] = []) ∧
    ∀ fuel2 out2,
      innerLoopGo cfg cap2 fuel2
          { outB.1 with currentRowInsertTimes := 0 } (emptyCols cfg) false =
        some out2 →
      ShiftRel cfg (padUseless cfg (copyOutputSlots cfg outB.1 outB.2.1).2)
        outA.1 out2.1 outA.2.1 out2.2.1)

/-- Master split lemma for the inner loop: completed runs at capacities
`capB + cap2` and `capB` from the same start state satisfy
`SplitPost`. -/
theorem innerLoopGo_split (cfg : Config) (hwf : ConfigWF cfg) (capB cap2 : Nat) :
    ∀ (fuelA fuelB : Nat) (st : LState) (cols : Cols) (skip : Bool)
      (outA outB : LState × Cols × List Event),
      cols.length = cfg.childSlotCount + cfg.fnNum →
      st.pos.length = cfg.fnNum →
      colSize cols cfg.childSlotCount ≤ capB →
      (skip = true → colSize cols cfg.childSlotCount < capB) →
      (∀ j ∈ cfg.uselessSlotIndexs, cols.getD j [] = []) →
      st.childBlock ≠ [] →
      innerLoopGo cfg (capB + cap2) fuelA st cols skip = some outA →
      innerLoopGo cfg capB fuelB st cols skip = some outB →
      SplitPost cfg capB cap2 outA outB := by
  intro fuelA
  induction fuelA with
  | zero =>
    intro fuelB st cols skip outA outB _ _ _ _ _ _ hrunA _
    simp only [innerLoopGo] at hrunA
    exact Option.noConfusion hrunA
  | succ fuelA ih =>
    intro fuelB st cols skip outA outB hlenc hlenp hle hskipsz husel hblk
      hrunA hrunB
    by_cases hgB : colSize cols cfg.childSlotCount < capB
    · cases fuelB with
      | zero =>
        simp only [innerLoopGo] at hrunB
        exact Option.noConfusion hrunB
      | succ fuelB =>
        simp only [innerLoopGo] at hrunA hrunB
        rw [if_pos (show colSize cols cfg.childSlotCount < capB + cap2 by
          omega)] at hrunA
        rw [if_pos hgB] at hrunB
        have hstep := innerBody_cap_cases cfg hwf capB cap2 st cols skip
          hlenc hlenp hgB husel hblk
        rcases hbA : innerBody cfg (capB + cap2) st cols skip with
          ⟨sA, cA, eA⟩ | ⟨sA, cA, kA, eA⟩ <;>
          rcases hbB : innerBody cfg capB st cols skip with
            ⟨sB, cB, eB⟩ | ⟨sB, cB, kB, eB⟩ <;>
          rw [hbA, hbB] at hstep <;> rw [hbA] at hrunA <;> rw [hbB] at hrunB
        · obtain ⟨hs, hc, hbe⟩ := hstep
          have hA : some ((sA, cA, eA) : LState × Cols × List Event) =
              some outA := hrunA
          have hB : some ((sB, cB, eB) : LState × Cols × List Event) =
              some outB := hrunB
          have hA' := Option.some.inj hA
          have hB' := Option.some.inj hB
          left
          refine ⟨?_, ?_, Or.inl ?_⟩
          · rw [← hA', ← hB']
            exact hs
          · rw [← hA', ← hB']
            exact hc
          · rw [← hB']
            exact hbe
        · exact hstep.elim
        · exact hstep.elim
        · obtain ⟨hkk, hlenB', hlenp', hle', hskipsz', husel', hblk', hor⟩ :=
            hstep
          subst hkk
          have hA : (innerLoopGo cfg (capB + cap2) fuelA sA cA kA).map
              (fun x => (x.1, x.2.1, eA ++ x.2.2)) = some outA := hrunA
          have hB : (innerLoopGo cfg capB fuelB sB cB kA).map
              (fun x => (x.1, x.2.1, eB ++ x.2.2)) = some outB := hrunB
          rcases hor with ⟨hs, hc⟩ | ⟨hkB, hcap, hc2, hm⟩
          · subst hs
            subst hc
            rcases hrecA : innerLoopGo cfg (capB + cap2) fuelA sA cA kA with
              _ | ⟨oA⟩
            · rw [hrecA] at hA
              exact Option.noConfusion hA
            · rcases hrecB : innerLoopGo cfg capB fuelB sA cA kA with _ | ⟨oB⟩
              · rw [hrecB] at hB
                exact Option.noConfusion hB
              · rw [hrecA, Option.map_some'] at hA
                rw [hrecB, Option.map_some'] at hB
                have hpost := ih fuelB sA cA kA oA oB hlenB' hlenp' hle'
                  hskipsz' husel' hblk' hrecA hrecB
                have hA' := Option.some.inj hA
                have hB' := Option.some.inj hB
                have houtA1 : outA.1 = oA.1 := by
                  rw [← hA']
                have houtA2 : outA.2.1 = oA.2.1 := by
                  rw [← hA']
                have houtB1 : outB.1 = oB.1 := by
                  rw [← hB']
                have houtB2 : outB.2.1 = oB.2.1 := by
                  rw [← hB']
                unfold SplitPost at hpost ⊢
                rw [houtA1, houtA2, houtB1, houtB2]
                exact hpost
          · subst hkB
            cases fuelB with
            | zero =>
              rw [show innerLoopGo cfg capB 0 sB cB false = none from rfl]
                at hB
              exact Option.noConfusion hB
            | succ fuelB =>
            have hrecB : innerLoopGo cfg capB (fuelB + 1) sB cB false =
                some (sB, cB, []) := by
              simp only [innerLoopGo]
              rw [if_neg (show ¬ colSize cB cfg.childSlotCount < capB by
                rw [hcap]; omega)]
            rw [hrecB, Option.map_some'] at hB
            have hB' := Option.some.inj hB
            rcases hrecA : innerLoopGo cfg (capB + cap2) fuelA sA cA false with
              _ | ⟨oA⟩
            · rw [hrecA] at hA
              exact Option.noConfusion hA
            · rw [hrecA, Option.map_some'] at hA
              have hA' := Option.some.inj hA
              have houtA1 : outA.1 = oA.1 := by
                rw [← hA']
              have houtA2 : outA.2.1 = oA.2.1 := by
                rw [← hA']
              have houtB1 : outB.1 = sB := by
                rw [← hB']
              have houtB2 : outB.2.1 = cB := by
                rw [← hB']
              right
              rw [houtA1, houtA2, houtB1, houtB2]
              refine ⟨hc2, hcap, hblk', hlenB', husel', ?_⟩
              intro fuel2 out2 hrun2
              cases fuel2 with
              | zero =>
                simp only [innerLoopGo] at hrun2
                exact Option.noConfusion hrun2
              | succ fuel2 =>
                simp only [innerLoopGo] at hrun2
                rw [if_pos (show colSize (emptyCols cfg) cfg.childSlotCount <
                    cap2 from by
                  unfold colSize
                  rw [emptyCols_getD]
                  exact hc2)] at hrun2
                rcases hb2 : innerBody cfg cap2
                    { sB with currentRowInsertTimes := 0 } (emptyCols cfg)
                    false with ⟨s21, c21, e21⟩ | ⟨s21, c21, k21, e21⟩ <;>
                  rw [hb2] at hm hrun2
                · exact hm.elim
                · obtain ⟨hk21, hrel⟩ := hm
                  subst hk21
                  have h2m : (innerLoopGo cfg cap2 fuel2 s21 c21 false).map
                      (fun x => (x.1, x.2.1, e21 ++ x.2.2)) = some out2 :=
                    hrun2
                  rcases hrec2 : innerLoopGo cfg cap2 fuel2 s21 c21 false with
                    _ | ⟨o2⟩
                  · rw [hrec2] at h2m
                    exact Option.noConfusion h2m
                  · rw [hrec2, Option.map_some'] at h2m
                    have h2e := Option.some.inj h2m
                    have hout21 : out2.1 = o2.1 := by
                      rw [← h2e]
                    have hout22 : out2.2.1 = o2.2.1 := by
                      rw [← h2e]
                    rw [hout21, hout22]
                    have hpre : colSize (padUseless cfg
                        (copyOutputSlots cfg sB cB).2) cfg.childSlotCount =
                        capB := by
                      unfold colSize
                      rw [padUseless_getD_stable cfg _ _
                          (fun x hx => by have := hwf.uselessLt x hx; omega),
                        copyOutputSlots_getD_stable cfg sB cB _
                          (fun x hx => by have := hwf.needLt x hx; omega)]
                      exact hcap
                    exact innerLoopGo_shift cfg hwf capB cap2 _ hpre fuelA
                      fuel2 sA s21 cA c21 false oA o2 hrel hrecA hrec2
    · have hsz : colSize cols cfg.childSlotCount = capB := by omega
      have hrB : outB = (st, cols, []) := by
        cases fuelB with
        | zero =>
          simp only [innerLoopGo] at hrunB
          exact Option.noConfusion hrunB
        | succ fuelB =>
          simp only [innerLoopGo] at hrunB
          rw [if_neg hgB] at hrunB
          exact (Option.some.inj hrunB).symm
      by_cases hc2 : cap2 = 0
      · subst hc2
        have hrA : outA = (st, cols, []) := by
          simp only [innerLoopGo] at hrunA
          rw [if_neg (show ¬ colSize cols cfg.childSlotCount < capB + 0 by
            omega)] at hrunA
          exact (Option.some.inj hrunA).symm
        left
        rw [hrA, hrB]
        exact ⟨rfl, rfl, Or.inr rfl⟩
      · have hskip : skip = false := by
          cases skip
          · rfl
          · exact absurd (hskipsz rfl) (by omega)
        subst hskip
        right
        rw [hrB]
        refine ⟨Nat.pos_of_ne_zero hc2, hsz, hblk, hlenc, husel, ?_⟩
        intro fuel2 out2 hrun2
        exact innerLoopGo_shift cfg hwf capB cap2 _
          (by
            unfold colSize
            rw [padUseless_getD_stable cfg _ _
                (fun x hx => by have := hwf.uselessLt x hx; omega),
              copyOutputSlots_getD_stable cfg st cols _
                (fun x hx => by have := hwf.needLt x hx; omega)]
            exact hsz)
          (fuelA + 1) fuel2 st { st with currentRowInsertTimes := 0 } cols
          (emptyCols cfg) false outA out2
          (handoff_rel cfg hwf st cols hlenc husel) hrunA hrun2

/-- Finalization under the simulation relation: after both sides flush
and pad, every output column of the composite side is the corresponding
column of call 1 followed by the corresponding column of call 2
(`hcover`: every child slot is needed or useless, as
`TableFunctionOperatorX::prepare` classifies each one). -/
theorem finalize_shift (cfg : Config) (hwf : ConfigWF cfg)
    (hcover : ∀ j, j < cfg.childSlotCount →
      j ∈ cfg.outputSlotIndexs ∨ j ∈ cfg.uselessSlotIndexs)
    (colsPre : Cols) (stS st2 : LState) (colsS cols2 : Cols)
    (hrel : ShiftRel cfg colsPre stS st2 colsS cols2)
    (hpreU : ∀ j ∈ cfg.uselessSlotIndexs,
      colsPre.getD j [] =
        List.replicate (colSize colsPre cfg.childSlotCount) Val.null) :
    ∀ j, j < cfg.childSlotCount + cfg.fnNum →
      (padUseless cfg (copyOutputSlots cfg stS colsS).2).getD j [] =
        colsPre.getD j [] ++
          (padUseless cfg (copyOutputSlots cfg st2 cols2).2).getD j [] := by
  have hrel' := copyOutputSlots_shift cfg hwf colsPre stS st2 colsS cols2 hrel
  have htS : (copyOutputSlots cfg stS colsS).1.currentRowInsertTimes = 0 := by
    rw [copyOutputSlots_fst]
  have ht2 : (copyOutputSlots cfg st2 cols2).1.currentRowInsertTimes = 0 := by
    rw [copyOutputSlots_fst]
  set DS := (copyOutputSlots cfg stS colsS).2 with hDS
  set D2 := (copyOutputSlots cfg st2 cols2).2 with hD2
  have hneed0 : ∀ i ∈ cfg.outputSlotIndexs,
      DS.getD i [] = colsPre.getD i [] ++ D2.getD i [] := by
    intro i hi
    have h := hrel'.needed i hi
    rw [htS, ht2, Nat.sub_self, List.replicate_zero, List.append_nil] at h
    exact h
  intro j hj
  by_cases hjcs : j < cfg.childSlotCount
  · rcases hcover j hjcs with hneed | huse
    · rw [padUseless_getD_stable cfg DS j
          (fun i hi => fun he => hwf.disj i hi (he ▸ hneed)),
        padUseless_getD_stable cfg D2 j
          (fun i hi => fun he => hwf.disj i hi (he ▸ hneed))]
      exact hneed0 j hneed
    · have hjDS : j < DS.length := by
        rw [hrel'.lenS]
        omega
      have hjD2 : j < D2.length := by
        rw [hrel'.len2]
        omega
      rw [padUseless_useless_col cfg DS j huse hwf.uselessNodup hjDS,
        padUseless_useless_col cfg D2 j huse hwf.uselessNodup hjD2,
        hrel'.uselessS j huse, hrel'.useless2 j huse, hpreU j huse]
      simp only [List.nil_append, List.length_nil, Nat.sub_zero]
      rw [← List.replicate_add]
      congr 1
      have h0 := hrel'.fncols 0 hwf.posN
      rw [fnColIdx_zero] at h0
      unfold colSize
      rw [h0, List.length_append]
  · have hii : j = cfg.fnColIdx (j - cfg.childSlotCount) := by
      unfold Config.fnColIdx
      omega
    have hilt : j - cfg.childSlotCount < cfg.fnNum := by
      omega
    rw [padUseless_getD_stable cfg DS j
        (fun i hi => by have := hwf.uselessLt i hi; omega),
      padUseless_getD_stable cfg D2 j
        (fun i hi => by have := hwf.uselessLt i hi; omega)]
    rw [hii]
    exact hrel'.fncols (j - cfg.childSlotCount) hilt

/-- Every completed fill call returns with the pending replication
count cleared (the unconditional final flush). -/
theorem getExpandedBlock_times0 (cfg : Config) (cap fuel : Nat) (st : LState)
    (res : FillResult) (hres : getExpandedBlock cfg cap fuel st = some res) :
    res.state.currentRowInsertTimes = 0 := by
  simp only [getExpandedBlock] at hres
  rcases Option.map_eq_some'.mp hres with ⟨x, -, hfe⟩
  rw [← hfe]
  show (copyOutputSlots cfg x.1 x.2.1).1.currentRowInsertTimes = 0
  rw [copyOutputSlots_fst]

/-- Every completed fill call returns a rectangular batch: with every
child slot either needed or useless, all output columns report the
size of the first TVF column (the loop-guard column). -/
theorem fill_rect (cfg : Config) (hwf : ConfigWF cfg)
    (hcover : ∀ j, j < cfg.childSlotCount →
      j ∈ cfg.outputSlotIndexs ∨ j ∈ cfg.uselessSlotIndexs)
    (cap fuel : Nat) (st : LState) (res : FillResult)
    (htimes : st.currentRowInsertTimes = 0)
    (hres : getExpandedBlock cfg cap fuel st = some res) :
    ∀ j, j < cfg.childSlotCount + cfg.fnNum →
      colSize res.cols j = colSize res.cols cfg.childSlotCount := by
  have hspec :
      (∀ j ∈ cfg.uselessSlotIndexs,
        res.cols.getD j [] =
          List.replicate (colSize res.cols (cfg.fnColIdx (cfg.fnNum - 1)))
            Val.null) ∧
      (∀ j ∈ cfg.outputSlotIndexs,
        colSize res.cols j = colSize res.cols (cfg.fnColIdx (cfg.fnNum - 1))) ∧
      (∀ i, i < cfg.fnNum →
        colSize res.cols (cfg.fnColIdx i) =
          colSize res.cols (cfg.fnColIdx (cfg.fnNum - 1))) := by
    simp only [getExpandedBlock] at hres
    by_cases hblk : st.childBlock = []
    · rw [if_pos hblk] at hres
      simp only [Option.map_some'] at hres
      have heq := Option.some.inj hres
      subst heq
      exact finalize_cols_spec cfg hwf st (emptyCols cfg)
        (by rw [htimes]; exact ColsInv_emptyCols cfg)
    · rw [if_neg hblk] at hres
      rcases Option.map_eq_some'.mp hres with ⟨x, hx, hfe⟩
      have hinv := innerLoopGo_inv cfg hwf cap fuel st (emptyCols cfg) false x
        (by rw [htimes]; exact ColsInv_emptyCols cfg) hx
      subst hfe
      exact finalize_cols_spec cfg hwf x.1 x.2.1 hinv
  have hcs : colSize res.cols cfg.childSlotCount =
      colSize res.cols (cfg.fnColIdx (cfg.fnNum - 1)) := by
    rw [← fnColIdx_zero cfg]
    exact hspec.2.2 0 hwf.posN
  intro j hj
  by_cases hjcs : j < cfg.childSlotCount
  · rcases hcover j hjcs with hn | hu
    · rw [hspec.2.1 j hn, hcs]
    · have h1 := hspec.1 j hu
      have h2 : colSize res.cols j =
          colSize res.cols (cfg.fnColIdx (cfg.fnNum - 1)) := by
        unfold colSize
        rw [h1, List.length_replicate]
        rfl
      rw [h2, hcs]
  · have hii : j = cfg.fnColIdx (j - cfg.childSlotCount) := by
      unfold Config.fnColIdx
      omega
    rw [hii, hspec.2.2 (j - cfg.childSlotCount) (by omega), hcs]

/-- C5: splitting one fill call of capacity `C1 + C2` into a call of
capacity `C1` followed by a call of capacity `C2` that resumes from the
first call's final state yields, concatenated, exactly the same output
rows: over the same pushed input block, every output column of the
single call is the matching column of call 1 followed by the matching
column of call 2, and within each call all output columns have equal
size (the returned batches are rectangular), so the column-wise
concatenation is the row-sequence concatenation. -/
theorem C5_fill_split (cfg : Config) (hwf : ConfigWF cfg)
    (hcover : ∀ j, j < cfg.childSlotCount →
      j ∈ cfg.outputSlotIndexs ∨ j ∈ cfg.uselessSlotIndexs)
    (cap1 cap2 fuel fuel1 fuel2 : Nat) (block : List (List Val)) (ceos : Bool)
    (res res1 res2 : FillResult)
    (h : getExpandedBlock cfg (cap1 + cap2) fuel (pushBlock cfg block ceos) =
      some res)
    (h1 : getExpandedBlock cfg cap1 fuel1 (pushBlock cfg block ceos) =
      some res1)
    (h2 : getExpandedBlock cfg cap2 fuel2 res1.state = some res2) :
    (∀ j, j < cfg.childSlotCount + cfg.fnNum →
      res.cols.getD j [] = res1.cols.getD j [] ++ res2.cols.getD j []) ∧
    (∀ j, j < cfg.childSlotCount + cfg.fnNum →
      colSize res1.cols j = colSize res1.cols cfg.childSlotCount) ∧
    (∀ j, j < cfg.childSlotCount + cfg.fnNum →
      colSize res2.cols j = colSize res2.cols cfg.childSlotCount) := by
  have hpt : (pushBlock cfg block ceos).currentRowInsertTimes = 0 := by
    simp only [pushBlock]
    by_cases hb : block = []
    · rw [if_pos hb]
    · rw [if_neg hb]
      rw [processNextChildRow_times]
  have ht1 : res1.state.currentRowInsertTimes = 0 :=
    getExpandedBlock_times0 cfg cap1 fuel1 (pushBlock cfg block ceos) res1 h1
  refine ⟨?_,
    fill_rect cfg hwf hcover cap1 fuel1 (pushBlock cfg block ceos) res1 hpt h1,
    fill_rect cfg hwf hcover cap2 fuel2 res1.state res2 ht1 h2⟩
  by_cases hb : block = []
  · subst hb
    have hst0 : pushBlock cfg [] ceos =
        ⟨none, List.replicate cfg.fnNum 0, 0, [], ceos⟩ := by
      simp only [pushBlock]
      rw [if_pos trivial]
    have hnil : (pushBlock cfg [] ceos).childBlock = [] := by
      rw [hst0]
    have hresE := getExpandedBlock_nil_cols cfg (cap1 + cap2) fuel
      (pushBlock cfg [] ceos) res h hnil hpt
    have hres1E := getExpandedBlock_nil_cols cfg cap1 fuel1
      (pushBlock cfg [] ceos) res1 h1 hnil hpt
    have hsb : res1.state.childBlock = [] := by
      have h1' := h1
      simp only [getExpandedBlock] at h1'
      rw [if_pos hnil] at h1'
      simp only [Option.map_some'] at h1'
      have he := Option.some.inj h1'
      rw [← he]
      show (copyOutputSlots cfg (pushBlock cfg [] ceos)
        (emptyCols cfg)).1.childBlock = []
      rw [copyOutputSlots_fst]
      exact hnil
    have hres2E := getExpandedBlock_nil_cols cfg cap2 fuel2 res1.state res2 h2
      hsb ht1
    intro j hj
    rw [hresE j, hres1E j, hres2E j]
    rfl
  · have hpush := pushBlock_ne_nil cfg block ceos hb
    have hblk0 : (pushBlock cfg block ceos).childBlock ≠ [] := by
      rw [hpush]
      exact hb
    obtain ⟨outA, hrunA, hcolsA, hstA⟩ :=
      getExpandedBlock_run cfg (cap1 + cap2) fuel (pushBlock cfg block ceos)
        res h hblk0
    obtain ⟨outB, hrunB, hcolsB, hstB⟩ :=
      getExpandedBlock_run cfg cap1 fuel1 (pushBlock cfg block ceos) res1 h1
        hblk0
    have hsplit := innerLoopGo_split cfg hwf cap1 cap2 fuel fuel1
      (pushBlock cfg block ceos) (emptyCols cfg) false outA outB
      (emptyCols_length cfg)
      (by rw [hpush]; exact List.length_replicate cfg.fnNum 0)
      (by unfold colSize; rw [emptyCols_getD]; exact Nat.zero_le cap1)
      (fun hk => Bool.noConfusion hk)
      (fun j _ => emptyCols_getD cfg j)
      hblk0 hrunA hrunB
    have hst1 : res1.state = { outB.1 with currentRowInsertTimes := 0 } := by
      rw [hstB, copyOutputSlots_fst]
    rcases hsplit with ⟨hs1, hs2, hd⟩ | ⟨hc2pos, hcap, hblkB, hlenB, huselB, hall⟩
    · have hre : res.cols = res1.cols := by
        rw [hcolsA, hs1, hs2, ← hcolsB]
      have hres2E : ∀ j, res2.cols.getD j [] = [] := by
        rcases hd with hbe | hc20
        · exact getExpandedBlock_nil_cols cfg cap2 fuel2 res1.state res2 h2
            (by rw [hst1]; exact hbe) ht1
        · subst hc20
          exact getExpandedBlock_cap0_cols cfg fuel2 res1.state res2 h2 ht1
      intro j hj
      rw [hre, hres2E j, List.append_nil]
    · have hblk1 : res1.state.childBlock ≠ [] := by
        rw [hst1]
        exact hblkB
      obtain ⟨out2, hrun2, hcols2, hst2⟩ :=
        getExpandedBlock_run cfg cap2 fuel2 res1.state res2 h2 hblk1
      rw [hst1] at hrun2
      have hrel := hall fuel2 out2 hrun2
      have hpreU : ∀ j ∈ cfg.uselessSlotIndexs,
          (padUseless cfg (copyOutputSlots cfg outB.1 outB.2.1).2).getD j [] =
            List.replicate
              (colSize (padUseless cfg (copyOutputSlots cfg outB.1 outB.2.1).2)
                cfg.childSlotCount) Val.null := by
        intro j hj
        have hjlt := hwf.uselessLt j hj
        have hjD : j < (copyOutputSlots cfg outB.1 outB.2.1).2.length := by
          rw [copyOutputSlots_length, hlenB]
          omega
        rw [padUseless_useless_col cfg _ j hj hwf.uselessNodup hjD]
        have hz : (copyOutputSlots cfg outB.1 outB.2.1).2.getD j [] = [] := by
          rw [copyOutputSlots_getD_stable cfg _ _ j
            (fun i hi => fun he => hwf.disj j hj (he ▸ hi))]
          exact huselB j hj
        rw [hz]
        have hsz : colSize (padUseless cfg
            (copyOutputSlots cfg outB.1 outB.2.1).2) cfg.childSlotCount =
            colSize (copyOutputSlots cfg outB.1 outB.2.1).2
              cfg.childSlotCount := by
          unfold colSize
          rw [padUseless_getD_stable cfg _ _
            (fun i hi => by have := hwf.uselessLt i hi; omega)]
        rw [hsz]
        simp
      have hfin := finalize_shift cfg hwf hcover
        (padUseless cfg (copyOutputSlots cfg outB.1 outB.2.1).2)
        outA.1 out2.1 outA.2.1 out2.2.1 hrel hpreU
      intro j hj
      rw [hcolsA, hcolsB, hcols2]
      exact hfin j hj

/-- The completed fill call over the one-row block `[[10]]` under
`cfg1` (one non-outer instance with two values per row). -/
def resC1 : FillResult :=
  ⟨⟨none, [2], 0, [], true⟩,
    [[Val.int 10, Val.int 10], [Val.int 1, Val.int 2]],
    [Event.emit 0 2 10, Event.close 0], true⟩

/-- Witness: on the concrete one-instance fixture the completed call
emits exactly `rowProduct` rows for row 0. -/
theorem C1_row_totals_witness :
    countEmits resC1.events 0 = rowProduct cfg1 0 :=
  C1_row_totals cfg1 10 10 [[Val.int 10]] true resC1 (by decide) (by decide)
    (by decide) 0 (by decide)

/-- The single fill call of capacity `1 + 1` on the one-row block
`[[10]]` under `cfg1`: it emits both values of the bound row. -/
def resC5 : FillResult :=
  ⟨⟨some 0, [2], 0, [[Val.int 10]], true⟩,
    [[Val.int 10, Val.int 10], [Val.int 1, Val.int 2]],
    [Event.emit 0 2 2], false⟩

/-- The first split call (capacity 1) on the same input: it emits the
first value only. -/
def resC5a : FillResult :=
  ⟨⟨some 0, [1], 0, [[Val.int 10]], true⟩,
    [[Val.int 10], [Val.int 1]], [Event.emit 0 1 1], false⟩

/-- The second split call (capacity 1), resumed from the first call's
final state: it emits the remaining value. -/
def resC5b : FillResult :=
  ⟨⟨some 0, [2], 0, [[Val.int 10]], true⟩,
    [[Val.int 10], [Val.int 2]], [Event.emit 0 1 1], false⟩

/-- Witness for C5: on the concrete fixture, every output column of the
capacity-2 call is the matching column of the capacity-1 call followed
by the matching column of the resumed capacity-1 call. -/
theorem C5_fill_split_witness :
    resC5.cols.getD 1 [] = resC5a.cols.getD 1 [] ++ resC5b.cols.getD 1 [] :=
  (C5_fill_split cfg1
    ⟨by decide, by decide, by decide, by decide, by decide, by decide⟩
    (by decide) 1 1 10 10 10 [[Val.int 10]] true resC5 resC5a resC5b
    (by decide) (by decide) (by decide)).1 1 (by decide)

end TableFunctionOp
